import Mathlib

/-!
Shallow embedding of the `aps-schedule-reflow` engine (TypeScript sources:
`src/utils/interval` (interval-utils), `src/utils/date`, `src/reflow/dag.ts`,
`src/utils/validation`, `src/reflow/reflow.service` in `src/index.ts`).

Time is modelled as UTC milliseconds since the Unix epoch (a `Nat`), matching
luxon `DateTime` values in zone `utc` at millisecond precision.  ISO-8601
strings in the JSON payload are represented by their parsed millisecond value.
Thrown JS errors are modelled with `Except Err`.
-/

namespace Reflow



def minuteMs : Nat := 60000

def hourMs : Nat := 3600000

def dayMs : Nat := 86400000

/-- luxon `startOf('day')` in zone `utc`. -/
def startOfDay (t : Nat) : Nat := t / dayMs * dayMs

/-- luxon `weekday` (Mon=1 .. Sun=7); 1970-01-01 (day index 0) was a Thursday. -/
def luxonWeekday (t : Nat) : Nat := (t / dayMs + 3) % 7 + 1

/-- `luxonDowToSpecDayOfWeek` from `src/utils/date`: Sun=0 .. Sat=6. -/
def luxonDowToSpecDayOfWeek (t : Nat) : Nat := luxonWeekday t % 7

/-- JS `Map<string, α>`: entries in first-insertion order, `set` on an existing
key replaces its value in place, `get` returns the entry's value. -/
abbrev SMap (α : Type) : Type := List (String × α)

namespace SMap

def get? (m : SMap α) (k : String) : Option α :=
  (m.find? (fun p => p.1 == k)).map (·.2)

def set (m : SMap α) (k : String) (v : α) : SMap α :=
  if m.any (fun p => p.1 == k) then
    m.map (fun p => if p.1 == k then (k, v) else p)
  else
    m ++ [(k, v)]

def ofList (l : List (String × α)) : SMap α :=
  l.foldl (fun m p => m.set p.1 p.2) []

end SMap

/-- A work-center shift (`src/utils/date`). -/
structure Shift where
  dayOfWeek : Nat
  startHour : Nat
  endHour : Nat
deriving DecidableEq, Repr

/-- The error kinds the engine can throw (each constructor stands for one of
the distinct `throw new Error(...)` sites of the source). -/
inductive Err where
  | invalidInput
  | invalidInterval (s e : Nat)
  | unsupportedShift (s : Shift)
  | noShiftFound
  | circularDependency (ids : List String)
  | missingDependency (parentId woNumber : String)
  | missingWorkCenter (wcId : String)
  | unschedulable
  | guardExceededFeasible (woNumber : String)
  | guardExceededOverlap (woNumber : String)
deriving DecidableEq, Repr

inductive ReservationKind where
  | maintenanceWindow
  | fixedMaintenanceWO
  | scheduledWO
deriving DecidableEq, Repr

/-- `Reservation` from interval-utils.  The source field `end` is rendered as
`stop` (`end` is a Lean keyword); the free-form logging payload `meta` is
omitted (it never influences control flow or results). -/
structure Reservation where
  start : Nat
  stop : Nat
  kind : ReservationKind
  refId : Option String
deriving DecidableEq, Repr

/-- `asInterval` from interval-utils: fails when `end <= start`. -/
def asInterval (s e : Nat) : Except Err (Nat × Nat) :=
  if e ≤ s then .error (.invalidInterval s e) else .ok (s, e)

/-- luxon `Interval.overlaps`: both intervals valid (`start ≤ end`; an invalid
luxon interval, built from `end < start`, never overlaps anything) and the
half-open intersection is non-empty. -/
def ivOverlaps (a b : Nat × Nat) : Bool :=
  decide (a.1 ≤ a.2) && decide (b.1 ≤ b.2) && decide (b.1 < a.2) && decide (a.1 < b.2)

/-- Stable insertion into a sorted list: walk past strictly smaller keys, so
an element lands before later elements with an equal key (JS
`Array.prototype.sort` is stable, and a stable sort is uniquely determined by
its comparator). -/
def insertSorted {α : Type} (lt : α → α → Bool) (x : α) : List α → List α
  | [] => [x]
  | y :: ys => if lt y x then y :: insertSorted lt x ys else x :: y :: ys

/-- Structural stable sort (insertion sort), the executable model of the JS
stable `sort(comparator)`. -/
def stableSortBy {α : Type} (lt : α → α → Bool) : List α → List α
  | [] => []
  | x :: xs => insertSorted lt x (stableSortBy lt xs)

/-- `sortReservations`: JS stable sort ascending on `start`. -/
def sortReservations (rs : List Reservation) : List Reservation :=
  stableSortBy (fun x y => decide (x.start < y.start)) rs

/-- The fold inside `mergeReservations`: `cur` is the open last element of the
output array (the one the source mutates through `last.end = ...`). -/
def mergeInto : Reservation → List Reservation → List Reservation
  | cur, [] => [cur]
  | cur, r :: rest =>
    if r.start ≤ cur.stop then
      mergeInto { cur with stop := if cur.stop < r.stop then r.stop else cur.stop } rest
    else
      cur :: mergeInto r rest

/-- `mergeReservations` from interval-utils. -/
def mergeReservations (rs : List Reservation) : List Reservation :=
  match sortReservations rs with
  | [] => []
  | r :: rest => mergeInto r rest

def firstOverlapGo (target : Nat × Nat) : List Reservation → Except Err (Option Reservation)
  | [] => .ok none
  | r :: rest =>
    match asInterval r.start r.stop with
    | .error e => .error e
    | .ok ri =>
      if ivOverlaps ri target then .ok (some r)
      else if target.2 ≤ r.start then .ok none
      else firstOverlapGo target rest

/-- `firstOverlap` from interval-utils (the `r.start >= end` short-circuit is
the `target.2 ≤ r.start` branch). -/
def firstOverlap (rs : List Reservation) (s e : Nat) : Except Err (Option Reservation) :=
  match asInterval s e with
  | .error err => .error err
  | .ok target => firstOverlapGo target rs

/-- The window-construction map inside `shiftWindowsForDay` (JS `Array.map`
whose callback throws at the first overnight shift, in list order). -/
def shiftWindowsGo (dayStartUtc : Nat) : List Shift → Except Err (List (Nat × Nat))
  | [] => .ok []
  | s :: rest =>
    let ws := dayStartUtc + s.startHour * hourMs
    let we := dayStartUtc + s.endHour * hourMs
    if we ≤ ws then .error (.unsupportedShift s)
    else do
      let tail ← shiftWindowsGo dayStartUtc rest
      pure ((ws, we) :: tail)

/-- `shiftWindowsForDay`: the concrete windows of all shifts matching the
weekday of `dayStartUtc`; `end <= start` (overnight) is rejected.  Setting
`hour` on a UTC day start is exact addition for the validated range 0..23. -/
def shiftWindowsForDay (dayStartUtc : Nat) (shifts : List Shift) :
    Except Err (List (Nat × Nat)) :=
  shiftWindowsGo dayStartUtc
    (shifts.filter (fun s => s.dayOfWeek == luxonDowToSpecDayOfWeek dayStartUtc))

def sortWindows (ws : List (Nat × Nat)) : List (Nat × Nat) :=
  stableSortBy (fun a b => decide (a.1 < b.1)) ws

/-- The inner window scan of `snapToNextShiftTime`. -/
def findInWindows : List (Nat × Nat) → Nat → Option Nat
  | [], _ => none
  | (ws, we) :: rest, cursor =>
    if cursor < ws then some ws
    else if cursor < we then some cursor
    else findInWindows rest cursor

def snapGo (shifts : List Shift) : Nat → Nat → Except Err Nat
  | 0, _ => .error .noShiftFound
  | fuel + 1, cursor =>
    match shiftWindowsForDay (startOfDay cursor) shifts with
    | .error e => .error e
    | .ok windows =>
      if windows.isEmpty then snapGo shifts fuel (startOfDay cursor + dayMs)
      else
        match findInWindows (sortWindows windows) cursor with
        | some r => .ok r
        | none => snapGo shifts fuel (startOfDay cursor + dayMs)

/-- `snapToNextShiftTime`: scan at most 14 consecutive days for the next
in-shift instant. -/
def snapToNextShiftTime (t : Nat) (shifts : List Shift) : Except Err Nat :=
  snapGo shifts 14 t

/-- One pass of `subtractIntervals`'s outer loop: remove block `b` from every
part.  A piece is kept when it `isValid` (luxon: `start ≤ end`) and its length
in minutes is positive, i.e. when it is non-degenerate. -/
def subtractBlock (parts : List (Nat × Nat)) (b : Nat × Nat) : List (Nat × Nat) :=
  parts.flatMap fun p =>
    if !ivOverlaps p b then [p]
    else
      (if p.1 < b.1 then [(p.1, b.1)] else []) ++ (if b.2 < p.2 then [(b.2, p.2)] else [])

/-- `subtractIntervals` from `src/utils/date` (the early `parts.length == 0`
break is a no-op under a fold). -/
def subtractIntervals (base : Nat × Nat) (blocks : List (Nat × Nat)) : List (Nat × Nat) :=
  sortWindows (blocks.foldl subtractBlock [base])

/-- The usable-sub-interval scan of `calculateEndDateWithShiftsAndMaintenance`:
either the end instant (`Sum.inl`) or the remaining minutes (`Sum.inr`).
`Math.floor(length('minutes'))` of an exact millisecond interval is `Nat`
division by 60000. -/
def consumeParts : List (Nat × Nat) → Nat → Sum Nat Nat
  | [], remaining => .inr remaining
  | (ps, pe) :: rest, remaining =>
    let minutes := (pe - ps) / minuteMs
    if minutes = 0 then consumeParts rest remaining
    else if remaining ≤ minutes then .inl (ps + remaining * minuteMs)
    else consumeParts rest (remaining - minutes)

/-- The per-day window loop of `calculateEndDateWithShiftsAndMaintenance`,
threading the cursor and the remaining minutes. -/
def calcDay (blocks : List Reservation) :
    List (Nat × Nat) → Nat → Nat → Sum Nat (Nat × Nat)
  | [], cursor, remaining => .inr (cursor, remaining)
  | (ws, we) :: rest, cursor, remaining =>
    if we ≤ cursor then calcDay blocks rest cursor remaining
    else
      let workStart := max cursor ws
      let base := (workStart, we)
      let blocksToday :=
        sortWindows (((blocks.map fun r => (r.start, r.stop)).filter fun b => ivOverlaps b base))
      match consumeParts (subtractIntervals base blocksToday) remaining with
      | .inl endMs => .inl endMs
      | .inr remaining' => calcDay blocks rest we remaining'

def calcGo (shifts : List Shift) (blocks : List Reservation) :
    Nat → Nat → Nat → Except Err Nat
  | 0, _, _ => .error .unschedulable
  | dayGuard + 1, cursor, remaining =>
    match shiftWindowsForDay (startOfDay cursor) shifts with
    | .error e => .error e
    | .ok windows =>
      if windows.isEmpty then
        match snapToNextShiftTime (startOfDay cursor + dayMs) shifts with
        | .error e => .error e
        | .ok cursor' => calcGo shifts blocks dayGuard cursor' remaining
      else
        match calcDay blocks (sortWindows windows) cursor remaining with
        | .inl endMs => .ok endMs
        | .inr (_, remaining') =>
          match snapToNextShiftTime (startOfDay cursor + dayMs) shifts with
          | .error e => .error e
          | .ok cursor' => calcGo shifts blocks dayGuard cursor' remaining'

/-- `calculateEndDateWithShiftsAndMaintenance`: consume `durationMinutes`
working minutes from `start`, skipping off-shift time and the given blocks;
90-day guard.  (`durationMinutes <= 0` is `= 0` over `Nat`.) -/
def calculateEndDateWithShiftsAndMaintenance (start : Nat) (durationMinutes : Nat)
    (shifts : List Shift) (maintenanceBlocks : List Reservation) : Except Err Nat :=
  if durationMinutes = 0 then .ok start
  else
    match snapToNextShiftTime start shifts with
    | .error e => .error e
    | .ok cursor => calcGo shifts maintenanceBlocks 90 cursor durationMinutes

/-! ## `topoSortOrThrow` (`src/reflow/dag.ts`), Kahn's algorithm. -/

/-- Decrement each successor's in-degree, enqueueing those that reach zero. -/
def kahnSucc : SMap Int → List String → List String → SMap Int × List String
  | inDeg, q, [] => (inDeg, q)
  | inDeg, q, m :: ms =>
    let d := ((inDeg.get? m).getD 0) - 1
    let inDeg' := inDeg.set m d
    kahnSucc inDeg' (if d = 0 then q ++ [m] else q) ms

/-- The `while (q.length > 0)` loop.  The fuel is an upper bound on the number
of iterations (each node is enqueued at most once); the fuel-exhaustion branch
is shown unreachable from `topoSortOrThrow` in the proofs below. -/
def kahnLoop (adj : SMap (List String)) :
    Nat → SMap Int → List String → List String → SMap Int × List String
  | _, inDeg, [], out => (inDeg, out)
  | 0, inDeg, _, out => (inDeg, out)
  | fuel + 1, inDeg, n :: q, out =>
    let (inDeg', q') := kahnSucc inDeg q ((adj.get? n).getD [])
    kahnLoop adj fuel inDeg' q' (out ++ [n])

/-- The in-degree / adjacency build phase of `topoSortOrThrow` (edges with an
endpoint outside the node set are skipped). -/
def topoBuild (nodes : List String) (edges : List (String × String)) :
    SMap Int × SMap (List String) :=
  edges.foldl
    (fun (p : SMap Int × SMap (List String)) e =>
      if (p.2.get? e.1).isSome && (p.2.get? e.2).isSome then
        (p.1.set e.2 (((p.1.get? e.2).getD 0) + 1),
         p.2.set e.1 (((p.2.get? e.1).getD []) ++ [e.2]))
      else p)
    (nodes.foldl (fun m n => m.set n 0) [], nodes.foldl (fun m n => m.set n []) [])

/-- The initial queue: zero-in-degree entries in insertion order. -/
def topoQ0 (inDeg : SMap Int) : List String :=
  (inDeg.filter (fun p => p.2 = 0)).map (·.1)

def topoSortOrThrow (nodes : List String) (edges : List (String × String)) :
    Except Err (List String) :=
  let built := topoBuild nodes edges
  let res := kahnLoop built.2 (nodes.length + edges.length + 1) built.1 (topoQ0 built.1) []
  if res.2.length ≠ nodes.length then
    .error (.circularDependency (nodes.filter (fun n => 0 < (res.1.get? n).getD 0)))
  else
    .ok res.2

/-! ## Data model (`src/types`).  ISO date strings are represented by their
parsed UTC millisecond value; the constant `docType` discriminators are
omitted (they carry no information beyond the Lean type). -/

structure MaintenanceWindow where
  startDate : Nat
  endDate : Nat
  reason : Option String
deriving DecidableEq, Repr

structure WorkOrderData where
  workOrderNumber : String
  manufacturingOrderId : String
  workCenterId : String
  startDate : Nat
  endDate : Nat
  durationMinutes : Nat
  isMaintenance : Bool
  dependsOnWorkOrderIds : List String
deriving DecidableEq, Repr

structure WorkOrderDoc where
  docId : String
  data : WorkOrderData
deriving DecidableEq, Repr

structure WorkCenterData where
  name : String
  shifts : List Shift
  maintenanceWindows : List MaintenanceWindow
deriving DecidableEq, Repr

structure WorkCenterDoc where
  docId : String
  data : WorkCenterData
deriving DecidableEq, Repr

/-- `manufacturingOrders` (optional in the payload) are carried through
untouched and never consulted by the engine, so they are omitted here. -/
structure ReflowInput where
  workOrders : List WorkOrderDoc
  workCenters : List WorkCenterDoc
deriving DecidableEq, Repr

/-- The reason strings pushed into a change record.  The source builds
`Dependency ready at ${t.toISO()}` (injective in `t`) and the constant
`Reflow adjustment`; they are modelled as tags. -/
inductive Reason where
  | depReady (t : Nat)
  | reflowAdjustment
deriving DecidableEq, Repr

/-- `formatReason` from `src/utils/format-reason`: deduplicate preserving first
occurrence (trimming / empty-string dropping does not apply to the tag type). -/
def formatReason (parts : List Reason) : List Reason :=
  parts.foldl (fun acc p => if acc.contains p then acc else acc ++ [p]) []

structure Change where
  workOrderId : String
  workOrderNumber : String
  workCenterId : String
  originalStart : Nat
  originalEnd : Nat
  newStart : Nat
  newEnd : Nat
  deltaMinutesStart : Int
  deltaMinutesEnd : Int
  reason : List Reason
deriving DecidableEq, Repr

structure ReflowResult where
  updatedWorkOrders : List WorkOrderDoc
  changes : List Change
  explanation : List String
deriving DecidableEq, Repr

/-- `Math.round((a - b) / 60000)`: JS rounds half toward positive infinity,
which is `fdiv (x + half, whole)` on exact millisecond differences. -/
def roundDeltaMinutes (a b : Nat) : Int :=
  ((a : Int) - (b : Int) + 30000).fdiv 60000

/-! ## Runtime validation (`src/utils/validation`).  Structural and type-shape
checks are enforced by the Lean types themselves; the remaining value checks
are modelled.  (Date fields are checked only for being non-empty strings in
the source, which the parsed representation cannot violate.) -/

def validShift (s : Shift) : Bool :=
  decide (s.dayOfWeek ≤ 6) && decide (s.startHour ≤ 23) && decide (s.endHour ≤ 23)

def validWorkOrder (wo : WorkOrderDoc) : Bool :=
  !(wo.docId == "") && !(wo.data.workOrderNumber == "") &&
  !(wo.data.manufacturingOrderId == "") && !(wo.data.workCenterId == "") &&
  decide (1 ≤ wo.data.durationMinutes) &&
  wo.data.dependsOnWorkOrderIds.all (fun d => !(d == ""))

def validWorkCenter (wc : WorkCenterDoc) : Bool :=
  !(wc.docId == "") && !(wc.data.name == "") &&
  wc.data.shifts.all validShift &&
  wc.data.maintenanceWindows.all (fun mw =>
    match mw.reason with
    | none => true
    | some r => !(r == ""))

def validateReflowInput (input : ReflowInput) : Except Err Unit :=
  if input.workOrders.all validWorkOrder && input.workCenters.all validWorkCenter then
    .ok ()
  else
    .error .invalidInput

/-! ## The reflow service (`ReflowService` in `src/reflow/reflow.service`). -/

/-- The reservation-avoidance loop of `findFeasibleStart` (500-iteration guard). -/
def findFeasibleGo (shifts : List Shift) (reservations : List Reservation)
    (woNumber : String) : Nat → Nat → Except Err Nat
  | 0, _ => .error (.guardExceededFeasible woNumber)
  | guard + 1, cursor =>
    match reservations.find? (fun r => decide (r.start ≤ cursor) && decide (cursor < r.stop)) with
    | some inside =>
      match snapToNextShiftTime inside.stop shifts with
      | .error e => .error e
      | .ok cursor' => findFeasibleGo shifts reservations woNumber guard cursor'
    | none => .ok cursor

def findFeasibleStart (shifts : List Shift) (reservations : List Reservation)
    (woNumber : String) (earliest : Nat) : Except Err Nat :=
  match snapToNextShiftTime earliest shifts with
  | .error e => .error e
  | .ok cursor => findFeasibleGo shifts reservations woNumber 500 cursor

/-- The push-forward loop of `resolveOverlapsByPushing` (500-iteration guard). -/
def resolveGo (shifts : List Shift) (reservations : List Reservation)
    (durationMinutes : Nat) (woNumber : String) : Nat → Nat → Nat → Except Err (Nat × Nat)
  | 0, _, _ => .error (.guardExceededOverlap woNumber)
  | guard + 1, start, stop =>
    match firstOverlap reservations start stop with
    | .error e => .error e
    | .ok none => .ok (start, stop)
    | .ok (some overlap) =>
      match snapToNextShiftTime overlap.stop shifts with
      | .error e => .error e
      | .ok start' =>
        match calculateEndDateWithShiftsAndMaintenance start' durationMinutes shifts
          reservations with
        | .error e => .error e
        | .ok stop' => resolveGo shifts reservations durationMinutes woNumber guard start' stop'

def resolveOverlapsByPushing (shifts : List Shift) (reservations : List Reservation)
    (durationMinutes : Nat) (woNumber : String) (start stop : Nat) : Except Err (Nat × Nat) :=
  resolveGo shifts reservations durationMinutes woNumber 500 start stop

/-- The per-work-order dependency fold: `earliest = max(originalStart, parents'
scheduled ends)`, failing on an absent parent schedule. -/
def earliestFromParents (scheduled : SMap (Nat × Nat)) (woNumber : String) :
    List String → Nat → Except Err Nat
  | [], earliest => .ok earliest
  | parentId :: rest, earliest =>
    match scheduled.get? parentId with
    | none => .error (.missingDependency parentId woNumber)
    | some p =>
      earliestFromParents scheduled woNumber rest (if earliest < p.2 then p.2 else earliest)

/-- Step C seeding for one work center: one reservation per maintenance window
and one per immovable (maintenance) work order assigned to it. -/
def seedReservations (workOrders : List WorkOrderDoc) (wc : WorkCenterDoc) :
    List Reservation :=
  (wc.data.maintenanceWindows.map fun mw =>
    ⟨mw.startDate, mw.endDate, .maintenanceWindow, none⟩) ++
  ((workOrders.filter fun wo =>
      wo.data.workCenterId == wc.docId && wo.data.isMaintenance).map fun wo =>
    ⟨wo.data.startDate, wo.data.endDate, .fixedMaintenanceWO, some wo.docId⟩)

/-- The mutable loop state of `reflow`'s placement loop. -/
structure PlaceState where
  reservationsByWc : SMap (List Reservation)
  scheduled : SMap (Nat × Nat)
  changes : List Change
deriving Repr

/-- The body of the placement loop (step D) for a single topo entry. -/
def processOne (wcById : SMap WorkCenterDoc) (woById : SMap WorkOrderDoc)
    (st : PlaceState) (woId : String) : Except Err PlaceState :=
  match woById.get? woId with
  | none => .ok st
  | some wo =>
    if wo.data.isMaintenance then .ok st
    else
      match wcById.get? wo.data.workCenterId with
      | none => .error (.missingWorkCenter wo.data.workCenterId)
      | some wc =>
        match earliestFromParents st.scheduled wo.data.workOrderNumber
            wo.data.dependsOnWorkOrderIds wo.data.startDate with
        | .error e => .error e
        | .ok earliest =>
          let reasons : List Reason :=
            if wo.data.startDate < earliest then [.depReady earliest] else []
          let rs := (st.reservationsByWc.get? wc.docId).getD []
          match findFeasibleStart wc.data.shifts rs wo.data.workOrderNumber earliest with
          | .error e => .error e
          | .ok feasible =>
            match calculateEndDateWithShiftsAndMaintenance feasible
                wo.data.durationMinutes wc.data.shifts rs with
            | .error e => .error e
            | .ok endMs =>
              match resolveOverlapsByPushing wc.data.shifts rs wo.data.durationMinutes
                  wo.data.workOrderNumber feasible endMs with
              | .error e => .error e
              | .ok fin =>
                let newRes : Reservation := ⟨fin.1, fin.2, .scheduledWO, some wo.docId⟩
                let deltaStart := roundDeltaMinutes fin.1 wo.data.startDate
                let deltaEnd := roundDeltaMinutes fin.2 wo.data.endDate
                let reason := formatReason reasons
                let changes' :=
                  if deltaStart ≠ 0 ∨ deltaEnd ≠ 0 then
                    st.changes ++ [⟨wo.docId, wo.data.workOrderNumber, wo.data.workCenterId,
                      wo.data.startDate, wo.data.endDate, fin.1, fin.2, deltaStart, deltaEnd,
                      if reason.isEmpty then [.reflowAdjustment] else reason⟩]
                  else st.changes
                .ok { reservationsByWc :=
                        st.reservationsByWc.set wc.docId
                          (mergeReservations (rs ++ [newRes]))
                      scheduled := st.scheduled.set wo.docId fin
                      changes := changes' }

def placeAll (wcById : SMap WorkCenterDoc) (woById : SMap WorkOrderDoc)
    (st : PlaceState) (topo : List String) : Except Err PlaceState :=
  topo.foldlM (processOne wcById woById) st

/-- The write-back of the placement loop: the source assigns
`wo.data.startDate/endDate` on the deep copy when (and only when) the work
order is processed; on the returned state that is exactly the scheduled map's
entry for every non-maintenance work order. -/
def applySchedule (scheduled : SMap (Nat × Nat)) (wo : WorkOrderDoc) : WorkOrderDoc :=
  if wo.data.isMaintenance then wo
  else
    match scheduled.get? wo.docId with
    | some fin => { wo with data := { wo.data with startDate := fin.1, endDate := fin.2 } }
    | none => wo

/-- The `wcById` index map built at the top of `reflow`. -/
def wcIndex (input : ReflowInput) : SMap WorkCenterDoc :=
  SMap.ofList (input.workCenters.map fun wc => (wc.docId, wc))

/-- The `woById` index map built at the top of `reflow`. -/
def woIndex (input : ReflowInput) : SMap WorkOrderDoc :=
  SMap.ofList (input.workOrders.map fun wo => (wo.docId, wo))

/-- The dependency-edge list `parent -> child` built by `reflow`. -/
def depEdges (input : ReflowInput) : List (String × String) :=
  input.workOrders.flatMap fun w =>
    w.data.dependsOnWorkOrderIds.map fun p => (p, w.docId)

/-- The loop state entering step D: seeded per-work-center reservations, the
immovable work orders pre-inserted into the schedule map, no changes. -/
def initialState (input : ReflowInput) : PlaceState :=
  { reservationsByWc := input.workCenters.foldl
      (fun m wc =>
        m.set wc.docId (mergeReservations (seedReservations input.workOrders wc))) []
    scheduled := input.workOrders.foldl
      (fun m wo =>
        if wo.data.isMaintenance then m.set wo.docId (wo.data.startDate, wo.data.endDate)
        else m) []
    changes := [] }

/-- `ReflowService.reflow`.  The deep copy of the work orders is the identity
in a pure embedding (and makes the source non-mutating). -/
def reflow (input : ReflowInput) : Except Err ReflowResult :=
  match validateReflowInput input with
  | .error e => .error e
  | .ok _ =>
    match topoSortOrThrow (input.workOrders.map (·.docId)) (depEdges input) with
    | .error e => .error e
    | .ok topo =>
      match placeAll (wcIndex input) (woIndex input) (initialState input) topo with
      | .error e => .error e
      | .ok st =>
        .ok
          { updatedWorkOrders := input.workOrders.map (applySchedule st.scheduled)
            changes := st.changes
            explanation :=
              ["Reflow complete. Updated " ++ toString st.changes.length ++
                 " work orders.",
               "Strategy: topo-sort dependencies + earliest-feasible scheduling per work center with shift + maintenance calendars."] }

/-! ## Specification-side predicates used in the claim statements. -/

/-- The instant `p` lies inside some shift window of `shifts` on `p`'s own
calendar day (the window of `s` on that day is
`[day + startHour h, day + endHour h)`). -/
def InShift (shifts : List Shift) (p : Nat) : Prop :=
  ∃ s ∈ shifts, s.dayOfWeek = luxonDowToSpecDayOfWeek p ∧
    startOfDay p + s.startHour * hourMs ≤ p ∧ p < startOfDay p + s.endHour * hourMs

instance (shifts : List Shift) (p : Nat) : Decidable (InShift shifts p) := by
  unfold InShift
  infer_instance

/-- Well-formedness of a shift per the spec's data model (hours in 0..23,
`endHour > startHour`; no overnight shifts). -/
def WfShift (s : Shift) : Prop := s.startHour < s.endHour ∧ s.endHour ≤ 23

instance (s : Shift) : Decidable (WfShift s) := by
  unfold WfShift
  infer_instance

instance : DecidableEq (Except Err Nat) := fun a b =>
  match a, b with
  | .ok x, .ok y => decidable_of_iff (x = y) (by simp)
  | .error x, .error y => decidable_of_iff (x = y) (by simp)
  | .ok _, .error _ => isFalse (by simp)
  | .error _, .ok _ => isFalse (by simp)

/-- The reservation list of a work center in a placement state (`?? []` as in
the source's `reservationsByWc.get(wc.docId) ?? []`). -/
def resAt (st : PlaceState) (k : String) : List Reservation :=
  (st.reservationsByWc.get? k).getD []

/-- Point `p` is inside some reservation of work center `k`. -/
def Covered (st : PlaceState) (k : String) (p : Nat) : Prop :=
  ∃ r ∈ resAt st k, r.start ≤ p ∧ p < r.stop

/-- The inductive invariant of the placement loop (step D).  All statements
are about the current `PlaceState`; scheduled entries are never overwritten,
so they persist verbatim to the final state. -/
structure LoopInv (wcById : SMap WorkCenterDoc) (woById : SMap WorkOrderDoc)
    (st : PlaceState) : Prop where
  sorted : ∀ k l, st.reservationsByWc.get? k = some l →
    l.Pairwise (fun a b => a.start ≤ b.start)
  cover : ∀ id iv wo, st.scheduled.get? id = some iv → woById.get? id = some wo →
    (wcById.get? wo.data.workCenterId).isSome →
    ∀ p, iv.1 ≤ p → p < iv.2 → Covered st wo.data.workCenterId p
  mwCover : ∀ k wc, wcById.get? k = some wc → ∀ mw ∈ wc.data.maintenanceWindows,
    ∀ p, mw.startDate ≤ p → p < mw.endDate → Covered st k p
  startGe : ∀ id iv wo, st.scheduled.get? id = some iv → woById.get? id = some wo →
    wo.data.isMaintenance = false → wo.data.startDate ≤ iv.1
  maintEq : ∀ id iv wo, st.scheduled.get? id = some iv → woById.get? id = some wo →
    wo.data.isMaintenance = true → iv = (wo.data.startDate, wo.data.endDate)
  inShiftStart : ∀ id iv wo, st.scheduled.get? id = some iv → woById.get? id = some wo →
    wo.data.isMaintenance = false →
    ∃ wc, wcById.get? wo.data.workCenterId = some wc ∧ InShift wc.data.shifts iv.1
  depOk : ∀ id iv wo, st.scheduled.get? id = some iv → woById.get? id = some wo →
    wo.data.isMaintenance = false →
    ∀ pid ∈ wo.data.dependsOnWorkOrderIds,
      ∃ piv, st.scheduled.get? pid = some piv ∧ piv.2 ≤ iv.1
  disj : ∀ id1 id2 iv1 iv2 wo1 wo2, ¬ id1 = id2 →
    st.scheduled.get? id1 = some iv1 → st.scheduled.get? id2 = some iv2 →
    woById.get? id1 = some wo1 → woById.get? id2 = some wo2 →
    wo1.data.workCenterId = wo2.data.workCenterId →
    ¬ (wo1.data.isMaintenance = true ∧ wo2.data.isMaintenance = true) →
    ∀ p, ¬ (iv1.1 ≤ p ∧ p < iv1.2 ∧ iv2.1 ≤ p ∧ p < iv2.2)

/-! ## Concrete fixtures used in counterexamples and witnesses.  Epoch day 0
(1970-01-01) is a Thursday, so `luxonDowToSpecDayOfWeek 0 = 4`; the single
shift covers Thursdays 08:00-17:00 UTC. -/

def fxWc1 : WorkCenterDoc := ⟨"wc1", ⟨"WC 1", [⟨4, 8, 17⟩], []⟩⟩

def fxP : WorkOrderDoc :=
  ⟨"P", ⟨"WO-P", "mo1", "wc1", 8 * hourMs, 9 * hourMs, 60, false, []⟩⟩

def fxM : WorkOrderDoc :=
  ⟨"M", ⟨"WO-M", "mo1", "wc1", 8 * hourMs, 9 * hourMs, 60, true, ["P"]⟩⟩

def fxC1in : ReflowInput := ⟨[fxP, fxM], [fxWc1]⟩

def fxM1 : WorkOrderDoc :=
  ⟨"M1", ⟨"WO-M1", "mo1", "wc1", 8 * hourMs, 10 * hourMs, 120, true, []⟩⟩

def fxM2 : WorkOrderDoc :=
  ⟨"M2", ⟨"WO-M2", "mo1", "wc1", 9 * hourMs, 11 * hourMs, 120, true, []⟩⟩

def fxC2in : ReflowInput := ⟨[fxM1, fxM2], [fxWc1]⟩

def fxC2out : ReflowResult :=
  ⟨[fxM1, fxM2], [],
   ["Reflow complete. Updated 0 work orders.",
    "Strategy: topo-sort dependencies + earliest-feasible scheduling per work center with shift + maintenance calendars."]⟩

def fxM3 : WorkOrderDoc :=
  ⟨"M3", ⟨"WO-M3", "mo1", "wc1", 3 * hourMs, 4 * hourMs, 60, true, []⟩⟩

def fxC6in : ReflowInput := ⟨[fxM3], [fxWc1]⟩

def fxB : WorkOrderDoc :=
  ⟨"B", ⟨"WO-B", "mo1", "wc1", 8 * hourMs, 9 * hourMs, 60, false, []⟩⟩

def fxA : WorkOrderDoc :=
  ⟨"A", ⟨"WO-A", "mo1", "wc1", 8 * hourMs, 9 * hourMs, 60, false, ["B"]⟩⟩

def fxW2in : ReflowInput := ⟨[fxB, fxA], [fxWc1]⟩

def fxAout : WorkOrderDoc :=
  ⟨"A", ⟨"WO-A", "mo1", "wc1", 9 * hourMs, 10 * hourMs, 60, false, ["B"]⟩⟩

def fxW2out : ReflowResult :=
  ⟨[fxB, fxAout],
   [⟨"A", "WO-A", "wc1", 8 * hourMs, 9 * hourMs, 9 * hourMs, 10 * hourMs, 60, 60,
     [.depReady (9 * hourMs)]⟩],
   ["Reflow complete. Updated 1 work orders.",
    "Strategy: topo-sort dependencies + earliest-feasible scheduling per work center with shift + maintenance calendars."]⟩

/-! ## Specification-side measure notions for claim C3. -/

/-- Point `p` lies in some maintenance window of the list. -/
def mwCoversB (mws : List MaintenanceWindow) (p : Nat) : Bool :=
  mws.any (fun mw => decide (mw.startDate ≤ p) && decide (p < mw.endDate))

/-- Point `p` lies in some of the given half-open intervals. -/
def inIvsB (l : List (Nat × Nat)) (p : Nat) : Bool :=
  l.any (fun w => decide (w.1 ≤ p) && decide (p < w.2))

/-- The number of milliseconds in `[lo, hi)` satisfying `f`. -/
def cntB (f : Nat → Bool) (lo hi : Nat) : Nat :=
  ((Finset.Ico lo hi).filter (fun p => f p = true)).card

/-- The working measure of claim C3: milliseconds in `[s, e)` lying inside
some shift window on their own day and outside every maintenance window.  `d`
whole working minutes correspond to `d * minuteMs` of this measure. -/
def workingMs (shifts : List Shift) (mws : List MaintenanceWindow) (s e : Nat) : Nat :=
  cntB (fun p => decide (InShift shifts p) && !(mwCoversB mws p)) s e

/-- Milliseconds in `[s, e)` lying inside some shift window. -/
def inShiftMs (shifts : List Shift) (s e : Nat) : Nat :=
  cntB (fun p => decide (InShift shifts p)) s e

/-- Point `p` is covered by some reservation of the list. -/
def resCoverB (rs : List Reservation) (p : Nat) : Bool :=
  rs.any (fun r => decide (r.start ≤ p) && decide (p < r.stop))

/-- The conservation invariant of the placement loop used for claim C3, for
minute-aligned inputs: all reservation endpoints and scheduled intervals stay
minute-aligned, and every scheduled non-maintenance work order's interval
carries exactly `durationMinutes` of in-shift, maintenance-free working time on
its work center. -/
structure CInv (wcById : SMap WorkCenterDoc) (woById : SMap WorkOrderDoc)
    (st : PlaceState) : Prop where
  resAlign : ∀ k l, st.reservationsByWc.get? k = some l →
    ∀ r ∈ l, r.start % minuteMs = 0 ∧ r.stop % minuteMs = 0
  schedAlign : ∀ id iv, st.scheduled.get? id = some iv →
    iv.1 % minuteMs = 0 ∧ iv.2 % minuteMs = 0
  schedCons : ∀ id iv wo, st.scheduled.get? id = some iv →
    woById.get? id = some wo → wo.data.isMaintenance = false →
    ∀ wc, wcById.get? wo.data.workCenterId = some wc →
      workingMs wc.data.shifts wc.data.maintenanceWindows iv.1 iv.2 =
        wo.data.durationMinutes * minuteMs

/-- The fixture for the C3 counterexample: a maintenance work order whose
`durationMinutes` (5) disagrees with its fixed 2-hour interval. -/
def fxM4 : WorkOrderDoc :=
  ⟨"M4", ⟨"WO-M4", "mo1", "wc1", 8 * hourMs, 10 * hourMs, 5, true, []⟩⟩

def fxC3in : ReflowInput := ⟨[fxM4], [fxWc1]⟩

/-! ## Specification-side graph notions for `topoSortOrThrow` (claim C7). -/

/-- The edges the build phase retains: both endpoints among the known nodes
(`if (!adj.has(u) || !adj.has(v)) continue`). -/
def retainedEdges (nodes : List String) (edges : List (String × String)) :
    List (String × String) :=
  edges.filter (fun e => decide (e.1 ∈ nodes) && decide (e.2 ∈ nodes))

/-- The successor list the build phase accumulates for `u` (targets of the
retained edges with source `u`, in edge order). -/
def succsOf (E : List (String × String)) (u : String) : List String :=
  (E.filter (fun e => e.1 == u)).map (fun e => e.2)

/-- The residual in-degree of `v`: retained edges into `v` whose source has
not been emitted yet. -/
def edgesInto (E : List (String × String)) (out : List String) (v : String) : Nat :=
  (E.filter (fun e => !(decide (e.1 ∈ out)) && e.2 == v)).length

/-- Occurrences of `v` in a list (multiplicity of a multi-edge target). -/
def occs (v : String) (l : List String) : Nat :=
  (l.filter (fun x => x == v)).length

/-- Position of the first occurrence of `a` in `l`. -/
def posIn : List String → String → Nat
  | [], _ => 0
  | b :: t, a => if b = a then 0 else posIn t a + 1

/-- A directed cycle through the retained edges: a closed nonempty walk
`u -> l_0 -> ... -> u`. -/
def HasCycle (nodes : List String) (edges : List (String × String)) : Prop :=
  ∃ u l, List.Chain (fun a b => (a, b) ∈ retainedEdges nodes edges) u (l ++ [u])

/-- The loop invariant of Kahn's algorithm (claim C7): residual in-degrees
track the retained edges from unemitted sources, emitted/queued nodes are
distinct known nodes, every predecessor of an emitted or queued node has been
emitted, unreached nodes keep a positive residual, and emission order respects
the retained edges. -/
structure KInv (nodes : List String) (E : List (String × String))
    (inDeg : SMap Int) (q out : List String) : Prop where
  val : ∀ v ∈ nodes, inDeg.get? v = some ((edgesInto E out v : Nat) : Int)
  nd : (out ++ q).Nodup
  mem : ∀ x ∈ out ++ q, x ∈ nodes
  preds : ∀ x ∈ out ++ q, ∀ u, (u, x) ∈ E → u ∈ out
  pos : ∀ v ∈ nodes, ¬ v ∈ out → ¬ v ∈ q → 1 ≤ edgesInto E out v
  ord : ∀ v ∈ out, ∀ u, (u, v) ∈ E → posIn out u < posIn out v

/-! ## Lemmas: reservation sorting and merging. -/

lemma mem_insertSorted {α : Type} {lt : α → α → Bool} {x z : α} {l : List α} :
    z ∈ insertSorted lt x l ↔ z = x ∨ z ∈ l := by
  induction l with
  | nil => simp [insertSorted]
  | cons y ys ih =>
    simp only [insertSorted]
    split
    · simp only [List.mem_cons, ih]
      tauto
    · simp only [List.mem_cons]

lemma mem_stableSortBy {α : Type} {lt : α → α → Bool} {z : α} {l : List α} :
    z ∈ stableSortBy lt l ↔ z ∈ l := by
  induction l with
  | nil => simp [stableSortBy]
  | cons x xs ih =>
    simp only [stableSortBy, mem_insertSorted, ih, List.mem_cons]

lemma insertSorted_pairwise {α : Type} (key : α → Nat) (x : α) (l : List α)
    (hl : l.Pairwise (fun a b => key a ≤ key b)) :
    (insertSorted (fun a b => decide (key a < key b)) x l).Pairwise
      (fun a b => key a ≤ key b) := by
  induction l with
  | nil => simp [insertSorted]
  | cons y ys ih =>
    rcases List.pairwise_cons.1 hl with ⟨hy, hys⟩
    simp only [insertSorted]
    split
    · rename_i hlt
      simp only [decide_eq_true_eq] at hlt
      refine List.pairwise_cons.2 ⟨?_, ih hys⟩
      intro z hz
      rcases mem_insertSorted.1 hz with rfl | hz
      · omega
      · exact hy z hz
    · rename_i hlt
      simp only [decide_eq_true_eq] at hlt
      refine List.pairwise_cons.2 ⟨?_, hl⟩
      intro z hz
      rcases List.mem_cons.1 hz with rfl | hz
      · omega
      · have := hy z hz
        omega

lemma stableSortBy_pairwise {α : Type} (key : α → Nat) (l : List α) :
    (stableSortBy (fun a b => decide (key a < key b)) l).Pairwise
      (fun a b => key a ≤ key b) := by
  induction l with
  | nil => simp [stableSortBy]
  | cons x xs ih => exact insertSorted_pairwise key x _ ih

lemma stableSortBy_of_sorted {α : Type} (key : α → Nat) {l : List α}
    (hl : l.Pairwise (fun a b => key a ≤ key b)) :
    stableSortBy (fun a b => decide (key a < key b)) l = l := by
  induction l with
  | nil => rfl
  | cons x xs ih =>
    rcases List.pairwise_cons.1 hl with ⟨hx, hxs⟩
    simp only [stableSortBy]
    rw [ih hxs]
    cases xs with
    | nil => rfl
    | cons y ys =>
      have hle := hx y (List.mem_cons_self _ _)
      simp only [insertSorted]
      rw [if_neg (fun hc => absurd (of_decide_eq_true hc) (by omega))]

lemma sortReservations_pairwise (rs : List Reservation) :
    (sortReservations rs).Pairwise (fun a b => a.start ≤ b.start) := by
  unfold sortReservations
  exact stableSortBy_pairwise (fun r : Reservation => r.start) rs

lemma mem_sortReservations {x : Reservation} {rs : List Reservation} :
    x ∈ sortReservations rs ↔ x ∈ rs := by
  unfold sortReservations
  exact mem_stableSortBy

lemma mergeInto_start_mem (cur : Reservation) (rest : List Reservation) :
    ∀ x ∈ mergeInto cur rest, x.start = cur.start ∨ ∃ y ∈ rest, x.start = y.start := by
  induction rest generalizing cur with
  | nil => simp [mergeInto]
  | cons r rest ih =>
    intro x hx
    simp only [mergeInto] at hx
    split at hx
    · rcases ih _ x hx with h | ⟨y, hy, h⟩
      · left; simpa using h
      · right; exact ⟨y, List.mem_cons_of_mem _ hy, h⟩
    · rcases List.mem_cons.1 hx with rfl | hx
      · left; rfl
      · rcases ih r x hx with h | ⟨y, hy, h⟩
        · right; exact ⟨r, List.mem_cons_self _ _, h⟩
        · right; exact ⟨y, List.mem_cons_of_mem _ hy, h⟩

lemma mergeInto_pairwise_gap (cur : Reservation) (rest : List Reservation)
    (h : (cur :: rest).Pairwise (fun a b => a.start ≤ b.start)) :
    (mergeInto cur rest).Pairwise (fun a b => a.stop < b.start) := by
  induction rest generalizing cur with
  | nil => simp [mergeInto]
  | cons r rest ih =>
    rcases List.pairwise_cons.1 h with ⟨h1, h2⟩
    rcases List.pairwise_cons.1 h2 with ⟨h3, h4⟩
    simp only [mergeInto]
    split
    · apply ih
      refine List.pairwise_cons.2 ⟨?_, h4⟩
      intro x hx
      exact h1 x (List.mem_cons_of_mem _ hx)
    · rename_i hpush
      refine List.pairwise_cons.2 ⟨?_, ih r h2⟩
      intro x hx
      rcases mergeInto_start_mem r rest x hx with hs | ⟨y, hy, hs⟩
      · omega
      · have := h3 y hy
        omega

lemma mergeInto_pairwise_start (cur : Reservation) (rest : List Reservation)
    (h : (cur :: rest).Pairwise (fun a b => a.start ≤ b.start)) :
    (mergeInto cur rest).Pairwise (fun a b => a.start ≤ b.start) := by
  induction rest generalizing cur with
  | nil => simp [mergeInto]
  | cons r rest ih =>
    rcases List.pairwise_cons.1 h with ⟨h1, h2⟩
    rcases List.pairwise_cons.1 h2 with ⟨h3, h4⟩
    simp only [mergeInto]
    split
    · apply ih
      refine List.pairwise_cons.2 ⟨?_, h4⟩
      intro x hx
      exact h1 x (List.mem_cons_of_mem _ hx)
    · refine List.pairwise_cons.2 ⟨?_, ih r h2⟩
      intro x hx
      rcases mergeInto_start_mem r rest x hx with hs | ⟨y, hy, hs⟩
      · have := h1 r (List.mem_cons_self _ _)
        omega
      · have := h1 y (List.mem_cons_of_mem _ hy)
        omega

lemma mergeInto_valid (cur : Reservation) (rest : List Reservation)
    (hc : cur.start < cur.stop) (h : ∀ r ∈ rest, r.start < r.stop) :
    ∀ x ∈ mergeInto cur rest, x.start < x.stop := by
  induction rest generalizing cur with
  | nil => simpa [mergeInto] using hc
  | cons r rest ih =>
    intro x hx
    simp only [mergeInto] at hx
    split at hx
    · refine ih _ (by dsimp; split <;> omega) (fun y hy => h y (List.mem_cons_of_mem _ hy)) x hx
    · rcases List.mem_cons.1 hx with rfl | hx
      · exact hc
      · exact ih r (h r (List.mem_cons_self _ _))
          (fun y hy => h y (List.mem_cons_of_mem _ hy)) x hx

lemma mergeInto_covers (cur : Reservation) (rest : List Reservation)
    (h : (cur :: rest).Pairwise (fun a b => a.start ≤ b.start)) :
    ∀ p : Nat, (cur.start ≤ p ∧ p < cur.stop ∨ ∃ r ∈ rest, r.start ≤ p ∧ p < r.stop) →
      ∃ x ∈ mergeInto cur rest, x.start ≤ p ∧ p < x.stop := by
  induction rest generalizing cur with
  | nil =>
    intro p hp
    simp only [List.not_mem_nil, false_and, exists_false, or_false] at hp
    exact ⟨cur, by simp [mergeInto], hp⟩
  | cons r rest ih =>
    rcases List.pairwise_cons.1 h with ⟨h1, h2⟩
    intro p hp
    simp only [mergeInto]
    split
    · rename_i hmerge
      apply ih
      · refine List.pairwise_cons.2 ⟨?_, (List.pairwise_cons.1 h2).2⟩
        intro x hx
        exact h1 x (List.mem_cons_of_mem _ hx)
      · rcases hp with ⟨hp1, hp2⟩ | ⟨y, hy, hy1, hy2⟩
        · left
          refine ⟨hp1, ?_⟩
          dsimp
          split <;> omega
        · rcases List.mem_cons.1 hy with rfl | hy
          · left
            have := h1 y (List.mem_cons_self _ _)
            dsimp
            constructor
            · omega
            · split <;> omega
          · right; exact ⟨y, hy, hy1, hy2⟩
    · rcases hp with ⟨hp1, hp2⟩ | ⟨y, hy, hy1, hy2⟩
      · exact ⟨cur, List.mem_cons_self _ _, hp1, hp2⟩
      · rcases List.mem_cons.1 hy with rfl | hy
        · have hx := ih y h2 p (Or.inl ⟨hy1, hy2⟩)
          rcases hx with ⟨x, hx1, hx2⟩
          exact ⟨x, List.mem_cons_of_mem _ hx1, hx2⟩
        · have hx := ih r h2 p (Or.inr ⟨y, hy, hy1, hy2⟩)
          rcases hx with ⟨x, hx1, hx2⟩
          exact ⟨x, List.mem_cons_of_mem _ hx1, hx2⟩

lemma mergeInto_eq_self (cur : Reservation) (rest : List Reservation)
    (h : (cur :: rest).Chain' (fun a b => a.stop < b.start)) :
    mergeInto cur rest = cur :: rest := by
  induction rest generalizing cur with
  | nil => simp [mergeInto]
  | cons r rest ih =>
    rcases List.chain'_cons.1 h with ⟨h1, h2⟩
    simp only [mergeInto]
    split
    · omega
    · rw [ih r h2]

lemma mergeReservations_pairwise_start (rs : List Reservation) :
    (mergeReservations rs).Pairwise (fun a b => a.start ≤ b.start) := by
  unfold mergeReservations
  split
  · simp
  · rename_i r rest hsort
    exact mergeInto_pairwise_start r rest (hsort ▸ sortReservations_pairwise rs)

lemma mergeReservations_pairwise_gap (rs : List Reservation) :
    (mergeReservations rs).Pairwise (fun a b => a.stop < b.start) := by
  unfold mergeReservations
  split
  · simp
  · rename_i r rest hsort
    exact mergeInto_pairwise_gap r rest (hsort ▸ sortReservations_pairwise rs)

lemma mergeReservations_valid (rs : List Reservation)
    (h : ∀ r ∈ rs, r.start < r.stop) :
    ∀ x ∈ mergeReservations rs, x.start < x.stop := by
  unfold mergeReservations
  split
  · simp
  · rename_i r rest hsort
    have hall : ∀ y ∈ r :: rest, y.start < y.stop := by
      intro y hy
      exact h y (mem_sortReservations.1 (hsort ▸ hy))
    exact mergeInto_valid r rest (hall r (List.mem_cons_self _ _))
      (fun y hy => hall y (List.mem_cons_of_mem _ hy))

lemma mergeReservations_covers (rs : List Reservation) :
    ∀ p : Nat, ∀ r ∈ rs, r.start ≤ p → p < r.stop →
      ∃ x ∈ mergeReservations rs, x.start ≤ p ∧ p < x.stop := by
  intro p r hr hp1 hp2
  unfold mergeReservations
  split
  · rename_i hsort
    have : r ∈ sortReservations rs := mem_sortReservations.2 hr
    rw [hsort] at this
    simp at this
  · rename_i z rest hsort
    have hmem : r ∈ z :: rest := hsort ▸ mem_sortReservations.2 hr
    refine mergeInto_covers z rest (hsort ▸ sortReservations_pairwise rs) p ?_
    rcases List.mem_cons.1 hmem with rfl | hmem
    · exact Or.inl ⟨hp1, hp2⟩
    · exact Or.inr ⟨r, hmem, hp1, hp2⟩

lemma mergeReservations_idem (rs : List Reservation) :
    mergeReservations (mergeReservations rs) = mergeReservations rs := by
  have hsorted : sortReservations (mergeReservations rs) = mergeReservations rs := by
    unfold sortReservations
    exact stableSortBy_of_sorted (fun r : Reservation => r.start)
      (mergeReservations_pairwise_start rs)
  conv_lhs => rw [mergeReservations.eq_def, hsorted]
  split
  · rename_i hnil
    exact hnil.symm
  · rename_i z rest hcons
    rw [hcons]
    exact mergeInto_eq_self z rest (hcons ▸ (mergeReservations_pairwise_gap rs).chain')

/-- Claim C9: `mergeReservations` is idempotent (`merge (merge rs) = merge rs`
for every reservation list `rs`), and a reservation that touches the previous
one at an endpoint (`r2.start = r1.stop`) -- together with overlapping ones
(`r2.start < r1.stop`) -- is coalesced into a single reservation spanning the
union, with end the maximum of the two ends. -/
theorem C9_mergeReservations_idempotent_and_coalesces
    (rs : List Reservation) (r1 r2 : Reservation)
    (h1 : r1.start ≤ r2.start) (h2 : r2.start ≤ r1.stop) :
    mergeReservations (mergeReservations rs) = mergeReservations rs ∧
    mergeReservations [r1, r2] = [{ r1 with stop := max r1.stop r2.stop }] := by
  refine ⟨mergeReservations_idem rs, ?_⟩
  have hsort : sortReservations [r1, r2] = [r1, r2] := by
    unfold sortReservations
    exact stableSortBy_of_sorted (fun r : Reservation => r.start) (by simp [h1])
  have hmax : (if r1.stop < r2.stop then r2.stop else r1.stop) = max r1.stop r2.stop := by
    rw [Nat.max_def]
    split <;> split <;> omega
  unfold mergeReservations
  rw [hsort]
  simp only [mergeInto, if_pos h2, hmax]

/-- Witness for C9 at a concrete input: two reservations touching at an
endpoint merge into one spanning block. -/
theorem C9_witness :
    mergeReservations (mergeReservations ([] : List Reservation)) = mergeReservations [] ∧
    mergeReservations
        [⟨0, 10, .maintenanceWindow, none⟩, ⟨10, 20, .scheduledWO, none⟩] =
      [{ (⟨0, 10, .maintenanceWindow, none⟩ : Reservation) with stop := max 10 20 }] :=
  C9_mergeReservations_idempotent_and_coalesces []
    ⟨0, 10, .maintenanceWindow, none⟩ ⟨10, 20, .scheduledWO, none⟩
    (by decide) (by decide)

/-- Claim C10: when every input reservation satisfies `start < end`, the
output of `mergeReservations` is sorted ascending by start, any two output
reservations (in particular consecutive ones) are separated by a strictly
positive gap (`r_i.end < r_j.start` for `i < j`, so no two output reservations
overlap or even touch), and each output reservation still has `start < end`. -/
theorem C10_mergeReservations_sorted_separated_valid (rs : List Reservation)
    (h : ∀ r ∈ rs, r.start < r.stop) :
    (mergeReservations rs).Pairwise (fun a b => a.start ≤ b.start) ∧
    (mergeReservations rs).Pairwise (fun a b => a.stop < b.start) ∧
    ∀ x ∈ mergeReservations rs, x.start < x.stop :=
  ⟨mergeReservations_pairwise_start rs, mergeReservations_pairwise_gap rs,
    mergeReservations_valid rs h⟩

/-- Witness for C10 at a concrete unsorted, overlapping input. -/
theorem C10_witness :
    (mergeReservations
        [⟨50, 60, .scheduledWO, none⟩, ⟨0, 10, .maintenanceWindow, none⟩,
         ⟨5, 20, .fixedMaintenanceWO, none⟩]).Pairwise (fun a b => a.start ≤ b.start) ∧
    (mergeReservations
        [⟨50, 60, .scheduledWO, none⟩, ⟨0, 10, .maintenanceWindow, none⟩,
         ⟨5, 20, .fixedMaintenanceWO, none⟩]).Pairwise (fun a b => a.stop < b.start) ∧
    ∀ x ∈ mergeReservations
        [⟨50, 60, .scheduledWO, none⟩, ⟨0, 10, .maintenanceWindow, none⟩,
         ⟨5, 20, .fixedMaintenanceWO, none⟩], x.start < x.stop :=
  C10_mergeReservations_sorted_separated_valid _ (by decide)

/-! ## Lemmas: day arithmetic. -/

lemma startOfDay_le (t : Nat) : startOfDay t ≤ t :=
  Nat.div_mul_le_self t dayMs

lemma lt_startOfDay_add (t : Nat) : t < startOfDay t + dayMs := by
  unfold startOfDay dayMs
  omega

lemma startOfDay_mod (t : Nat) : startOfDay t % dayMs = 0 := by
  unfold startOfDay dayMs
  omega

lemma startOfDay_of_aligned {d : Nat} (hd : d % dayMs = 0) : startOfDay d = d := by
  unfold dayMs at hd
  unfold startOfDay dayMs
  omega

lemma startOfDay_eq_of_between {d p : Nat} (hd : d % dayMs = 0)
    (h1 : d ≤ p) (h2 : p < d + dayMs) : startOfDay p = d := by
  unfold dayMs at hd h2
  unfold startOfDay dayMs
  omega

lemma dow_eq_of_sameDay {p q : Nat} (h : startOfDay p = startOfDay q) :
    luxonDowToSpecDayOfWeek p = luxonDowToSpecDayOfWeek q := by
  unfold luxonDowToSpecDayOfWeek luxonWeekday
  unfold startOfDay at h
  have h3 : (0:Nat) < dayMs := by decide
  have : p / dayMs = q / dayMs := by
    exact Nat.eq_of_mul_eq_mul_right h3 h
  rw [this]

/-! ## Lemmas: shift windows. -/

lemma shiftWindowsGo_ok_mem {day : Nat} {l : List Shift} {ws : List (Nat × Nat)}
    (h : shiftWindowsGo day l = .ok ws) :
    ∀ w ∈ ws, ∃ s ∈ l,
      w = (day + s.startHour * hourMs, day + s.endHour * hourMs) ∧ w.1 < w.2 := by
  induction l generalizing ws with
  | nil =>
    simp only [shiftWindowsGo] at h
    cases h
    simp
  | cons s rest ih =>
    simp only [shiftWindowsGo] at h
    split at h
    · cases h
    · rename_i hvalid
      cases htail : shiftWindowsGo day rest with
      | error e => rw [htail] at h; cases h
      | ok tail =>
        rw [htail] at h
        have h2 : Except.ok ((day + s.startHour * hourMs, day + s.endHour * hourMs) :: tail)
            = (Except.ok ws : Except Err (List (Nat × Nat))) := h
        cases h2
        intro w hw
        rcases List.mem_cons.1 hw with rfl | hw
        · exact ⟨s, List.mem_cons_self _ _, rfl, by omega⟩
        · rcases ih htail w hw with ⟨s', hs', hw', hv'⟩
          exact ⟨s', List.mem_cons_of_mem _ hs', hw', hv'⟩

lemma shiftWindowsGo_ok_complete {day : Nat} {l : List Shift} {ws : List (Nat × Nat)}
    (h : shiftWindowsGo day l = .ok ws) :
    ∀ s ∈ l, (day + s.startHour * hourMs, day + s.endHour * hourMs) ∈ ws := by
  induction l generalizing ws with
  | nil => simp
  | cons s rest ih =>
    simp only [shiftWindowsGo] at h
    split at h
    · cases h
    · cases htail : shiftWindowsGo day rest with
      | error e => rw [htail] at h; cases h
      | ok tail =>
        rw [htail] at h
        have h2 : Except.ok ((day + s.startHour * hourMs, day + s.endHour * hourMs) :: tail)
            = (Except.ok ws : Except Err (List (Nat × Nat))) := h
        cases h2
        intro s' hs'
        rcases List.mem_cons.1 hs' with rfl | hs'
        · exact List.mem_cons_self _ _
        · exact List.mem_cons_of_mem _ (ih htail s' hs')

lemma shiftWindowsGo_ok_nil {day : Nat} {l : List Shift}
    (h : shiftWindowsGo day l = .ok []) : l = [] := by
  cases l with
  | nil => rfl
  | cons s rest =>
    simp only [shiftWindowsGo] at h
    split at h
    · cases h
    · cases htail : shiftWindowsGo day rest with
      | error e => rw [htail] at h; cases h
      | ok tail =>
        rw [htail] at h
        have h2 : Except.ok ((day + s.startHour * hourMs, day + s.endHour * hourMs) :: tail)
            = (Except.ok [] : Except Err (List (Nat × Nat))) := h
        simp at h2

lemma shiftWindowsGo_wf_ok {day : Nat} {l : List Shift}
    (hwf : ∀ s ∈ l, WfShift s) : ∃ ws, shiftWindowsGo day l = .ok ws := by
  induction l with
  | nil => exact ⟨[], rfl⟩
  | cons s rest ih =>
    rcases ih (fun s' hs' => hwf s' (List.mem_cons_of_mem _ hs')) with ⟨tail, htail⟩
    have hs := hwf s (List.mem_cons_self _ _)
    refine ⟨(day + s.startHour * hourMs, day + s.endHour * hourMs) :: tail, ?_⟩
    simp only [shiftWindowsGo]
    rw [if_neg, htail]
    · rfl
    · have h1 := hs.1
      unfold hourMs
      omega

lemma sortWindows_pairwise (ws : List (Nat × Nat)) :
    (sortWindows ws).Pairwise (fun a b => a.1 ≤ b.1) := by
  unfold sortWindows
  exact stableSortBy_pairwise (fun w => w.1) ws

lemma mem_sortWindows {w : Nat × Nat} {ws : List (Nat × Nat)} :
    w ∈ sortWindows ws ↔ w ∈ ws := by
  unfold sortWindows
  exact mem_stableSortBy

/-! ## Lemmas: `findInWindows`. -/

lemma findInWindows_some_ge {l : List (Nat × Nat)} {c r : Nat}
    (h : findInWindows l c = some r) : c ≤ r := by
  induction l with
  | nil => simp [findInWindows] at h
  | cons w rest ih =>
    obtain ⟨ws, we⟩ := w
    simp only [findInWindows] at h
    split at h
    · cases h; omega
    · split at h
      · cases h; omega
      · exact ih h

lemma findInWindows_some_mem {l : List (Nat × Nat)} {c r : Nat}
    (hvalid : ∀ w ∈ l, w.1 < w.2)
    (h : findInWindows l c = some r) : ∃ w ∈ l, w.1 ≤ r ∧ r < w.2 := by
  induction l with
  | nil => simp [findInWindows] at h
  | cons w rest ih =>
    obtain ⟨ws, we⟩ := w
    have hv := hvalid (ws, we) (List.mem_cons_self _ _)
    simp only [findInWindows] at h
    split at h
    · have hr : r = ws := by injection h with h'; omega
      refine ⟨(ws, we), List.mem_cons_self _ _, ?_⟩
      dsimp at hv ⊢
      omega
    · split at h
      · rename_i h1 h2
        have hr : r = c := by injection h with h'; omega
        refine ⟨(ws, we), List.mem_cons_self _ _, ?_⟩
        dsimp
        omega
      · rcases ih (fun w hw => hvalid w (List.mem_cons_of_mem _ hw)) h with ⟨w', hw', hr⟩
        exact ⟨w', List.mem_cons_of_mem _ hw', hr⟩

lemma findInWindows_some_minimal {l : List (Nat × Nat)} {c r : Nat}
    (hsort : l.Pairwise (fun a b => a.1 ≤ b.1))
    (h : findInWindows l c = some r) :
    ∀ p, c ≤ p → p < r → ∀ w ∈ l, ¬(w.1 ≤ p ∧ p < w.2) := by
  induction l with
  | nil => simp [findInWindows] at h
  | cons w rest ih =>
    obtain ⟨ws, we⟩ := w
    rcases List.pairwise_cons.1 hsort with ⟨h1, h2⟩
    simp only [findInWindows] at h
    split at h
    · cases h
      rename_i hlt
      intro p hp1 hp2 w' hw'
      rcases List.mem_cons.1 hw' with rfl | hw'
      · dsimp; omega
      · have := h1 w' hw'
        dsimp at this
        omega
    · split at h
      · cases h
        intro p hp1 hp2
        omega
      · rename_i hge1 hge2
        intro p hp1 hp2 w' hw'
        rcases List.mem_cons.1 hw' with rfl | hw'
        · dsimp; omega
        · exact ih h2 h p hp1 hp2 w' hw'

lemma findInWindows_none {l : List (Nat × Nat)} {c : Nat}
    (h : findInWindows l c = none) : ∀ w ∈ l, w.2 ≤ c := by
  induction l with
  | nil => simp
  | cons w rest ih =>
    obtain ⟨ws, we⟩ := w
    simp only [findInWindows] at h
    split at h
    · cases h
    · split at h
      · cases h
      · intro w' hw'
        rcases List.mem_cons.1 hw' with rfl | hw'
        · dsimp; omega
        · exact ih h w' hw'

/-! ## Lemmas: `shiftWindowsForDay` as seen from `InShift`. -/

lemma windows_shift {day : Nat} {shifts : List Shift} {windows : List (Nat × Nat)}
    (hw : shiftWindowsForDay day shifts = .ok windows) :
    ∀ w ∈ windows, ∃ s ∈ shifts, s.dayOfWeek = luxonDowToSpecDayOfWeek day ∧
      w = (day + s.startHour * hourMs, day + s.endHour * hourMs) ∧ w.1 < w.2 := by
  intro w hmem
  rcases shiftWindowsGo_ok_mem hw w hmem with ⟨s, hs, hweq, hv⟩
  rcases List.mem_filter.1 hs with ⟨hs1, hs2⟩
  exact ⟨s, hs1, by simpa using hs2, hweq, hv⟩

lemma windows_complete {day : Nat} {shifts : List Shift} {windows : List (Nat × Nat)}
    (hw : shiftWindowsForDay day shifts = .ok windows) :
    ∀ s ∈ shifts, s.dayOfWeek = luxonDowToSpecDayOfWeek day →
      (day + s.startHour * hourMs, day + s.endHour * hourMs) ∈ windows := by
  intro s hs hdow
  exact shiftWindowsGo_ok_complete hw s (List.mem_filter.2 ⟨hs, by simpa using hdow⟩)

lemma windows_wf_ok {day : Nat} {shifts : List Shift}
    (hwf : ∀ s ∈ shifts, WfShift s) :
    ∃ ws, shiftWindowsForDay day shifts = .ok ws :=
  shiftWindowsGo_wf_ok (fun s hs => hwf s (List.mem_filter.1 hs).1)

/-- If the day scan found nothing at or after the cursor, no instant of that
calendar day at or after the cursor is in shift. -/
lemma no_inshift_on_day {shifts : List Shift} {windows : List (Nat × Nat)} {cursor : Nat}
    (hw : shiftWindowsForDay (startOfDay cursor) shifts = .ok windows)
    (hnone : ∀ w ∈ windows, w.2 ≤ cursor) :
    ∀ p, cursor ≤ p → p < startOfDay cursor + dayMs → ¬InShift shifts p := by
  intro p hp1 hp2 hin
  have hday := startOfDay_mod cursor
  have hpday : startOfDay p = startOfDay cursor :=
    startOfDay_eq_of_between hday (le_trans (startOfDay_le cursor) hp1) hp2
  rcases hin with ⟨s, hs, hdow, hb1, hb2⟩
  have hdow' : s.dayOfWeek = luxonDowToSpecDayOfWeek (startOfDay cursor) := by
    rw [hdow]
    exact dow_eq_of_sameDay (by rw [hpday, startOfDay_of_aligned hday])
  have h2 := hnone _ (windows_complete hw s hs hdow')
  rw [hpday] at hb1 hb2
  dsimp at h2
  omega

/-! ## Lemmas: `snapToNextShiftTime`. -/

lemma snapGo_ge {shifts : List Shift} {fuel cursor r : Nat}
    (h : snapGo shifts fuel cursor = .ok r) : cursor ≤ r := by
  induction fuel generalizing cursor with
  | zero => cases h
  | succ fuel ih =>
    simp only [snapGo] at h
    split at h
    · cases h
    · split at h
      · have h2 := ih h
        have h3 := lt_startOfDay_add cursor
        omega
      · split at h
        · rename_i r' hf
          cases h
          exact findInWindows_some_ge hf
        · have h2 := ih h
          have h3 := lt_startOfDay_add cursor
          omega

lemma snapGo_ok_spec {shifts : List Shift} {fuel cursor r : Nat}
    (heh : ∀ s ∈ shifts, s.endHour ≤ 23)
    (h : snapGo shifts fuel cursor = .ok r) :
    InShift shifts r ∧ r < startOfDay cursor + fuel * dayMs ∧
      ∀ p, cursor ≤ p → p < r → ¬InShift shifts p := by
  induction fuel generalizing cursor with
  | zero => cases h
  | succ fuel ih =>
    have hday : startOfDay cursor % dayMs = 0 := startOfDay_mod cursor
    have hdle : startOfDay cursor ≤ cursor := startOfDay_le cursor
    have hdlt : cursor < startOfDay cursor + dayMs := lt_startOfDay_add cursor
    have haligned : startOfDay (startOfDay cursor) = startOfDay cursor :=
      startOfDay_of_aligned hday
    have hal2 : startOfDay (startOfDay cursor + dayMs) = startOfDay cursor + dayMs := by
      apply startOfDay_of_aligned
      unfold dayMs at hday ⊢
      omega
    simp only [snapGo] at h
    split at h
    · cases h
    · rename_i windows hw
      split at h
      · rename_i hemp
        have hnil : windows = [] := by simpa using hemp
        subst hnil
        rcases ih h with ⟨h1, h2, h3⟩
        rw [hal2] at h2
        refine ⟨h1, by unfold dayMs at h2 ⊢; omega, ?_⟩
        intro p hp1 hp2
        by_cases hpd : p < startOfDay cursor + dayMs
        · exact no_inshift_on_day hw (by simp) p hp1 hpd
        · exact h3 p (by omega) hp2
      · split at h
        · rename_i r' hf
          cases h
          have hvalid : ∀ w ∈ sortWindows windows, w.1 < w.2 := by
            intro w hw'
            exact (windows_shift hw w (mem_sortWindows.1 hw')).choose_spec.2.2.2
          rcases findInWindows_some_mem hvalid hf with ⟨w, hwmem, hr1, hr2⟩
          rcases windows_shift hw w (mem_sortWindows.1 hwmem) with ⟨s, hs, hdow, hweq, hv⟩
          have heh' := heh s hs
          subst hweq
          dsimp at hr1 hr2 hv
          have hrbound : r < startOfDay cursor + dayMs := by
            unfold hourMs dayMs at *
            omega
          have hrge : startOfDay cursor ≤ r := by omega
          have hrday : startOfDay r = startOfDay cursor :=
            startOfDay_eq_of_between hday hrge hrbound
          have hrdow : luxonDowToSpecDayOfWeek r =
              luxonDowToSpecDayOfWeek (startOfDay cursor) :=
            dow_eq_of_sameDay (by rw [hrday, haligned])
          refine ⟨⟨s, hs, by rw [hrdow, hdow], by rw [hrday]; omega, by rw [hrday]; omega⟩,
            by unfold dayMs at hrbound ⊢; omega, ?_⟩
          intro p hp1 hp2 hin
          have hpd : p < startOfDay cursor + dayMs := by omega
          have hpday : startOfDay p = startOfDay cursor :=
            startOfDay_eq_of_between hday (by omega) hpd
          rcases hin with ⟨s', hs', hdow', hb1, hb2⟩
          have hdow'' : s'.dayOfWeek = luxonDowToSpecDayOfWeek (startOfDay cursor) := by
            rw [hdow']
            exact dow_eq_of_sameDay (by rw [hpday, haligned])
          have hwin := mem_sortWindows.2 (windows_complete hw s' hs' hdow'')
          refine findInWindows_some_minimal (sortWindows_pairwise windows) hf p hp1 hp2
            _ hwin ⟨?_, ?_⟩
          · dsimp
            rw [hpday] at hb1
            omega
          · dsimp
            rw [hpday] at hb2
            omega
        · rename_i hf
          rcases ih h with ⟨h1, h2, h3⟩
          rw [hal2] at h2
          refine ⟨h1, by unfold dayMs at h2 ⊢; omega, ?_⟩
          intro p hp1 hp2
          by_cases hpd : p < startOfDay cursor + dayMs
          · refine no_inshift_on_day hw ?_ p hp1 hpd
            intro w hwm
            exact findInWindows_none hf w (mem_sortWindows.2 hwm)
          · exact h3 p (by omega) hp2

lemma snapGo_error_kind {shifts : List Shift} {fuel cursor : Nat} {e : Err}
    (hwf : ∀ s ∈ shifts, WfShift s)
    (h : snapGo shifts fuel cursor = .error e) : e = .noShiftFound := by
  induction fuel generalizing cursor with
  | zero =>
    simp only [snapGo] at h
    injection h with h'
    exact h'.symm
  | succ fuel ih =>
    simp only [snapGo] at h
    split at h
    · rename_i e' hw
      exfalso
      rcases @windows_wf_ok (startOfDay cursor) shifts hwf with ⟨ws, hws⟩
      rw [hws] at hw
      cases hw
    · split at h
      · exact ih h
      · split at h
        · cases h
        · exact ih h

lemma snapGo_error_no_inshift {shifts : List Shift} {fuel cursor : Nat} {e : Err}
    (hwf : ∀ s ∈ shifts, WfShift s)
    (h : snapGo shifts fuel cursor = .error e) :
    ∀ p, cursor ≤ p → p < startOfDay cursor + fuel * dayMs → ¬InShift shifts p := by
  induction fuel generalizing cursor with
  | zero =>
    intro p hp1 hp2
    have := startOfDay_le cursor
    unfold dayMs at hp2
    omega
  | succ fuel ih =>
    have hday : startOfDay cursor % dayMs = 0 := startOfDay_mod cursor
    have hal2 : startOfDay (startOfDay cursor + dayMs) = startOfDay cursor + dayMs := by
      apply startOfDay_of_aligned
      unfold dayMs at hday ⊢
      omega
    simp only [snapGo] at h
    split at h
    · rename_i e' hw
      exfalso
      rcases @windows_wf_ok (startOfDay cursor) shifts hwf with ⟨ws, hws⟩
      rw [hws] at hw
      cases hw
    · rename_i windows hw
      split at h
      · rename_i hemp
        have hnil : windows = [] := by simpa using hemp
        subst hnil
        intro p hp1 hp2
        by_cases hpd : p < startOfDay cursor + dayMs
        · exact no_inshift_on_day hw (by simp) p hp1 hpd
        · have h3 := ih h p (by omega)
          rw [hal2] at h3
          apply h3
          unfold dayMs at hp2 ⊢
          omega
      · split at h
        · cases h
        · rename_i hf
          intro p hp1 hp2
          by_cases hpd : p < startOfDay cursor + dayMs
          · refine no_inshift_on_day hw ?_ p hp1 hpd
            intro w hwm
            exact findInWindows_none hf w (mem_sortWindows.2 hwm)
          · have h3 := ih h p (by omega)
            rw [hal2] at h3
            apply h3
            unfold dayMs at hp2 ⊢
            omega

lemma snapGo_success {shifts : List Shift} {fuel cursor p : Nat}
    (hwf : ∀ s ∈ shifts, WfShift s)
    (hin : InShift shifts p) (hcp : cursor ≤ p)
    (hbound : p < startOfDay cursor + fuel * dayMs) :
    ∃ r, snapGo shifts fuel cursor = .ok r := by
  cases hx : snapGo shifts fuel cursor with
  | ok r => exact ⟨r, rfl⟩
  | error e =>
    exact absurd hin (snapGo_error_no_inshift hwf hx p hcp hbound)

/-- Claim C8 counterexample: take `t` = Thursday 09:00 (epoch day 0) and the
shift list with the valid Thursday window 08:00-17:00 plus an overnight
Thursday shift (20 to 19).  `t` itself lies inside a shift window, and an
in-shift instant `>= t` exists within the 14-day bound, yet
`snapToNextShiftTime` fails with the UnsupportedShift error rather than
returning `t` (or failing with NoShiftFound): the claim as stated is false. -/
theorem C8_counterexample :
    InShift [⟨4, 8, 17⟩, ⟨4, 20, 19⟩] (9 * hourMs) ∧
    (9 * hourMs) ≤ (9 * hourMs) ∧
    (9 * hourMs) < startOfDay (9 * hourMs) + 14 * dayMs ∧
    snapToNextShiftTime (9 * hourMs) [⟨4, 8, 17⟩, ⟨4, 20, 19⟩] =
      .error (.unsupportedShift ⟨4, 20, 19⟩) := by
  refine ⟨by decide, le_refl _, by decide, by decide⟩

/-- Claim C8 (amended): restricted to well-formed shift lists (each shift with
`startHour < endHour ≤ 23` as in the spec's data model - the counterexample
shows an overnight shift instead produces the UnsupportedShift error):
whenever some in-shift instant `>= t` exists within the scanned 14 days,
`snapToNextShiftTime t shifts` succeeds and returns the smallest in-shift
instant `>= t`; in particular the result is `>= t` and equals `t` when `t` is
already in shift.  Otherwise it fails with the NoShiftFound error. -/
theorem C8_snapToNextShiftTime_least (t : Nat) (shifts : List Shift)
    (hwf : ∀ s ∈ shifts, WfShift s) :
    ((∃ p, t ≤ p ∧ p < startOfDay t + 14 * dayMs ∧ InShift shifts p) →
      ∃ r, snapToNextShiftTime t shifts = .ok r ∧ t ≤ r ∧ InShift shifts r ∧
        (∀ p, t ≤ p → InShift shifts p → r ≤ p) ∧
        (InShift shifts t → r = t)) ∧
    ((∀ p, t ≤ p → p < startOfDay t + 14 * dayMs → ¬InShift shifts p) →
      snapToNextShiftTime t shifts = .error .noShiftFound) := by
  have heh : ∀ s ∈ shifts, s.endHour ≤ 23 := fun s hs => (hwf s hs).2
  constructor
  · rintro ⟨p, hp1, hp2, hp3⟩
    rcases @snapGo_success shifts 14 t p hwf hp3 hp1 hp2 with ⟨r, hr⟩
    rcases snapGo_ok_spec heh hr with ⟨h1, _h2, h3⟩
    refine ⟨r, hr, snapGo_ge hr, h1, ?_, ?_⟩
    · intro q hq1 hq2
      by_contra hlt
      push_neg at hlt
      exact h3 q hq1 hlt hq2
    · intro hin
      have hge := snapGo_ge hr
      rcases Nat.lt_or_ge t r with hlt | hge2
      · exact absurd hin (h3 t (le_refl t) hlt)
      · omega
  · intro hno
    cases hx : snapToNextShiftTime t shifts with
    | ok r =>
      exfalso
      rcases snapGo_ok_spec heh hx with ⟨h1, h2, _h3⟩
      exact hno r (snapGo_ge hx) h2 h1
    | error e =>
      have he := snapGo_error_kind hwf hx
      subst he
      rfl

/-- Witness for the amended C8 at a concrete input (Thursday 08:00-17:00
shift, `t` = Thursday 09:00). -/
theorem C8_witness :
    ((∃ p, 9 * hourMs ≤ p ∧ p < startOfDay (9 * hourMs) + 14 * dayMs ∧
        InShift [⟨4, 8, 17⟩] p) →
      ∃ r, snapToNextShiftTime (9 * hourMs) [⟨4, 8, 17⟩] = .ok r ∧
        9 * hourMs ≤ r ∧ InShift [⟨4, 8, 17⟩] r ∧
        (∀ p, 9 * hourMs ≤ p → InShift [⟨4, 8, 17⟩] p → r ≤ p) ∧
        (InShift [⟨4, 8, 17⟩] (9 * hourMs) → r = 9 * hourMs)) ∧
    ((∀ p, 9 * hourMs ≤ p → p < startOfDay (9 * hourMs) + 14 * dayMs →
        ¬InShift [⟨4, 8, 17⟩] p) →
      snapToNextShiftTime (9 * hourMs) [⟨4, 8, 17⟩] = .error .noShiftFound) :=
  C8_snapToNextShiftTime_least (9 * hourMs) [⟨4, 8, 17⟩] (by decide)

/-! ## Lemmas: `SMap`. -/

lemma SMap.set_cons_eq {α : Type} {p : String × α} {t : SMap α} {k : String} {v : α}
    (h : p.1 = k) :
    SMap.set (p :: t) k v = (k, v) :: t.map (fun q => if q.1 == k then (k, v) else q) := by
  unfold SMap.set
  rw [if_pos (by simp [List.any_cons, h]), List.map_cons, if_pos (by simp [h])]

lemma SMap.set_cons_ne {α : Type} {p : String × α} {t : SMap α} {k : String} {v : α}
    (h : ¬ p.1 = k) :
    SMap.set (p :: t) k v = p :: SMap.set t k v := by
  unfold SMap.set
  by_cases ht : (t.any fun q => q.1 == k) = true
  · rw [if_pos (by simp [List.any_cons, ht]), if_pos ht, List.map_cons,
      if_neg (by simp [h])]
  · rw [if_neg (by simp [List.any_cons, h, ht]), if_neg ht]
    rfl

lemma SMap.get?_cons {α : Type} {p : String × α} {t : SMap α} {k : String} :
    SMap.get? (p :: t) k = if p.1 = k then some p.2 else SMap.get? t k := by
  unfold SMap.get?
  rw [List.find?_cons]
  by_cases h : p.1 = k
  · rw [if_pos h, (by simp [h] : (p.1 == k) = true)]
    rfl
  · rw [if_neg h, (by simp [h] : (p.1 == k) = false)]

lemma SMap.get?_map_replace_ne {α : Type} {t : SMap α} {k k' : String} {v : α}
    (h : ¬ k' = k) :
    SMap.get? (t.map (fun q => if q.1 == k then (k, v) else q)) k' = SMap.get? t k' := by
  induction t with
  | nil => rfl
  | cons p t ih =>
    by_cases hp : p.1 = k
    · have hk1 : ¬ (k : String) = k' := fun hkk => h hkk.symm
      have hk2 : ¬ p.1 = k' := fun hpk => h ((hp ▸ hpk : k = k').symm)
      rw [List.map_cons, if_pos (by simp [hp]), SMap.get?_cons, SMap.get?_cons,
        if_neg hk1, if_neg hk2]
      exact ih
    · rw [List.map_cons, if_neg (by simp [hp]), SMap.get?_cons, SMap.get?_cons]
      by_cases hp' : p.1 = k'
      · rw [if_pos hp', if_pos hp']
      · rw [if_neg hp', if_neg hp']
        exact ih

lemma SMap.get?_set_self {α : Type} (m : SMap α) (k : String) (v : α) :
    SMap.get? (m.set k v) k = some v := by
  induction m with
  | nil =>
    unfold SMap.set SMap.get?
    simp
  | cons p t ih =>
    by_cases hp : p.1 = k
    · rw [SMap.set_cons_eq hp, SMap.get?_cons, if_pos rfl]
    · rw [SMap.set_cons_ne hp, SMap.get?_cons, if_neg hp]
      exact ih

lemma SMap.get?_set_ne {α : Type} (m : SMap α) (k k' : String) (v : α)
    (h : ¬ k' = k) : SMap.get? (m.set k v) k' = SMap.get? m k' := by
  induction m with
  | nil =>
    unfold SMap.set SMap.get?
    have hk1 : ¬ (k : String) = k' := fun hkk => h hkk.symm
    simp [hk1]
  | cons p t ih =>
    by_cases hp : p.1 = k
    · have hk1 : ¬ (k : String) = k' := fun hkk => h hkk.symm
      have hk2 : ¬ p.1 = k' := fun hpk => h ((hp ▸ hpk : k = k').symm)
      rw [SMap.set_cons_eq hp, SMap.get?_cons, if_neg hk1,
        SMap.get?_map_replace_ne h, SMap.get?_cons, if_neg hk2]
    · rw [SMap.set_cons_ne hp, SMap.get?_cons, SMap.get?_cons]
      by_cases hp' : p.1 = k'
      · rw [if_pos hp', if_pos hp']
      · rw [if_neg hp', if_neg hp']
        exact ih

/-- `get?` of a keyed `foldl`-of-`set` build: the last matching element wins
(JS `Map` insertion semantics). -/
lemma SMap.get?_foldl_set {α β : Type} (key : α → String) (val : α → β)
    (l : List α) (m0 : SMap β) (k : String) :
    SMap.get? (l.foldl (fun m x => m.set (key x) (val x)) m0) k =
      match l.reverse.find? (fun x => key x == k) with
      | some x => some (val x)
      | none => SMap.get? m0 k := by
  induction l generalizing m0 with
  | nil => simp
  | cons x t ih =>
    simp only [List.foldl_cons, List.reverse_cons]
    rw [ih]
    cases hfind : t.reverse.find? (fun y => key y == k) with
    | some y =>
      rw [List.find?_append, hfind]
      rfl
    | none =>
      rw [List.find?_append, hfind]
      simp only [Option.none_or, List.find?_cons, List.find?_nil]
      by_cases hx : (key x == k) = true
      · have hk : k = key x := ((beq_iff_eq).1 hx).symm
        rw [hx]
        subst hk
        exact SMap.get?_set_self m0 _ (val x)
      · have hk : ¬ k = key x := fun hkk => hx (beq_iff_eq.2 hkk.symm)
        rw [Bool.not_eq_true] at hx
        rw [hx]
        exact SMap.get?_set_ne m0 (key x) k (val x) hk

lemma foldl_filter_set {α β : Type} (P : α → Bool) (key : α → String) (val : α → β)
    (l : List α) (m0 : SMap β) :
    l.foldl (fun m x => if P x then m.set (key x) (val x) else m) m0 =
      (l.filter P).foldl (fun m x => m.set (key x) (val x)) m0 := by
  induction l generalizing m0 with
  | nil => rfl
  | cons x t ih =>
    by_cases hx : P x
    · simp only [List.foldl_cons, if_pos hx, List.filter_cons, hx, ite_true]
      exact ih _
    · simp only [List.foldl_cons, if_neg hx, List.filter_cons,
        (by simpa using hx : P x = false), Bool.false_eq_true, ite_false]
      exact ih _

lemma find?_reverse_of_nodup {α : Type} {key : α → String} {l : List α}
    (hn : (l.map key).Nodup) {x : α} (hx : x ∈ l) :
    l.reverse.find? (fun y => key y == key x) = some x := by
  cases hfind : l.reverse.find? (fun y => key y == key x) with
  | none =>
    exfalso
    have := List.find?_eq_none.1 hfind x (List.mem_reverse.2 hx)
    simp at this
  | some y =>
    have hy : y ∈ l := List.mem_reverse.1 (List.mem_of_find?_eq_some hfind)
    have hkey : key y = key x := by simpa using List.find?_some hfind
    rw [List.inj_on_of_nodup_map hn hy hx hkey]

/-- `SMap.ofList` over `(docId, ·)` pairs: lookup is the last match. -/
lemma SMap.get?_ofList_keyed {α : Type} (key : α → String) (l : List α) (k : String) :
    SMap.get? (SMap.ofList (l.map fun x => (key x, x))) k =
      (l.reverse.find? (fun x => key x == k)).map (fun x => x) := by
  unfold SMap.ofList
  rw [List.foldl_map]
  rw [SMap.get?_foldl_set key (fun x => x) l [] k]
  cases l.reverse.find? (fun x => key x == k) <;> rfl

lemma lookup_keyed_mem {α : Type} {key : α → String} {l : List α} {k : String} {v : α}
    (h : SMap.get? (SMap.ofList (l.map fun x => (key x, x))) k = some v) :
    v ∈ l ∧ key v = k := by
  rw [SMap.get?_ofList_keyed] at h
  cases hfind : l.reverse.find? (fun x => key x == k) with
  | none => rw [hfind] at h; cases h
  | some y =>
    rw [hfind] at h
    have hv : y = v := by simpa using h
    subst hv
    exact ⟨List.mem_reverse.1 (List.mem_of_find?_eq_some hfind),
      by simpa using List.find?_some hfind⟩

lemma lookup_keyed_self {α : Type} {key : α → String} {l : List α}
    (hn : (l.map key).Nodup) {x : α} (hx : x ∈ l) :
    SMap.get? (SMap.ofList (l.map fun y => (key y, y))) (key x) = some x := by
  rw [SMap.get?_ofList_keyed, find?_reverse_of_nodup hn hx]
  rfl

/-! ## Lemmas: `firstOverlap`. -/

lemma asInterval_ok {s e : Nat} {t : Nat × Nat} (h : asInterval s e = .ok t) :
    s < e ∧ t = (s, e) := by
  unfold asInterval at h
  split at h
  · cases h
  · rename_i hle
    cases h
    exact ⟨by omega, rfl⟩

lemma firstOverlapGo_none {target : Nat × Nat} {rs : List Reservation}
    (hsort : rs.Pairwise (fun a b => a.start ≤ b.start))
    (h : firstOverlapGo target rs = .ok none) :
    ∀ r ∈ rs, ∀ p, r.start ≤ p → p < r.stop → ¬(target.1 ≤ p ∧ p < target.2) := by
  induction rs with
  | nil => simp
  | cons r rest ih =>
    rcases List.pairwise_cons.1 hsort with ⟨h1, h2⟩
    simp only [firstOverlapGo] at h
    split at h
    · cases h
    · rename_i ri heq
      rcases asInterval_ok heq with ⟨hv, rfl⟩
      split at h
      · cases h
      · rename_i hno
        split at h
        · rename_i hshort
          intro r' hr' p hp1 hp2 ht
          rcases List.mem_cons.1 hr' with rfl | hr'
          · omega
          · have := h1 r' hr'
            omega
        · rename_i hshort
          intro r' hr' p hp1 hp2 ht
          rcases List.mem_cons.1 hr' with rfl | hr'
          · apply hno
            unfold ivOverlaps
            simp only [Bool.and_eq_true, decide_eq_true_eq]
            omega
          · exact ih h2 h r' hr' p hp1 hp2 ht

lemma firstOverlapGo_some {target : Nat × Nat} {rs : List Reservation} {r : Reservation}
    (h : firstOverlapGo target rs = .ok (some r)) : target.1 < r.stop ∧ r ∈ rs := by
  induction rs with
  | nil => cases h
  | cons r0 rest ih =>
    simp only [firstOverlapGo] at h
    split at h
    · cases h
    · rename_i ri heq
      rcases asInterval_ok heq with ⟨hv, rfl⟩
      split at h
      · rename_i hov
        cases h
        unfold ivOverlaps at hov
        simp only [Bool.and_eq_true, decide_eq_true_eq] at hov
        exact ⟨by omega, List.mem_cons_self _ _⟩
      · split at h
        · cases h
        · rcases ih h with ⟨hlt, hmem⟩
          exact ⟨hlt, List.mem_cons_of_mem _ hmem⟩

lemma firstOverlap_none {rs : List Reservation} {s e : Nat}
    (hsort : rs.Pairwise (fun a b => a.start ≤ b.start))
    (h : firstOverlap rs s e = .ok none) :
    s < e ∧ ∀ r ∈ rs, ∀ p, r.start ≤ p → p < r.stop → ¬(s ≤ p ∧ p < e) := by
  unfold firstOverlap at h
  split at h
  · cases h
  · rename_i target heq
    rcases asInterval_ok heq with ⟨hv, rfl⟩
    exact ⟨hv, firstOverlapGo_none hsort h⟩

lemma firstOverlap_some {rs : List Reservation} {s e : Nat} {r : Reservation}
    (h : firstOverlap rs s e = .ok (some r)) : s < r.stop ∧ r ∈ rs := by
  unfold firstOverlap at h
  split at h
  · cases h
  · rename_i target heq
    rcases asInterval_ok heq with ⟨hv, rfl⟩
    exact firstOverlapGo_some h

/-! ## Lemmas: the feasibility and overlap-resolution loops. -/

lemma findFeasibleGo_ok {shifts : List Shift} {rs : List Reservation} {wn : String}
    {fuel cursor r : Nat} (h : findFeasibleGo shifts rs wn fuel cursor = .ok r) :
    cursor ≤ r ∧ (r = cursor ∨ ∃ t, snapToNextShiftTime t shifts = .ok r) := by
  induction fuel generalizing cursor with
  | zero => cases h
  | succ fuel ih =>
    simp only [findFeasibleGo] at h
    split at h
    · rename_i inside hfind
      split at h
      · cases h
      · rename_i cursor' hsnap
        rcases ih h with ⟨hle, hor⟩
        have hfacts := List.find?_some hfind
        simp only [Bool.and_eq_true, decide_eq_true_eq] at hfacts
        have hge := snapGo_ge hsnap
        refine ⟨by omega, ?_⟩
        rcases hor with rfl | hex
        · exact Or.inr ⟨inside.stop, hsnap⟩
        · exact Or.inr hex
    · cases h
      exact ⟨le_refl _, Or.inl rfl⟩

lemma findFeasibleStart_ok {shifts : List Shift} {rs : List Reservation} {wn : String}
    {earliest r : Nat} (h : findFeasibleStart shifts rs wn earliest = .ok r) :
    earliest ≤ r ∧ ∃ t, snapToNextShiftTime t shifts = .ok r := by
  unfold findFeasibleStart at h
  split at h
  · cases h
  · rename_i cursor hsnap
    rcases findFeasibleGo_ok h with ⟨hle, hor⟩
    have hge := snapGo_ge hsnap
    refine ⟨by omega, ?_⟩
    rcases hor with rfl | hex
    · exact ⟨earliest, hsnap⟩
    · exact hex

lemma resolveGo_ok {shifts : List Shift} {rs : List Reservation} {dur : Nat} {wn : String}
    {fuel s e s' e' : Nat} (h : resolveGo shifts rs dur wn fuel s e = .ok (s', e')) :
    s ≤ s' ∧ firstOverlap rs s' e' = .ok none ∧
      ((s' = s ∧ e' = e) ∨
        ((∃ t, snapToNextShiftTime t shifts = .ok s') ∧
          calculateEndDateWithShiftsAndMaintenance s' dur shifts rs = .ok e')) := by
  induction fuel generalizing s e with
  | zero => cases h
  | succ fuel ih =>
    simp only [resolveGo] at h
    split at h
    · cases h
    · rename_i hov
      cases h
      exact ⟨le_refl _, hov, Or.inl ⟨rfl, rfl⟩⟩
    · rename_i overlap hov
      split at h
      · cases h
      · rename_i s1 hsnap
        split at h
        · cases h
        · rename_i e1 hcalc
          rcases ih h with ⟨hle, hnone, hrest⟩
          have hst : s < overlap.stop := (firstOverlap_some hov).1
          have hsnapge := snapGo_ge hsnap
          refine ⟨by omega, hnone, ?_⟩
          rcases hrest with ⟨rfl, rfl⟩ | hr
          · exact Or.inr ⟨⟨overlap.stop, hsnap⟩, hcalc⟩
          · exact Or.inr hr

/-! ## Lemmas: monotonicity of the duration calculator. -/

lemma subtract_parts_lo {base : Nat × Nat} {blocks : List (Nat × Nat)} :
    ∀ w ∈ subtractIntervals base blocks, base.1 ≤ w.1 := by
  have main : ∀ (bs : List (Nat × Nat)) (parts : List (Nat × Nat)),
      (∀ p ∈ parts, base.1 ≤ p.1) →
      ∀ w ∈ bs.foldl subtractBlock parts, base.1 ≤ w.1 := by
    intro bs
    induction bs with
    | nil => intro parts hp w hw; exact hp w hw
    | cons b rest ih =>
      intro parts hp w hw
      refine ih (subtractBlock parts b) ?_ w hw
      intro q hq
      unfold subtractBlock at hq
      rcases List.mem_flatMap.1 hq with ⟨p, hpmem, hqin⟩
      have hplo := hp p hpmem
      split at hqin
      · rcases List.mem_singleton.1 hqin with rfl
        exact hplo
      · rename_i hovb
        rw [Bool.not_eq_true', Bool.not_eq_false] at hovb
        unfold ivOverlaps at hovb
        simp only [Bool.and_eq_true, decide_eq_true_eq] at hovb
        rcases List.mem_append.1 hqin with hqin | hqin
        · split at hqin
          · rcases List.mem_singleton.1 hqin with rfl
            exact hplo
          · cases hqin
        · split at hqin
          · rcases List.mem_singleton.1 hqin with rfl
            dsimp
            omega
          · cases hqin
  intro w hw
  unfold subtractIntervals at hw
  refine main blocks [base] ?_ w (mem_sortWindows.1 hw)
  intro p hp
  rcases List.mem_singleton.1 hp with rfl
  exact le_refl _

lemma consumeParts_inl_gt {parts : List (Nat × Nat)} {rem endMs lo : Nat}
    (hlo : ∀ w ∈ parts, lo ≤ w.1) (hrem : 1 ≤ rem)
    (h : consumeParts parts rem = .inl endMs) : lo < endMs := by
  induction parts generalizing rem with
  | nil => cases h
  | cons w rest ih =>
    obtain ⟨ps, pe⟩ := w
    simp only [consumeParts] at h
    split at h
    · exact ih (fun q hq => hlo q (List.mem_cons_of_mem _ hq)) hrem h
    · split at h
      · cases h
        have := hlo (ps, pe) (List.mem_cons_self _ _)
        dsimp at this
        unfold minuteMs
        omega
      · rename_i hmz hgt
        refine ih (fun q hq => hlo q (List.mem_cons_of_mem _ hq)) (by omega) h

lemma consumeParts_inr_ge {parts : List (Nat × Nat)} {rem rem' : Nat}
    (hrem : 1 ≤ rem) (h : consumeParts parts rem = .inr rem') : 1 ≤ rem' := by
  induction parts generalizing rem with
  | nil =>
    simp only [consumeParts] at h
    cases h
    exact hrem
  | cons w rest ih =>
    obtain ⟨ps, pe⟩ := w
    simp only [consumeParts] at h
    split at h
    · exact ih hrem h
    · split at h
      · cases h
      · rename_i hmz hgt
        exact ih (by omega) h

lemma calcDay_inl_gt {blocks : List Reservation} {windows : List (Nat × Nat)}
    {cursor rem endMs : Nat} (hrem : 1 ≤ rem)
    (h : calcDay blocks windows cursor rem = .inl endMs) : cursor < endMs := by
  induction windows generalizing cursor rem with
  | nil => cases h
  | cons w rest ih =>
    obtain ⟨ws, we⟩ := w
    simp only [calcDay] at h
    split at h
    · exact ih hrem h
    · rename_i hcw
      split at h
      · rename_i endMs' hcons
        cases h
        have := @consumeParts_inl_gt _ _ _ (max cursor ws) subtract_parts_lo hrem hcons
        omega
      · rename_i pr hcons
        have h1 := consumeParts_inr_ge hrem hcons
        have := ih h1 h
        omega

lemma calcDay_inr_rem {blocks : List Reservation} {windows : List (Nat × Nat)}
    {cursor rem c' rem' : Nat} (hrem : 1 ≤ rem)
    (h : calcDay blocks windows cursor rem = .inr (c', rem')) : 1 ≤ rem' := by
  induction windows generalizing cursor rem with
  | nil =>
    simp only [calcDay] at h
    cases h
    exact hrem
  | cons w rest ih =>
    obtain ⟨ws, we⟩ := w
    simp only [calcDay] at h
    split at h
    · exact ih hrem h
    · split at h
      · cases h
      · rename_i pr hcons
        exact ih (consumeParts_inr_ge hrem hcons) h

lemma calcGo_ok_gt {shifts : List Shift} {blocks : List Reservation}
    {fuel cursor rem endMs : Nat} (hrem : 1 ≤ rem)
    (h : calcGo shifts blocks fuel cursor rem = .ok endMs) : cursor < endMs := by
  induction fuel generalizing cursor rem with
  | zero => cases h
  | succ fuel ih =>
    have hdlt := lt_startOfDay_add cursor
    simp only [calcGo] at h
    split at h
    · cases h
    · split at h
      · split at h
        · cases h
        · rename_i cursor' hsnap
          have := ih hrem h
          have hge := snapGo_ge hsnap
          omega
      · split at h
        · rename_i endMs' hday
          cases h
          exact calcDay_inl_gt hrem hday
        · rename_i c0 rem' hday
          split at h
          · cases h
          · rename_i cursor' hsnap
            have hrem' := calcDay_inr_rem hrem hday
            have := ih hrem' h
            have hge := snapGo_ge hsnap
            omega

lemma calculateEnd_gt {start dur : Nat} {shifts : List Shift}
    {blocks : List Reservation} {endMs : Nat} (hdur : 1 ≤ dur)
    (h : calculateEndDateWithShiftsAndMaintenance start dur shifts blocks = .ok endMs) :
    start < endMs := by
  unfold calculateEndDateWithShiftsAndMaintenance at h
  rw [if_neg (by omega)] at h
  split at h
  · cases h
  · rename_i cursor hsnap
    have := calcGo_ok_gt hdur h
    have hge := snapGo_ge hsnap
    omega

/-! ## Lemmas: `topoSortOrThrow` build phase. -/

lemma SMap.keys_set {α : Type} (m : SMap α) (k : String) (v : α) :
    (m.set k v).map (·.1) =
      if m.any (fun p => p.1 == k) then m.map (·.1) else m.map (·.1) ++ [k] := by
  unfold SMap.set
  split
  · rw [List.map_map]
    refine List.map_congr_left ?_
    intro p _
    dsimp
    split
    · rename_i hp
      exact ((beq_iff_eq).1 hp).symm
    · rfl
  · simp

lemma SMap.isSome_get?_iff_mem_keys {α : Type} (m : SMap α) (k : String) :
    (m.get? k).isSome ↔ k ∈ m.map (·.1) := by
  unfold SMap.get?
  induction m with
  | nil => simp
  | cons p t ih =>
    rw [List.find?_cons]
    by_cases hp : p.1 = k
    · rw [(by simp [hp] : (p.1 == k) = true)]
      simp [hp]
    · rw [(by simp [hp] : (p.1 == k) = false)]
      simp only [List.map_cons, List.mem_cons]
      rw [← ih]
      constructor
      · intro hsome
        exact Or.inr hsome
      · rintro (hk | hsome)
        · exact absurd hk.symm hp
        · exact hsome

lemma SMap.any_iff_mem_keys {α : Type} (m : SMap α) (k : String) :
    (m.any (fun p => p.1 == k)) = true ↔ k ∈ m.map (·.1) := by
  rw [List.any_eq_true]
  constructor
  · rintro ⟨p, hp, hpe⟩
    exact List.mem_map.2 ⟨p, hp, (beq_iff_eq).1 hpe⟩
  · intro hk
    rcases List.mem_map.1 hk with ⟨p, hp, hpe⟩
    exact ⟨p, hp, by simp [hpe]⟩

lemma SMap.keys_set_nodup {α : Type} {m : SMap α} (hm : (m.map (·.1)).Nodup)
    (k : String) (v : α) : ((m.set k v).map (·.1)).Nodup := by
  rw [SMap.keys_set]
  split
  · exact hm
  · rename_i hany
    have hk : k ∉ m.map (·.1) := by
      intro hmem
      exact hany ((SMap.any_iff_mem_keys m k).2 hmem)
    simp [List.nodup_append, hm, hk]

lemma SMap.get?_of_mem_nodup {α : Type} {m : SMap α} (hm : (m.map (·.1)).Nodup)
    {k : String} {v : α} (hmem : (k, v) ∈ m) : m.get? k = some v := by
  induction m with
  | nil => cases hmem
  | cons p t ih =>
    rcases List.mem_cons.1 hmem with rfl | hmem
    · rw [SMap.get?_cons, if_pos rfl]
    · rw [List.map_cons] at hm
      rcases List.nodup_cons.1 hm with ⟨hp, ht⟩
      have hne : ¬ p.1 = k := fun hpk =>
        hp (by rw [hpk]; exact List.mem_map.2 ⟨(k, v), hmem, rfl⟩)
      rw [SMap.get?_cons, if_neg hne]
      exact ih ht hmem

lemma constFold_get (nodes : List String) {α : Type} (c : α) (k : String) :
    SMap.get? (nodes.foldl (fun (m : SMap α) n => m.set n c) []) k =
      if k ∈ nodes then some c else none := by
  rw [SMap.get?_foldl_set (fun n => n) (fun _ => c) nodes [] k]
  by_cases hk : k ∈ nodes
  · cases hfind : nodes.reverse.find? (fun x => x == k) with
    | none =>
      exfalso
      exact absurd (by simp : (k == k) = true)
        (List.find?_eq_none.1 hfind k (List.mem_reverse.2 hk))
    | some x =>
      rw [if_pos hk]
  · cases hfind : nodes.reverse.find? (fun x => x == k) with
    | none => rw [if_neg hk]; rfl
    | some x =>
      exfalso
      have hx := List.mem_reverse.1 (List.mem_of_find?_eq_some hfind)
      have := List.find?_some hfind
      simp only [beq_iff_eq] at this
      exact hk (this ▸ hx)

lemma constFold_keys_nodup (nodes : List String) {α : Type} (c : α) :
    ((nodes.foldl (fun (m : SMap α) n => m.set n c) []).map (·.1)).Nodup := by
  have main : ∀ (l : List String) (m : SMap α), (m.map (·.1)).Nodup →
      ((l.foldl (fun m n => m.set n c) m).map (·.1)).Nodup := by
    intro l
    induction l with
    | nil => intro m hm; exact hm
    | cons n t ih =>
      intro m hm
      exact ih _ (SMap.keys_set_nodup hm n c)
  exact main nodes [] (by simp)

lemma SMap.isSome_get?_set {α : Type} (m : SMap α) (k k' : String) (v : α) :
    ((m.set k v).get? k').isSome ↔ k' = k ∨ (m.get? k').isSome := by
  by_cases h : k' = k
  · subst h
    rw [SMap.get?_set_self]
    simp
  · rw [SMap.get?_set_ne _ _ _ _ h]
    simp [h]

lemma topoBuild_spec (nodes : List String) (edges : List (String × String)) :
    (∀ k, (((topoBuild nodes edges).1.get? k).isSome ↔ k ∈ nodes) ∧
      (((topoBuild nodes edges).2.get? k).isSome ↔ k ∈ nodes)) ∧
    (∀ k l, (topoBuild nodes edges).2.get? k = some l → ∀ m ∈ l, m ∈ nodes) ∧
    ((topoBuild nodes edges).1.map (·.1)).Nodup ∧
    ((topoBuild nodes edges).2.map (·.1)).Nodup := by
  have main : ∀ (es : List (String × String)) (st : SMap Int × SMap (List String)),
      (∀ k, ((st.1.get? k).isSome ↔ k ∈ nodes) ∧ ((st.2.get? k).isSome ↔ k ∈ nodes)) →
      (∀ k l, st.2.get? k = some l → ∀ m ∈ l, m ∈ nodes) →
      (st.1.map (·.1)).Nodup → (st.2.map (·.1)).Nodup →
      (∀ k, (((es.foldl
          (fun (p : SMap Int × SMap (List String)) e =>
            if (p.2.get? e.1).isSome && (p.2.get? e.2).isSome then
              (p.1.set e.2 (((p.1.get? e.2).getD 0) + 1),
               p.2.set e.1 (((p.2.get? e.1).getD []) ++ [e.2]))
            else p) st).1.get? k).isSome ↔ k ∈ nodes) ∧
        (((es.foldl
          (fun (p : SMap Int × SMap (List String)) e =>
            if (p.2.get? e.1).isSome && (p.2.get? e.2).isSome then
              (p.1.set e.2 (((p.1.get? e.2).getD 0) + 1),
               p.2.set e.1 (((p.2.get? e.1).getD []) ++ [e.2]))
            else p) st).2.get? k).isSome ↔ k ∈ nodes)) ∧
      (∀ k l, (es.foldl
          (fun (p : SMap Int × SMap (List String)) e =>
            if (p.2.get? e.1).isSome && (p.2.get? e.2).isSome then
              (p.1.set e.2 (((p.1.get? e.2).getD 0) + 1),
               p.2.set e.1 (((p.2.get? e.1).getD []) ++ [e.2]))
            else p) st).2.get? k = some l → ∀ m ∈ l, m ∈ nodes) ∧
      ((es.foldl
          (fun (p : SMap Int × SMap (List String)) e =>
            if (p.2.get? e.1).isSome && (p.2.get? e.2).isSome then
              (p.1.set e.2 (((p.1.get? e.2).getD 0) + 1),
               p.2.set e.1 (((p.2.get? e.1).getD []) ++ [e.2]))
            else p) st).1.map (·.1)).Nodup ∧
      ((es.foldl
          (fun (p : SMap Int × SMap (List String)) e =>
            if (p.2.get? e.1).isSome && (p.2.get? e.2).isSome then
              (p.1.set e.2 (((p.1.get? e.2).getD 0) + 1),
               p.2.set e.1 (((p.2.get? e.1).getD []) ++ [e.2]))
            else p) st).2.map (·.1)).Nodup := by
    intro es
    induction es with
    | nil =>
      intro st h1 h2 h3 h4
      exact ⟨h1, h2, h3, h4⟩
    | cons e rest ih =>
      intro st h1 h2 h3 h4
      simp only [List.foldl_cons]
      by_cases hc : ((st.2.get? e.1).isSome && (st.2.get? e.2).isSome) = true
      · rw [if_pos hc]
        simp only [Bool.and_eq_true] at hc
        have he1 : e.1 ∈ nodes := (h1 e.1).2.1 hc.1
        have he2 : e.2 ∈ nodes := (h1 e.2).2.1 hc.2
        refine ih _ ?_ ?_ (SMap.keys_set_nodup h3 _ _) (SMap.keys_set_nodup h4 _ _)
        · intro k
          constructor
          · rw [SMap.isSome_get?_set]
            constructor
            · rintro (rfl | hs)
              · exact he2
              · exact (h1 k).1.1 hs
            · intro hk
              exact Or.inr ((h1 k).1.2 hk)
          · rw [SMap.isSome_get?_set]
            constructor
            · rintro (rfl | hs)
              · exact he1
              · exact (h1 k).2.1 hs
            · intro hk
              exact Or.inr ((h1 k).2.2 hk)
        · intro k l hget m hm
          by_cases hk : k = e.1
          · subst hk
            rw [SMap.get?_set_self] at hget
            cases hget
            rcases List.mem_append.1 hm with hm | hm
            · cases hold : st.2.get? e.1 with
              | none => rw [hold] at hm; cases hm
              | some old =>
                rw [hold] at hm
                exact h2 e.1 old hold m hm
            · rcases List.mem_singleton.1 hm with rfl
              exact he2
          · rw [SMap.get?_set_ne _ _ _ _ hk] at hget
            exact h2 k l hget m hm
      · rw [if_neg hc]
        exact ih st h1 h2 h3 h4
  unfold topoBuild
  refine main edges
    (nodes.foldl (fun m n => m.set n 0) [], nodes.foldl (fun m n => m.set n []) [])
    ?_ ?_ ?_ ?_
  · intro k
    constructor
    · dsimp only
      rw [constFold_get]
      by_cases hk : k ∈ nodes
      · rw [if_pos hk]
        simp [hk]
      · rw [if_neg hk]
        simp [hk]
    · dsimp only
      rw [constFold_get]
      by_cases hk : k ∈ nodes
      · rw [if_pos hk]
        simp [hk]
      · rw [if_neg hk]
        simp [hk]
  · intro k l hget m hm
    dsimp only at hget
    rw [constFold_get] at hget
    split at hget
    · cases hget
      cases hm
    · cases hget
  · dsimp only
    exact constFold_keys_nodup nodes 0
  · dsimp only
    exact constFold_keys_nodup nodes ([] : List String)

lemma topoQ0_spec {inDeg : SMap Int} (hkeys : (inDeg.map (·.1)).Nodup) :
    (∀ x ∈ topoQ0 inDeg, inDeg.get? x = some 0) ∧ (topoQ0 inDeg).Nodup := by
  constructor
  · intro x hx
    rcases List.mem_map.1 hx with ⟨p, hp, rfl⟩
    rcases List.mem_filter.1 hp with ⟨hpm, hp0⟩
    have : p.2 = 0 := by simpa using hp0
    have h2 := SMap.get?_of_mem_nodup hkeys (show (p.1, p.2) ∈ inDeg from hpm)
    rw [h2, this]
  · exact ((List.filter_sublist _).map _).nodup hkeys

/-! ## Lemmas: the Kahn loop emits each node at most once. -/

lemma kahnSucc_inv {nodes : List String} :
    ∀ (ms : List String) (inDeg : SMap Int) (q out : List String),
    (∀ n ∈ out ++ q, ∃ d, inDeg.get? n = some d ∧ d ≤ 0) →
    (out ++ q).Nodup →
    (∀ n ∈ out ++ q, n ∈ nodes) →
    (∀ m ∈ ms, m ∈ nodes) →
    (∀ n ∈ out ++ (kahnSucc inDeg q ms).2,
        ∃ d, (kahnSucc inDeg q ms).1.get? n = some d ∧ d ≤ 0) ∧
    (out ++ (kahnSucc inDeg q ms).2).Nodup ∧
    (∀ n ∈ out ++ (kahnSucc inDeg q ms).2, n ∈ nodes) := by
  intro ms
  induction ms with
  | nil =>
    intro inDeg q out hA hnd hmem hms
    exact ⟨hA, hnd, hmem⟩
  | cons m ms ih =>
    intro inDeg q out hA hnd hmem hms
    simp only [kahnSucc]
    by_cases hd : ((inDeg.get? m).getD 0) - 1 = 0
    · rw [if_pos hd]
      have hmf : m ∉ out ++ q := by
        intro hmm
        rcases hA m hmm with ⟨d0, hd0, hle⟩
        rw [hd0] at hd
        simp only [Option.getD_some] at hd
        omega
      refine ih _ (q ++ [m]) out ?_ ?_ ?_
        (fun x hx => hms x (List.mem_cons_of_mem _ hx))
      · intro n hn
        by_cases hnm : n = m
        · subst hnm
          exact ⟨_, SMap.get?_set_self _ _ _, by omega⟩
        · have hn' : n ∈ out ++ q := by
            rcases List.mem_append.1 hn with h | h
            · exact List.mem_append.2 (Or.inl h)
            · rcases List.mem_append.1 h with h | h
              · exact List.mem_append.2 (Or.inr h)
              · exact absurd (List.mem_singleton.1 h) hnm
          rcases hA n hn' with ⟨d0, hd0, hle⟩
          exact ⟨d0, by rw [SMap.get?_set_ne _ _ _ _ hnm]; exact hd0, hle⟩
      · rw [← List.append_assoc]
        rw [List.nodup_append]
        refine ⟨hnd, List.nodup_singleton m, ?_⟩
        intro x hx hx1
        rcases List.mem_singleton.1 hx1 with rfl
        exact hmf hx
      · intro n hn
        by_cases hnm : n = m
        · subst hnm
          exact hms n (List.mem_cons_self _ _)
        · apply hmem
          rcases List.mem_append.1 hn with h | h
          · exact List.mem_append.2 (Or.inl h)
          · rcases List.mem_append.1 h with h | h
            · exact List.mem_append.2 (Or.inr h)
            · exact absurd (List.mem_singleton.1 h) hnm
    · rw [if_neg hd]
      refine ih _ q out ?_ hnd hmem
        (fun x hx => hms x (List.mem_cons_of_mem _ hx))
      intro n hn
      by_cases hnm : n = m
      · subst hnm
        rcases hA n hn with ⟨d0, hd0, hle⟩
        refine ⟨_, SMap.get?_set_self _ _ _, ?_⟩
        rw [hd0]
        simp only [Option.getD_some]
        omega
      · rcases hA n hn with ⟨d0, hd0, hle⟩
        exact ⟨d0, by rw [SMap.get?_set_ne _ _ _ _ hnm]; exact hd0, hle⟩

lemma kahnLoop_inv {nodes : List String} {adj : SMap (List String)}
    (hadj : ∀ k l, adj.get? k = some l → ∀ m ∈ l, m ∈ nodes) :
    ∀ (fuel : Nat) (inDeg : SMap Int) (q out : List String),
    (∀ n ∈ out ++ q, ∃ d, inDeg.get? n = some d ∧ d ≤ 0) →
    (out ++ q).Nodup →
    (∀ n ∈ out ++ q, n ∈ nodes) →
    (kahnLoop adj fuel inDeg q out).2.Nodup ∧
    (∀ n ∈ (kahnLoop adj fuel inDeg q out).2, n ∈ nodes) := by
  intro fuel
  induction fuel with
  | zero =>
    intro inDeg q out hA hnd hmem
    cases q with
    | nil =>
      simp only [kahnLoop]
      exact ⟨by simpa using hnd, fun n hn => hmem n (by simpa using hn)⟩
    | cons n q' =>
      simp only [kahnLoop]
      rw [List.nodup_append] at hnd
      exact ⟨hnd.1, fun x hx => hmem x (List.mem_append.2 (Or.inl hx))⟩
  | succ fuel ih =>
    intro inDeg q out hA hnd hmem
    cases q with
    | nil =>
      simp only [kahnLoop]
      exact ⟨by simpa using hnd, fun n hn => hmem n (by simpa using hn)⟩
    | cons n q' =>
      simp only [kahnLoop]
      have hre : out ++ n :: q' = (out ++ [n]) ++ q' := by
        rw [List.append_cons]
      rw [hre] at hA hnd hmem
      have hms : ∀ m ∈ (adj.get? n).getD [], m ∈ nodes := by
        cases hget : adj.get? n with
        | none => simp
        | some l =>
          simp only [Option.getD_some]
          exact hadj n l hget
      have hks := kahnSucc_inv ((adj.get? n).getD []) inDeg q' (out ++ [n]) hA hnd hmem hms
      rcases hpair : kahnSucc inDeg q' ((adj.get? n).getD []) with ⟨inDeg', q''⟩
      rw [hpair] at hks
      dsimp at hks
      exact ih inDeg' q'' (out ++ [n]) hks.1 hks.2.1 hks.2.2

/-- On success, `topoSortOrThrow` emits each node exactly once: the output is
duplicate-free, the input nodes are duplicate-free, and both contain the same
ids. -/
lemma topoSortOrThrow_ok_facts {nodes : List String} {edges : List (String × String)}
    {out : List String} (h : topoSortOrThrow nodes edges = .ok out) :
    out.Nodup ∧ nodes.Nodup ∧ (∀ n, n ∈ out ↔ n ∈ nodes) := by
  unfold topoSortOrThrow at h
  dsimp only at h
  split at h
  · cases h
  · rename_i hlen
    cases h
    rw [Ne, not_not] at hlen
    have hbuild := topoBuild_spec nodes edges
    have hq0 := topoQ0_spec hbuild.2.2.1
    have hloop := kahnLoop_inv hbuild.2.1
      (nodes.length + edges.length + 1) (topoBuild nodes edges).1
      (topoQ0 (topoBuild nodes edges).1) []
      (by
        intro x hx
        simp only [List.nil_append] at hx
        exact ⟨0, hq0.1 x hx, le_refl 0⟩)
      (by simpa using hq0.2)
      (by
        intro x hx
        simp only [List.nil_append] at hx
        have := hq0.1 x hx
        exact (hbuild.1 x).1.1 (by rw [this]; rfl))
    have hperm : (kahnLoop (topoBuild nodes edges).2 (nodes.length + edges.length + 1)
        (topoBuild nodes edges).1 (topoQ0 (topoBuild nodes edges).1) []).2.Perm nodes := by
      have hsp := List.Nodup.subperm hloop.1 (fun x hx => hloop.2 x hx)
      exact hsp.perm_of_length_le (by omega)
    exact ⟨hloop.1, hperm.nodup_iff.1 hloop.1, fun n => hperm.mem_iff⟩

/-! ## Lemmas: the placement loop. -/

lemma earliestFromParents_ok {sch : SMap (Nat × Nat)} {wn : String}
    {deps : List String} {acc r : Nat}
    (h : earliestFromParents sch wn deps acc = .ok r) :
    acc ≤ r ∧ ∀ pid ∈ deps, ∃ piv, sch.get? pid = some piv ∧ piv.2 ≤ r := by
  induction deps generalizing acc with
  | nil =>
    simp only [earliestFromParents] at h
    cases h
    exact ⟨le_refl _, by simp⟩
  | cons pid rest ih =>
    simp only [earliestFromParents] at h
    split at h
    · cases h
    · rename_i p hp
      rcases ih h with ⟨hle, hrest⟩
      have hacc : acc ≤ (if acc < p.2 then p.2 else acc) := by split <;> omega
      have hp2 : p.2 ≤ (if acc < p.2 then p.2 else acc) := by split <;> omega
      refine ⟨by omega, ?_⟩
      intro pid' hpid'
      rcases List.mem_cons.1 hpid' with rfl | hpid'
      · exact ⟨p, hp, by omega⟩
      · exact hrest pid' hpid'

lemma processOne_ok {wcById : SMap WorkCenterDoc} {woById : SMap WorkOrderDoc}
    {st : PlaceState} {woId : String} {st' : PlaceState}
    (h : processOne wcById woById st woId = .ok st') :
    (st' = st ∧ (woById.get? woId = none ∨
      ∃ wo, woById.get? woId = some wo ∧ wo.data.isMaintenance = true)) ∨
    ∃ wo wc earliest feasible endMs fin,
      woById.get? woId = some wo ∧ wo.data.isMaintenance = false ∧
      wcById.get? wo.data.workCenterId = some wc ∧
      earliestFromParents st.scheduled wo.data.workOrderNumber
        wo.data.dependsOnWorkOrderIds wo.data.startDate = .ok earliest ∧
      findFeasibleStart wc.data.shifts (resAt st wc.docId) wo.data.workOrderNumber
        earliest = .ok feasible ∧
      calculateEndDateWithShiftsAndMaintenance feasible wo.data.durationMinutes
        wc.data.shifts (resAt st wc.docId) = .ok endMs ∧
      resolveOverlapsByPushing wc.data.shifts (resAt st wc.docId)
        wo.data.durationMinutes wo.data.workOrderNumber feasible endMs = .ok fin ∧
      st'.reservationsByWc = st.reservationsByWc.set wc.docId
        (mergeReservations (resAt st wc.docId ++
          [⟨fin.1, fin.2, .scheduledWO, some wo.docId⟩])) ∧
      st'.scheduled = st.scheduled.set wo.docId fin := by
  unfold processOne at h
  split at h
  · rename_i hwo
    cases h
    exact Or.inl ⟨rfl, Or.inl hwo⟩
  · rename_i wo hwo
    split at h
    · rename_i hm
      cases h
      exact Or.inl ⟨rfl, Or.inr ⟨wo, hwo, hm⟩⟩
    · rename_i hm
      rw [Bool.not_eq_true] at hm
      split at h
      · cases h
      · rename_i wc hwc
        split at h
        · cases h
        · rename_i earliest hear
          dsimp only at h
          split at h
          · cases h
          · rename_i feasible hfe
            split at h
            · cases h
            · rename_i endMs hcalc
              split at h
              · cases h
              · rename_i fin hres
                cases h
                exact Or.inr ⟨wo, wc, earliest, feasible, endMs, fin, hwo, hm, hwc,
                  hear, hfe, hcalc, hres, rfl, rfl⟩

lemma resAt_pairwise {wcById : SMap WorkCenterDoc} {woById : SMap WorkOrderDoc}
    {st : PlaceState} (hinv : LoopInv wcById woById st) (k : String) :
    (resAt st k).Pairwise (fun a b => a.start ≤ b.start) := by
  unfold resAt
  cases hg : st.reservationsByWc.get? k with
  | none => simp
  | some l =>
    simpa using hinv.sorted k l hg

lemma processOne_inv {wcById : SMap WorkCenterDoc} {woById : SMap WorkOrderDoc}
    {st : PlaceState} {woId : String} {st' : PlaceState}
    (hkeyWo : ∀ id wo, woById.get? id = some wo → wo.docId = id)
    (hkeyWc : ∀ k wc, wcById.get? k = some wc → wc.docId = k)
    (hsh23 : ∀ k wc, wcById.get? k = some wc → ∀ s ∈ wc.data.shifts, s.endHour ≤ 23)
    (hfresh : ∀ wo, woById.get? woId = some wo → wo.data.isMaintenance = false →
      st.scheduled.get? woId = none)
    (hinv : LoopInv wcById woById st)
    (h : processOne wcById woById st woId = .ok st') :
    LoopInv wcById woById st' ∧
    (∀ id iv, st.scheduled.get? id = some iv → st'.scheduled.get? id = some iv) ∧
    (∀ id, st.scheduled.get? id = none → ¬ id = woId → st'.scheduled.get? id = none) ∧
    (∀ wo, woById.get? woId = some wo → wo.data.isMaintenance = false →
      ∃ iv, st'.scheduled.get? woId = some iv) := by
  rcases processOne_ok h with ⟨rfl, hskip⟩ | hrun
  · refine ⟨hinv, fun id iv hiv => hiv, fun id hn _ => hn, ?_⟩
    intro wo hwo hmf
    rcases hskip with hnone | ⟨wo', hwo', hm'⟩
    · rw [hwo] at hnone; cases hnone
    · rw [hwo] at hwo'
      cases hwo'
      rw [hm'] at hmf
      cases hmf
  · rcases hrun with ⟨wo, wc, earliest, feasible, endMs, fin, hwo, hmf, hwc,
      hear, hfe, hcalc, hres, hR, hS⟩
    have hwoid : wo.docId = woId := hkeyWo _ _ hwo
    have hwcid : wc.docId = wo.data.workCenterId := hkeyWc _ _ hwc
    have hfresh' : st.scheduled.get? wo.docId = none := by
      rw [hwoid]
      exact hfresh wo hwo hmf
    have hsorted_rs := resAt_pairwise hinv wc.docId
    rcases resolveGo_ok hres with ⟨hfle, hnone, hsnapor⟩
    have hfo := firstOverlap_none hsorted_rs hnone
    have havoid : ∀ p, fin.1 ≤ p → p < fin.2 → ¬ Covered st wc.docId p := by
      rintro p hp1 hp2 ⟨r, hr, hrp1, hrp2⟩
      exact hfo.2 r hr p hrp1 hrp2 ⟨hp1, hp2⟩
    rcases findFeasibleStart_ok hfe with ⟨hearle, hsnapf⟩
    rcases earliestFromParents_ok hear with ⟨hstartle, hpar⟩
    have hfinsnap : ∃ t, snapToNextShiftTime t wc.data.shifts = .ok fin.1 := by
      rcases hsnapor with ⟨hs1, _⟩ | ⟨hs, _⟩
      · rw [hs1]
        exact hsnapf
      · exact hs
    have hfin_inshift : InShift wc.data.shifts fin.1 := by
      rcases hfinsnap with ⟨t, ht⟩
      exact (snapGo_ok_spec (hsh23 _ _ hwc) ht).1
    have hSself : st'.scheduled.get? wo.docId = some fin := by
      rw [hS]
      exact SMap.get?_set_self _ _ _
    have hSne : ∀ id, ¬ id = wo.docId → st'.scheduled.get? id = st.scheduled.get? id := by
      intro id hne
      rw [hS]
      exact SMap.get?_set_ne _ _ _ _ hne
    have hRself : resAt st' wc.docId =
        mergeReservations (resAt st wc.docId ++
          [⟨fin.1, fin.2, .scheduledWO, some wo.docId⟩]) := by
      unfold resAt
      rw [hR, SMap.get?_set_self]
      rfl
    have hRne : ∀ k, ¬ k = wc.docId → resAt st' k = resAt st k := by
      intro k hk
      unfold resAt
      rw [hR, SMap.get?_set_ne _ _ _ _ hk]
    have hcovmono : ∀ k p, Covered st k p → Covered st' k p := by
      rintro k p ⟨r, hr, hp1, hp2⟩
      by_cases hk : k = wc.docId
      · subst hk
        rw [Covered, hRself]
        exact mergeReservations_covers _ p r (List.mem_append.2 (Or.inl hr)) hp1 hp2
      · rw [Covered, hRne k hk]
        exact ⟨r, hr, hp1, hp2⟩
    have hcovnew : ∀ p, fin.1 ≤ p → p < fin.2 → Covered st' wc.docId p := by
      intro p hp1 hp2
      rw [Covered, hRself]
      exact mergeReservations_covers _ p _
        (List.mem_append.2 (Or.inr (List.mem_singleton.2 rfl))) hp1 hp2
    have hentry_ne : ∀ id iv, st.scheduled.get? id = some iv → ¬ id = wo.docId := by
      intro id iv hiv hid
      rw [hid, hfresh'] at hiv
      cases hiv
    refine ⟨?_, ?_, ?_, ?_⟩
    · refine ⟨?_, ?_, ?_, ?_, ?_, ?_, ?_, ?_⟩
      · -- sorted
        intro k l hget
        rw [hR] at hget
        by_cases hk : k = wc.docId
        · subst hk
          rw [SMap.get?_set_self] at hget
          cases hget
          exact mergeReservations_pairwise_start _
        · rw [SMap.get?_set_ne _ _ _ _ hk] at hget
          exact hinv.sorted k l hget
      · -- cover
        intro id iv wo0 hgets hwo0 hsome p hp1 hp2
        by_cases hid : id = wo.docId
        · subst hid
          rw [hSself] at hgets
          cases hgets
          rw [hwoid, hwo] at hwo0
          cases hwo0
          rw [← hwcid]
          exact hcovnew p hp1 hp2
        · rw [hSne id hid] at hgets
          exact hcovmono _ p (hinv.cover id iv wo0 hgets hwo0 hsome p hp1 hp2)
      · -- mwCover
        intro k wc0 hwc0 mw hmw p hp1 hp2
        exact hcovmono _ p (hinv.mwCover k wc0 hwc0 mw hmw p hp1 hp2)
      · -- startGe
        intro id iv wo0 hgets hwo0 hm0
        by_cases hid : id = wo.docId
        · subst hid
          rw [hSself] at hgets
          cases hgets
          rw [hwoid, hwo] at hwo0
          cases hwo0
          omega
        · rw [hSne id hid] at hgets
          exact hinv.startGe id iv wo0 hgets hwo0 hm0
      · -- maintEq
        intro id iv wo0 hgets hwo0 hm0
        by_cases hid : id = wo.docId
        · subst hid
          rw [hwoid, hwo] at hwo0
          cases hwo0
          rw [hmf] at hm0
          cases hm0
        · rw [hSne id hid] at hgets
          exact hinv.maintEq id iv wo0 hgets hwo0 hm0
      · -- inShiftStart
        intro id iv wo0 hgets hwo0 hm0
        by_cases hid : id = wo.docId
        · subst hid
          rw [hSself] at hgets
          cases hgets
          rw [hwoid, hwo] at hwo0
          cases hwo0
          exact ⟨wc, hwc, hfin_inshift⟩
        · rw [hSne id hid] at hgets
          exact hinv.inShiftStart id iv wo0 hgets hwo0 hm0
      · -- depOk
        intro id iv wo0 hgets hwo0 hm0 pid hpid
        by_cases hid : id = wo.docId
        · subst hid
          rw [hSself] at hgets
          cases hgets
          rw [hwoid, hwo] at hwo0
          cases hwo0
          rcases hpar pid hpid with ⟨piv, hpget, hple⟩
          have hpne : ¬ pid = wo.docId := hentry_ne pid piv hpget
          exact ⟨piv, by rw [hSne pid hpne]; exact hpget, by omega⟩
        · rw [hSne id hid] at hgets
          rcases hinv.depOk id iv wo0 hgets hwo0 hm0 pid hpid with ⟨piv, hpget, hple⟩
          have hpne : ¬ pid = wo.docId := hentry_ne pid piv hpget
          exact ⟨piv, by rw [hSne pid hpne]; exact hpget, hple⟩
      · -- disj
        intro id1 id2 iv1 iv2 wo1 wo2 hne hg1 hg2 hw1 hw2 hsamewc hnotboth p hp
        by_cases h1 : id1 = wo.docId
        · subst h1
          have h2 : ¬ id2 = wo.docId := fun h2 => hne h2.symm
          rw [hSself] at hg1
          cases hg1
          rw [hwoid, hwo] at hw1
          cases hw1
          rw [hSne id2 h2] at hg2
          have hcov2 : Covered st wo2.data.workCenterId p :=
            hinv.cover id2 iv2 wo2 hg2 hw2
              (by rw [← hsamewc, hwc]; rfl) p hp.2.2.1 hp.2.2.2
          rw [← hsamewc, ← hwcid] at hcov2
          exact havoid p hp.1 hp.2.1 hcov2
        · by_cases h2 : id2 = wo.docId
          · subst h2
            rw [hSself] at hg2
            cases hg2
            rw [hwoid, hwo] at hw2
            cases hw2
            rw [hSne id1 h1] at hg1
            have hcov1 : Covered st wo1.data.workCenterId p :=
              hinv.cover id1 iv1 wo1 hg1 hw1
                (by rw [hsamewc, hwc]; rfl) p hp.1 hp.2.1
            rw [hsamewc, ← hwcid] at hcov1
            exact havoid p hp.2.2.1 hp.2.2.2 hcov1
          · rw [hSne id1 h1] at hg1
            rw [hSne id2 h2] at hg2
            exact hinv.disj id1 id2 iv1 iv2 wo1 wo2 hne hg1 hg2 hw1 hw2
              hsamewc hnotboth p hp
    · intro id iv hiv
      rw [hSne id (hentry_ne id iv hiv)]
      exact hiv
    · intro id hnone hne
      rw [hSne id (by rw [hwoid]; exact hne)]
      exact hnone
    · intro wo1 hwo1 hmf1
      rw [← hwoid] at hwo1 ⊢
      exact ⟨fin, hSself⟩

lemma placeAll_inv {wcById : SMap WorkCenterDoc} {woById : SMap WorkOrderDoc}
    (hkeyWo : ∀ id wo, woById.get? id = some wo → wo.docId = id)
    (hkeyWc : ∀ k wc, wcById.get? k = some wc → wc.docId = k)
    (hsh23 : ∀ k wc, wcById.get? k = some wc → ∀ s ∈ wc.data.shifts, s.endHour ≤ 23) :
    ∀ (topo : List String) (st st' : PlaceState),
    topo.Nodup →
    (∀ id ∈ topo, ∀ wo, woById.get? id = some wo → wo.data.isMaintenance = false →
      st.scheduled.get? id = none) →
    LoopInv wcById woById st →
    placeAll wcById woById st topo = .ok st' →
    LoopInv wcById woById st' ∧
    (∀ id iv, st.scheduled.get? id = some iv → st'.scheduled.get? id = some iv) ∧
    (∀ id ∈ topo, ∀ wo, woById.get? id = some wo → wo.data.isMaintenance = false →
      ∃ iv, st'.scheduled.get? id = some iv) := by
  intro topo
  induction topo with
  | nil =>
    intro st st' hnd hfr hinv h
    simp only [placeAll, List.foldlM_nil] at h
    cases h
    exact ⟨hinv, fun id iv hiv => hiv, by simp⟩
  | cons woId rest ih =>
    intro st st' hnd hfr hinv h
    simp only [placeAll, List.foldlM_cons] at h
    cases hstep : processOne wcById woById st woId with
    | error e =>
      rw [hstep] at h
      cases h
    | ok st1 =>
      rw [hstep] at h
      have h' : placeAll wcById woById st1 rest = .ok st' := h
      rcases List.nodup_cons.1 hnd with ⟨hwni, hndr⟩
      rcases processOne_inv hkeyWo hkeyWc hsh23
        (fun wo hwo hmf => hfr woId (List.mem_cons_self _ _) wo hwo hmf)
        hinv hstep with ⟨hinv1, hpersist1, hfreshp1, hcomplete1⟩
      have hfr1 : ∀ id ∈ rest, ∀ wo, woById.get? id = some wo →
          wo.data.isMaintenance = false → st1.scheduled.get? id = none := by
        intro id hid wo hwo hmf
        have hne : ¬ id = woId := fun hidw => hwni (hidw ▸ hid)
        exact hfreshp1 id (hfr id (List.mem_cons_of_mem _ hid) wo hwo hmf) hne
      rcases ih st1 st' hndr hfr1 hinv1 h' with ⟨hinv', hpersist', hcomplete'⟩
      refine ⟨hinv', fun id iv hiv => hpersist' id iv (hpersist1 id iv hiv), ?_⟩
      intro id hid wo hwo hmf
      rcases List.mem_cons.1 hid with rfl | hid
      · rcases hcomplete1 wo hwo hmf with ⟨iv, hiv⟩
        exact ⟨iv, hpersist' id iv hiv⟩
      · exact hcomplete' id hid wo hwo hmf

/-! ## Lemmas: assembling the invariant at the initial state of `reflow`. -/

lemma validate_ok_facts {input : ReflowInput} (h : validateReflowInput input = .ok ()) :
    (∀ wo ∈ input.workOrders, validWorkOrder wo = true) ∧
    (∀ wc ∈ input.workCenters, validWorkCenter wc = true) := by
  unfold validateReflowInput at h
  split at h
  · rename_i hc
    simp only [Bool.and_eq_true, List.all_eq_true] at hc
    exact ⟨hc.1, hc.2⟩
  · cases h

lemma validWorkOrder_dur {wo : WorkOrderDoc} (h : validWorkOrder wo = true) :
    1 ≤ wo.data.durationMinutes := by
  unfold validWorkOrder at h
  simp only [Bool.and_eq_true, decide_eq_true_eq] at h
  exact h.1.2

lemma validWorkCenter_sh23 {wc : WorkCenterDoc} (h : validWorkCenter wc = true) :
    ∀ s ∈ wc.data.shifts, s.endHour ≤ 23 := by
  unfold validWorkCenter at h
  simp only [Bool.and_eq_true, List.all_eq_true] at h
  intro s hs
  have := h.1.2 s hs
  unfold validShift at this
  simp only [Bool.and_eq_true, decide_eq_true_eq] at this
  exact this.2

lemma wcIndex_facts {input : ReflowInput} {k : String} {wc : WorkCenterDoc}
    (h : (wcIndex input).get? k = some wc) : wc ∈ input.workCenters ∧ wc.docId = k :=
  lookup_keyed_mem h

lemma woIndex_facts {input : ReflowInput} {k : String} {wo : WorkOrderDoc}
    (h : (woIndex input).get? k = some wo) : wo ∈ input.workOrders ∧ wo.docId = k :=
  lookup_keyed_mem h

lemma woIndex_self {input : ReflowInput}
    (hnd : (input.workOrders.map (·.docId)).Nodup) {wo : WorkOrderDoc}
    (hwo : wo ∈ input.workOrders) : (woIndex input).get? wo.docId = some wo :=
  lookup_keyed_self hnd hwo

lemma initRes_aux (wos : List WorkOrderDoc) (wcs : List WorkCenterDoc)
    (m0 : SMap (List Reservation)) (k : String) :
    SMap.get? (List.foldl (fun m wc =>
        m.set wc.docId (mergeReservations (seedReservations wos wc))) m0 wcs) k =
      match wcs.reverse.find? (fun x => x.docId == k) with
      | some x => some (mergeReservations (seedReservations wos x))
      | none => m0.get? k := by
  induction wcs generalizing m0 with
  | nil => rfl
  | cons x t ih =>
    simp only [List.foldl_cons, List.reverse_cons]
    rw [ih]
    cases hfind : t.reverse.find? (fun y => y.docId == k) with
    | some y => rw [List.find?_append, hfind]; rfl
    | none =>
      rw [List.find?_append, hfind]
      simp only [Option.none_or, List.find?_cons, List.find?_nil]
      by_cases hx : (x.docId == k) = true
      · have hk : k = x.docId := (beq_iff_eq.1 hx).symm
        rw [hx]
        subst hk
        exact SMap.get?_set_self m0 _ _
      · have hk : ¬ k = x.docId := fun hkk => hx (beq_iff_eq.2 hkk.symm)
        rw [Bool.not_eq_true] at hx
        rw [hx]
        exact SMap.get?_set_ne m0 _ k _ hk

lemma initialState_res_get (input : ReflowInput) (k : String) :
    (initialState input).reservationsByWc.get? k =
      match input.workCenters.reverse.find? (fun x => x.docId == k) with
      | some x => some (mergeReservations (seedReservations input.workOrders x))
      | none => none := by
  unfold initialState
  dsimp only
  rw [initRes_aux]
  cases input.workCenters.reverse.find? (fun x => x.docId == k) <;> rfl

lemma initialState_res {input : ReflowInput} {k : String} {wc : WorkCenterDoc}
    (h : (wcIndex input).get? k = some wc) :
    (initialState input).reservationsByWc.get? k =
      some (mergeReservations (seedReservations input.workOrders wc)) := by
  unfold wcIndex at h
  rw [SMap.get?_ofList_keyed] at h
  rw [initialState_res_get]
  cases hfind : input.workCenters.reverse.find? (fun x => x.docId == k) with
  | none => rw [hfind] at h; cases h
  | some y =>
    rw [hfind] at h
    have hy : y = wc := by simpa using h
    subst hy
    rfl

lemma initialState_res_shape {input : ReflowInput} {k : String} {l : List Reservation}
    (h : (initialState input).reservationsByWc.get? k = some l) :
    ∃ wc ∈ input.workCenters,
      l = mergeReservations (seedReservations input.workOrders wc) := by
  rw [initialState_res_get] at h
  cases hfind : input.workCenters.reverse.find? (fun x => x.docId == k) with
  | none => rw [hfind] at h; cases h
  | some y =>
    rw [hfind] at h
    have hl : mergeReservations (seedReservations input.workOrders y) = l := by
      simpa using h
    exact ⟨y, List.mem_reverse.1 (List.mem_of_find?_eq_some hfind), hl.symm⟩

lemma initSched_filter (l : List WorkOrderDoc) (m0 : SMap (Nat × Nat)) :
    List.foldl (fun m wo =>
        if wo.data.isMaintenance then
          m.set wo.docId (wo.data.startDate, wo.data.endDate)
        else m) m0 l =
      List.foldl (fun m wo => m.set wo.docId (wo.data.startDate, wo.data.endDate)) m0
        (l.filter (fun wo => wo.data.isMaintenance)) := by
  induction l generalizing m0 with
  | nil => rfl
  | cons x t ih =>
    by_cases hx : x.data.isMaintenance
    · simp only [List.foldl_cons, if_pos hx, List.filter_cons, hx, ite_true]
      exact ih _
    · simp only [List.foldl_cons, if_neg hx, List.filter_cons,
        (by simpa using hx : x.data.isMaintenance = false), Bool.false_eq_true,
        ite_false]
      exact ih _

lemma initSched_aux (l : List WorkOrderDoc) (m0 : SMap (Nat × Nat)) (k : String) :
    SMap.get? (List.foldl (fun m wo =>
        m.set wo.docId (wo.data.startDate, wo.data.endDate)) m0 l) k =
      match l.reverse.find? (fun wo => wo.docId == k) with
      | some wo => some (wo.data.startDate, wo.data.endDate)
      | none => m0.get? k := by
  induction l generalizing m0 with
  | nil => rfl
  | cons x t ih =>
    simp only [List.foldl_cons, List.reverse_cons]
    rw [ih]
    cases hfind : t.reverse.find? (fun y => y.docId == k) with
    | some y => rw [List.find?_append, hfind]; rfl
    | none =>
      rw [List.find?_append, hfind]
      simp only [Option.none_or, List.find?_cons, List.find?_nil]
      by_cases hx : (x.docId == k) = true
      · have hk : k = x.docId := (beq_iff_eq.1 hx).symm
        rw [hx]
        subst hk
        exact SMap.get?_set_self m0 _ _
      · have hk : ¬ k = x.docId := fun hkk => hx (beq_iff_eq.2 hkk.symm)
        rw [Bool.not_eq_true] at hx
        rw [hx]
        exact SMap.get?_set_ne m0 _ k _ hk

lemma initialState_sched {input : ReflowInput} {k : String} :
    (initialState input).scheduled.get? k =
      match (input.workOrders.filter (fun wo => wo.data.isMaintenance)).reverse.find?
          (fun wo => wo.docId == k) with
      | some wo => some (wo.data.startDate, wo.data.endDate)
      | none => none := by
  unfold initialState
  dsimp only
  rw [initSched_filter, initSched_aux]
  cases (input.workOrders.filter (fun wo => wo.data.isMaintenance)).reverse.find?
      (fun wo => wo.docId == k) <;> rfl

lemma initial_sched_maint {input : ReflowInput}
    (hnd : (input.workOrders.map (·.docId)).Nodup) {id : String} {wo : WorkOrderDoc}
    (hwo : (woIndex input).get? id = some wo) :
    (initialState input).scheduled.get? id =
      if wo.data.isMaintenance then some (wo.data.startDate, wo.data.endDate)
      else none := by
  rcases woIndex_facts hwo with ⟨hmem, hkey⟩
  rw [initialState_sched]
  by_cases hm : wo.data.isMaintenance
  · have hmemf : wo ∈ input.workOrders.filter (fun wo => wo.data.isMaintenance) :=
      List.mem_filter.2 ⟨hmem, by simpa using hm⟩
    have hndf : ((input.workOrders.filter
        (fun wo => wo.data.isMaintenance)).map (fun wo => wo.docId)).Nodup :=
      ((List.filter_sublist _).map _).nodup hnd
    have hfind := find?_reverse_of_nodup hndf hmemf
    rw [hkey] at hfind
    rw [hfind, if_pos hm]
  · cases hf : (input.workOrders.filter (fun wo => wo.data.isMaintenance)).reverse.find?
        (fun y => y.docId == id) with
    | none => rw [if_neg hm]
    | some y =>
      exfalso
      have hymem : y ∈ input.workOrders.filter (fun wo => wo.data.isMaintenance) :=
        List.mem_reverse.1 (List.mem_of_find?_eq_some hf)
      have hykey : y.docId = id := by simpa using List.find?_some hf
      have hyo : y ∈ input.workOrders := (List.mem_filter.1 hymem).1
      have hyw : y = wo :=
        List.inj_on_of_nodup_map hnd hyo hmem (by rw [hykey, hkey])
      subst hyw
      have hmf := (List.mem_filter.1 hymem).2
      simp only [decide_eq_true_eq] at hmf
      exact hm (by simpa using hmf)

lemma seed_mem_mw {workOrders : List WorkOrderDoc} {wc : WorkCenterDoc}
    {mw : MaintenanceWindow} (hmw : mw ∈ wc.data.maintenanceWindows) :
    (⟨mw.startDate, mw.endDate, .maintenanceWindow, none⟩ : Reservation) ∈
      seedReservations workOrders wc := by
  unfold seedReservations
  exact List.mem_append.2 (Or.inl (List.mem_map.2 ⟨mw, hmw, rfl⟩))

lemma seed_mem_maintWo {workOrders : List WorkOrderDoc} {wc : WorkCenterDoc}
    {wo : WorkOrderDoc} (hwo : wo ∈ workOrders)
    (hwc : wo.data.workCenterId = wc.docId) (hm : wo.data.isMaintenance = true) :
    (⟨wo.data.startDate, wo.data.endDate, .fixedMaintenanceWO, some wo.docId⟩ :
        Reservation) ∈ seedReservations workOrders wc := by
  unfold seedReservations
  refine List.mem_append.2 (Or.inr (List.mem_map.2 ⟨wo, ?_, rfl⟩))
  refine List.mem_filter.2 ⟨hwo, ?_⟩
  simp [hwc, hm]

lemma initialState_inv {input : ReflowInput}
    (hnd : (input.workOrders.map (·.docId)).Nodup) :
    LoopInv (wcIndex input) (woIndex input) (initialState input) := by
  have hsched : ∀ id iv (wo : WorkOrderDoc),
      (initialState input).scheduled.get? id = some iv →
      (woIndex input).get? id = some wo →
      wo.data.isMaintenance = true ∧ iv = (wo.data.startDate, wo.data.endDate) := by
    intro id iv wo hs hw
    rw [initial_sched_maint hnd hw] at hs
    split at hs
    · rename_i hm
      cases hs
      exact ⟨hm, rfl⟩
    · cases hs
  constructor
  · intro k l hget
    rcases initialState_res_shape hget with ⟨wc, hwcm, rfl⟩
    exact mergeReservations_pairwise_start _
  · intro id iv wo hs hw hsome p hp1 hp2
    rcases hsched id iv wo hs hw with ⟨hm, rfl⟩
    rcases Option.isSome_iff_exists.1 hsome with ⟨wc, hwc⟩
    rcases wcIndex_facts hwc with ⟨hwcm, hwckey⟩
    rcases woIndex_facts hw with ⟨hwom, hwokey⟩
    have hres : resAt (initialState input) wo.data.workCenterId =
        mergeReservations (seedReservations input.workOrders wc) := by
      unfold resAt
      rw [initialState_res hwc]
      rfl
    unfold Covered
    rw [hres]
    dsimp only at hp1 hp2
    exact mergeReservations_covers _ p _
      (seed_mem_maintWo hwom hwckey.symm hm) hp1 hp2
  · intro k wc hwc mw hmw p hp1 hp2
    have hres : resAt (initialState input) k =
        mergeReservations (seedReservations input.workOrders wc) := by
      unfold resAt
      rw [initialState_res hwc]
      rfl
    unfold Covered
    rw [hres]
    exact mergeReservations_covers _ p _ (seed_mem_mw hmw) hp1 hp2
  · intro id iv wo hs hw hm
    rcases hsched id iv wo hs hw with ⟨hm', _⟩
    rw [hm'] at hm
    cases hm
  · intro id iv wo hs hw hm
    exact (hsched id iv wo hs hw).2
  · intro id iv wo hs hw hm
    rcases hsched id iv wo hs hw with ⟨hm', _⟩
    rw [hm'] at hm
    cases hm
  · intro id iv wo hs hw hm
    rcases hsched id iv wo hs hw with ⟨hm', _⟩
    rw [hm'] at hm
    cases hm
  · intro id1 id2 iv1 iv2 wo1 wo2 hne hs1 hs2 hw1 hw2 hsamewc hnmm p
    exact absurd ⟨(hsched id1 iv1 wo1 hs1 hw1).1, (hsched id2 iv2 wo2 hs2 hw2).1⟩ hnmm

lemma reflow_ok_destruct {input : ReflowInput} {res : ReflowResult}
    (h : reflow input = .ok res) :
    validateReflowInput input = .ok () ∧
    ∃ topo st,
      topoSortOrThrow (input.workOrders.map (·.docId)) (depEdges input) = .ok topo ∧
      placeAll (wcIndex input) (woIndex input) (initialState input) topo = .ok st ∧
      res.updatedWorkOrders = input.workOrders.map (applySchedule st.scheduled) ∧
      res.changes = st.changes := by
  unfold reflow at h
  split at h
  · cases h
  · rename_i u hval
    split at h
    · cases h
    · rename_i topo htopo
      split at h
      · cases h
      · rename_i st hplace
        cases h
        cases u
        exact ⟨hval, topo, st, htopo, hplace, rfl, rfl⟩

lemma reflow_final {input : ReflowInput} {res : ReflowResult}
    (h : reflow input = .ok res) :
    ∃ st : PlaceState,
      res.updatedWorkOrders = input.workOrders.map (applySchedule st.scheduled) ∧
      res.changes = st.changes ∧
      LoopInv (wcIndex input) (woIndex input) st ∧
      (input.workOrders.map (·.docId)).Nodup ∧
      (∀ wo ∈ input.workOrders, validWorkOrder wo = true) ∧
      (∀ wc ∈ input.workCenters, validWorkCenter wc = true) ∧
      (∀ wo ∈ input.workOrders, wo.data.isMaintenance = true →
        st.scheduled.get? wo.docId = some (wo.data.startDate, wo.data.endDate)) ∧
      (∀ wo ∈ input.workOrders, wo.data.isMaintenance = false →
        ∃ iv, st.scheduled.get? wo.docId = some iv) := by
  rcases reflow_ok_destruct h with ⟨hval, topo, st, htopo, hplace, hupd, hch⟩
  rcases validate_ok_facts hval with ⟨hwos, hwcs⟩
  rcases topoSortOrThrow_ok_facts htopo with ⟨htnd, hnd, htmem⟩
  have hkeyWo : ∀ id wo, (woIndex input).get? id = some wo → wo.docId = id :=
    fun id wo hw => (woIndex_facts hw).2
  have hkeyWc : ∀ k wc, (wcIndex input).get? k = some wc → wc.docId = k :=
    fun k wc hw => (wcIndex_facts hw).2
  have hsh23 : ∀ k wc, (wcIndex input).get? k = some wc →
      ∀ s ∈ wc.data.shifts, s.endHour ≤ 23 := fun k wc hw s hs =>
    validWorkCenter_sh23 (hwcs wc (wcIndex_facts hw).1) s hs
  have hfresh : ∀ id ∈ topo, ∀ wo, (woIndex input).get? id = some wo →
      wo.data.isMaintenance = false →
      (initialState input).scheduled.get? id = none := by
    intro id hid wo hw hm
    rw [initial_sched_maint hnd hw]
    simp [hm]
  rcases placeAll_inv hkeyWo hkeyWc hsh23 topo _ st htnd hfresh (initialState_inv hnd)
    hplace with ⟨hinv, hpersist, hcomplete⟩
  refine ⟨st, hupd, hch, hinv, hnd, hwos, hwcs, ?_, ?_⟩
  · intro wo hwo hm
    have h0 : (initialState input).scheduled.get? wo.docId =
        some (wo.data.startDate, wo.data.endDate) := by
      rw [initial_sched_maint hnd (woIndex_self hnd hwo)]
      simp [hm]
    exact hpersist _ _ h0
  · intro wo hwo hm
    have hidt : wo.docId ∈ topo := (htmem _).2 (List.mem_map.2 ⟨wo, hwo, rfl⟩)
    exact hcomplete wo.docId hidt wo (woIndex_self hnd hwo) hm

/-! ## Lemmas: the write-back `applySchedule`. -/

lemma applySchedule_maint {sch : SMap (Nat × Nat)} {wo : WorkOrderDoc}
    (hm : wo.data.isMaintenance = true) : applySchedule sch wo = wo := by
  unfold applySchedule
  rw [if_pos hm]

lemma applySchedule_entry {sch : SMap (Nat × Nat)} {wo : WorkOrderDoc} {iv : Nat × Nat}
    (hm : wo.data.isMaintenance = false) (hiv : sch.get? wo.docId = some iv) :
    applySchedule sch wo =
      { wo with data := { wo.data with startDate := iv.1, endDate := iv.2 } } := by
  unfold applySchedule
  rw [if_neg (by simp [hm]), hiv]

lemma applySchedule_docId (sch : SMap (Nat × Nat)) (wo : WorkOrderDoc) :
    (applySchedule sch wo).docId = wo.docId := by
  unfold applySchedule
  split
  · rfl
  · split <;> rfl

lemma updated_pin {input : ReflowInput} {sch : SMap (Nat × Nat)}
    (hnd : (input.workOrders.map (·.docId)).Nodup) {wo' : WorkOrderDoc}
    (hmem : wo' ∈ input.workOrders.map (applySchedule sch))
    {wo : WorkOrderDoc} (hwo : wo ∈ input.workOrders) (hid : wo'.docId = wo.docId) :
    wo' = applySchedule sch wo := by
  rcases List.mem_map.1 hmem with ⟨w0, hw0, rfl⟩
  have hkey : w0.docId = wo.docId := by
    rw [← applySchedule_docId sch w0]
    exact hid
  have hw : w0 = wo := List.inj_on_of_nodup_map hnd hw0 hwo hkey
  rw [hw]

/-- Claim C4: on every input for which `reflow` succeeds, no work order's new
start in the output is earlier than its original start in the input
(maintenance work orders are written back unchanged; placed work orders start
at or after `earliest >= wo.data.startDate`). -/
theorem C4_newStart_ge_originalStart {input : ReflowInput} {res : ReflowResult}
    (h : reflow input = .ok res) :
    ∀ wo ∈ input.workOrders, ∀ wo' ∈ res.updatedWorkOrders,
      wo'.docId = wo.docId → wo.data.startDate ≤ wo'.data.startDate := by
  rcases reflow_final h with ⟨st, hupd, hch, hinv, hnd, hwos, hwcs, hmsch, hnsch⟩
  intro wo hwo wo' hmem' hid
  rw [hupd] at hmem'
  have hpin := updated_pin hnd hmem' hwo hid
  subst hpin
  by_cases hm : wo.data.isMaintenance
  · rw [applySchedule_maint hm]
  · have hmf : wo.data.isMaintenance = false := by simpa using hm
    rcases hnsch wo hwo hmf with ⟨iv, hiv⟩
    have hge := hinv.startGe wo.docId iv wo hiv (woIndex_self hnd hwo) hmf
    rw [applySchedule_entry hmf hiv]
    exact hge

/-- Witness for C4: on the two-work-order chain fixture the placed work order
`A` (pushed from 08:00 to 09:00 by its dependency) starts no earlier than its
original start. -/
theorem C4_witness :
    reflow fxW2in = .ok fxW2out ∧
    fxA.data.startDate ≤ fxAout.data.startDate :=
  ⟨by rfl,
   @C4_newStart_ge_originalStart fxW2in fxW2out (by rfl) fxA (by decide) fxAout
     (by decide) (by decide)⟩

/-- Claim C5: on every input for which `reflow` succeeds the output has one
entry per input work order; every maintenance (immovable) work order appears
in `updatedWorkOrders` entirely unchanged; and the rewrite is confined to the
non-maintenance work orders' `startDate`/`endDate` fields - every other field
is copied verbatim.  (The source's "never mutates its input" clause is the
deep copy at step A; in the pure embedding `reflow` is a function of its
input, so mutation-freedom is expressed by the write-back acting only on the
returned copies, which this theorem pins down field by field.) -/
theorem C5_maintenance_unchanged_frame {input : ReflowInput} {res : ReflowResult}
    (h : reflow input = .ok res) :
    res.updatedWorkOrders.length = input.workOrders.length ∧
    (∀ wo ∈ input.workOrders, wo.data.isMaintenance = true →
      ∀ wo' ∈ res.updatedWorkOrders, wo'.docId = wo.docId → wo' = wo) ∧
    (∀ wo ∈ input.workOrders, ∀ wo' ∈ res.updatedWorkOrders, wo'.docId = wo.docId →
      wo'.data.workOrderNumber = wo.data.workOrderNumber ∧
      wo'.data.manufacturingOrderId = wo.data.manufacturingOrderId ∧
      wo'.data.workCenterId = wo.data.workCenterId ∧
      wo'.data.durationMinutes = wo.data.durationMinutes ∧
      wo'.data.isMaintenance = wo.data.isMaintenance ∧
      wo'.data.dependsOnWorkOrderIds = wo.data.dependsOnWorkOrderIds) := by
  rcases reflow_final h with ⟨st, hupd, hch, hinv, hnd, hwos, hwcs, hmsch, hnsch⟩
  refine ⟨by rw [hupd]; simp, ?_, ?_⟩
  · intro wo hwo hm wo' hmem' hid
    rw [hupd] at hmem'
    rw [updated_pin hnd hmem' hwo hid, applySchedule_maint hm]
  · intro wo hwo wo' hmem' hid
    rw [hupd] at hmem'
    have hpin := updated_pin hnd hmem' hwo hid
    subst hpin
    unfold applySchedule
    split
    · exact ⟨rfl, rfl, rfl, rfl, rfl, rfl⟩
    · split
      · exact ⟨rfl, rfl, rfl, rfl, rfl, rfl⟩
      · exact ⟨rfl, rfl, rfl, rfl, rfl, rfl⟩

/-- Witness for C5: on the two-maintenance-work-order fixture `reflow`
succeeds, returns both work orders unchanged, and the output length matches. -/
theorem C5_witness :
    reflow fxC2in = .ok fxC2out ∧
    fxC2out.updatedWorkOrders.length = fxC2in.workOrders.length :=
  ⟨by rfl, (@C5_maintenance_unchanged_frame fxC2in fxC2out (by rfl)).1⟩

/-- Claim C1 counterexample: work order `M` is a maintenance work order on
work center `wc1` at Thursday 08:00-09:00 depending on the non-maintenance
work order `P`.  The placement loop skips maintenance work orders entirely -
their dependencies are never checked - while `P` is pushed behind `M`'s fixed
reservation to 09:00-10:00.  `reflow` succeeds, yet the parent `P` ends at
10:00 (= `10 * hourMs`), after its child `M` starts (08:00): the claimed
invariant `parent.end <= child.start` fails for edges into maintenance
children. -/
theorem C1_counterexample :
    Except.map (fun r => r.updatedWorkOrders) (reflow fxC1in) = .ok
      [⟨"P", ⟨"WO-P", "mo1", "wc1", 9 * hourMs, 10 * hourMs, 60, false, []⟩⟩, fxM] ∧
    "P" ∈ fxM.data.dependsOnWorkOrderIds ∧ fxP.docId = "P" ∧
    fxM ∈ fxC1in.workOrders ∧ fxM.data.isMaintenance = true ∧
    fxM.data.startDate < 10 * hourMs :=
  ⟨by rfl, by decide, rfl, by decide, rfl, by decide⟩

/-- Claim C1 (amended): restricted to dependency edges whose child is
non-maintenance (the counterexample shows maintenance children are exempt:
the loop skips them without consulting their dependencies), every parent's end
in the output schedule is `<=` the child's start in the output schedule. -/
theorem C1_dependency_order {input : ReflowInput} {res : ReflowResult}
    (h : reflow input = .ok res) :
    ∀ child ∈ input.workOrders, child.data.isMaintenance = false →
    ∀ pid ∈ child.data.dependsOnWorkOrderIds,
    ∀ parent ∈ input.workOrders, parent.docId = pid →
    ∀ child' ∈ res.updatedWorkOrders, child'.docId = child.docId →
    ∀ parent' ∈ res.updatedWorkOrders, parent'.docId = parent.docId →
      parent'.data.endDate ≤ child'.data.startDate := by
  rcases reflow_final h with ⟨st, hupd, hch, hinv, hnd, hwos, hwcs, hmsch, hnsch⟩
  intro child hchild hcm pid hpid parent hparent hpkey child' hc' hcid parent' hp' hpid'
  rw [hupd] at hc' hp'
  have hcpin := updated_pin hnd hc' hchild hcid
  have hppin := updated_pin hnd hp' hparent hpid'
  subst hcpin
  subst hppin
  rcases hnsch child hchild hcm with ⟨civ, hciv⟩
  rcases hinv.depOk child.docId civ child hciv (woIndex_self hnd hchild) hcm pid hpid
    with ⟨piv, hpiv, hple⟩
  rw [applySchedule_entry hcm hciv]
  by_cases hpm : parent.data.isMaintenance
  · have hpsch := hmsch parent hparent hpm
    rw [hpkey] at hpsch
    rw [hpsch] at hpiv
    cases hpiv
    rw [applySchedule_maint hpm]
    exact hple
  · have hpmf : parent.data.isMaintenance = false := by simpa using hpm
    rcases hnsch parent hparent hpmf with ⟨piv2, hpiv2⟩
    have hpiv2' : st.scheduled.get? pid = some piv2 := by rw [← hpkey]; exact hpiv2
    rw [hpiv2'] at hpiv
    cases hpiv
    rw [applySchedule_entry hpmf hpiv2]
    exact hple

/-- Witness for C1 (amended) on the chain fixture: the non-maintenance child
`A` (pushed to 09:00-10:00) starts no earlier than its parent `B` ends
(09:00). -/
theorem C1_witness :
    reflow fxW2in = .ok fxW2out ∧ fxA.data.isMaintenance = false ∧
    "B" ∈ fxA.data.dependsOnWorkOrderIds ∧
    fxB.data.endDate ≤ fxAout.data.startDate :=
  ⟨by rfl, rfl, by decide,
   @C1_dependency_order fxW2in fxW2out (by rfl) fxA (by decide) rfl "B" (by decide)
     fxB (by decide) rfl fxAout (by decide) rfl fxB (by decide) rfl⟩

/-- Claim C2 counterexample: two maintenance work orders on the same work
center with overlapping fixed intervals (08:00-10:00 and 09:00-11:00) are both
written back unchanged - the placement loop never moves or checks maintenance
work orders against each other - so `reflow` succeeds with two overlapping
output intervals (09:00 lies in both). -/
theorem C2_counterexample :
    Except.map (fun r => r.updatedWorkOrders) (reflow fxC2in) = .ok [fxM1, fxM2] ∧
    ¬ fxM1.docId = fxM2.docId ∧
    fxM1.data.workCenterId = fxM2.data.workCenterId ∧
    fxM1.data.isMaintenance = true ∧ fxM2.data.isMaintenance = true ∧
    (fxM1.data.startDate ≤ 9 * hourMs ∧ 9 * hourMs < fxM1.data.endDate ∧
     fxM2.data.startDate ≤ 9 * hourMs ∧ 9 * hourMs < fxM2.data.endDate) :=
  ⟨by rfl, by decide, rfl, rfl, rfl, by decide⟩

/-- Claim C2 (amended): for every pair of distinct work orders on the same
work center of which at least one is non-maintenance (the counterexample
shows two overlapping maintenance work orders survive unchanged), the output
intervals `[newStart, newEnd)` share no point. -/
theorem C2_no_same_wc_overlap {input : ReflowInput} {res : ReflowResult}
    (h : reflow input = .ok res) :
    ∀ w1 ∈ input.workOrders, ∀ w2 ∈ input.workOrders, ¬ w1.docId = w2.docId →
    w1.data.workCenterId = w2.data.workCenterId →
    ¬(w1.data.isMaintenance = true ∧ w2.data.isMaintenance = true) →
    ∀ w1' ∈ res.updatedWorkOrders, w1'.docId = w1.docId →
    ∀ w2' ∈ res.updatedWorkOrders, w2'.docId = w2.docId →
    ∀ p, ¬(w1'.data.startDate ≤ p ∧ p < w1'.data.endDate ∧
           w2'.data.startDate ≤ p ∧ p < w2'.data.endDate) := by
  rcases reflow_final h with ⟨st, hupd, hch, hinv, hnd, hwos, hwcs, hmsch, hnsch⟩
  have key : ∀ w ∈ input.workOrders, ∃ iv, st.scheduled.get? w.docId = some iv ∧
      (applySchedule st.scheduled w).data.startDate = iv.1 ∧
      (applySchedule st.scheduled w).data.endDate = iv.2 := by
    intro w hw
    by_cases hm : w.data.isMaintenance
    · exact ⟨(w.data.startDate, w.data.endDate), hmsch w hw hm,
        by rw [applySchedule_maint hm], by rw [applySchedule_maint hm]⟩
    · have hmf : w.data.isMaintenance = false := by simpa using hm
      rcases hnsch w hw hmf with ⟨iv, hiv⟩
      exact ⟨iv, hiv, by rw [applySchedule_entry hmf hiv],
        by rw [applySchedule_entry hmf hiv]⟩
  intro w1 h1 w2 h2 hne hwc hnmm w1' hm1 hid1 w2' hm2 hid2 p
  rw [hupd] at hm1 hm2
  have hpin1 := updated_pin hnd hm1 h1 hid1
  have hpin2 := updated_pin hnd hm2 h2 hid2
  subst hpin1
  subst hpin2
  rcases key w1 h1 with ⟨iv1, hiv1, hs1, he1⟩
  rcases key w2 h2 with ⟨iv2, hiv2, hs2, he2⟩
  rw [hs1, he1, hs2, he2]
  exact hinv.disj w1.docId w2.docId iv1 iv2 w1 w2
    (fun hh => hne hh) hiv1 hiv2 (woIndex_self hnd h1) (woIndex_self hnd h2)
    hwc hnmm p

/-- Witness for C2 (amended) on the chain fixture: the two non-maintenance
work orders `B` (08:00-09:00) and `A` (pushed to 09:00-10:00) share no point. -/
theorem C2_witness :
    reflow fxW2in = .ok fxW2out ∧
    ∀ p, ¬(fxB.data.startDate ≤ p ∧ p < fxB.data.endDate ∧
           fxAout.data.startDate ≤ p ∧ p < fxAout.data.endDate) :=
  ⟨by rfl,
   @C2_no_same_wc_overlap fxW2in fxW2out (by rfl) fxB (by decide) fxA (by decide)
     (by decide) rfl (by decide) fxB (by decide) rfl fxAout (by decide) rfl⟩

/-- Claim C6 counterexample: a single maintenance work order fixed at Thursday
03:00-04:00 on a work center whose only shift is Thursday 08:00-17:00.
`reflow` succeeds and writes it back unchanged: its `newStart` (03:00) lies in
no shift window of its work center on that day. -/
theorem C6_counterexample :
    Except.map (fun r => r.updatedWorkOrders) (reflow fxC6in) = .ok [fxM3] ∧
    (wcIndex fxC6in).get? fxM3.data.workCenterId = some fxWc1 ∧
    ¬ InShift fxWc1.data.shifts fxM3.data.startDate :=
  ⟨by rfl, by rfl, by decide⟩

/-- Claim C6 (amended): restricted to non-maintenance work orders (the
counterexample shows maintenance work orders keep their fixed, possibly
off-shift starts), every output `newStart` lies inside some shift window of
the work order's work center on its own calendar day. -/
theorem C6_nonmaint_start_in_shift {input : ReflowInput} {res : ReflowResult}
    (h : reflow input = .ok res) :
    ∀ wo ∈ input.workOrders, wo.data.isMaintenance = false →
    ∀ wo' ∈ res.updatedWorkOrders, wo'.docId = wo.docId →
    ∃ wc, (wcIndex input).get? wo.data.workCenterId = some wc ∧
      InShift wc.data.shifts wo'.data.startDate := by
  rcases reflow_final h with ⟨st, hupd, hch, hinv, hnd, hwos, hwcs, hmsch, hnsch⟩
  intro wo hwo hm wo' hm' hid
  rw [hupd] at hm'
  have hpin := updated_pin hnd hm' hwo hid
  subst hpin
  rcases hnsch wo hwo hm with ⟨iv, hiv⟩
  rcases hinv.inShiftStart wo.docId iv wo hiv (woIndex_self hnd hwo) hm
    with ⟨wc, hwc, hin⟩
  refine ⟨wc, hwc, ?_⟩
  rw [applySchedule_entry hm hiv]
  exact hin

/-- Witness for C6 (amended) on the chain fixture: `A`'s new start 09:00 lies
in the Thursday 08:00-17:00 shift window of `wc1`. -/
theorem C6_witness :
    reflow fxW2in = .ok fxW2out ∧
    ∃ wc, (wcIndex fxW2in).get? fxA.data.workCenterId = some wc ∧
      InShift wc.data.shifts fxAout.data.startDate :=
  ⟨by rfl,
   @C6_nonmaint_start_in_shift fxW2in fxW2out (by rfl) fxA (by decide) rfl fxAout
     (by decide) rfl⟩

/-! ## Lemmas: positions, counting, and the Kahn invariant (claim C7). -/

lemma posIn_append_left {l1 l2 : List String} {a : String} (h : a ∈ l1) :
    posIn (l1 ++ l2) a = posIn l1 a := by
  induction l1 with
  | nil => cases h
  | cons b t ih =>
    simp only [List.cons_append, posIn, List.append_eq]
    by_cases hb : b = a
    · rw [if_pos hb, if_pos hb]
    · rw [if_neg hb, if_neg hb, ih (by
        rcases List.mem_cons.1 h with h1 | h1
        · exact absurd h1.symm hb
        · exact h1)]

lemma posIn_append_self {l : List String} {a : String} (h : ¬ a ∈ l) :
    posIn (l ++ [a]) a = l.length := by
  induction l with
  | nil => simp [posIn]
  | cons b t ih =>
    simp only [List.cons_append, posIn, List.length_cons, List.append_eq]
    rw [if_neg (fun hb => h (List.mem_cons.2 (Or.inl hb.symm))),
      ih (fun hm => h (List.mem_cons_of_mem _ hm))]

lemma posIn_lt_length {l : List String} {a : String} (h : a ∈ l) :
    posIn l a < l.length := by
  induction l with
  | nil => cases h
  | cons b t ih =>
    simp only [posIn, List.length_cons]
    by_cases hb : b = a
    · rw [if_pos hb]
      omega
    · rw [if_neg hb]
      have := ih (by
        rcases List.mem_cons.1 h with h1 | h1
        · exact absurd h1.symm hb
        · exact h1)
      omega

lemma posIn_getElem {l : List String} {a : String} (h : a ∈ l) :
    l[posIn l a]? = some a := by
  induction l with
  | nil => cases h
  | cons b t ih =>
    simp only [posIn]
    by_cases hb : b = a
    · rw [if_pos hb]
      simp [hb]
    · rw [if_neg hb]
      rw [List.getElem?_cons_succ]
      exact ih (by
        rcases List.mem_cons.1 h with h1 | h1
        · exact absurd h1.symm hb
        · exact h1)

lemma filter_length_split {α : Type} (l : List α) (p q r : α → Bool)
    (h : ∀ x ∈ l, (p x = true ↔ (q x = true ∨ r x = true)) ∧
      ¬(q x = true ∧ r x = true)) :
    (l.filter p).length = (l.filter q).length + (l.filter r).length := by
  induction l with
  | nil => rfl
  | cons x t ih =>
    have hx := h x (List.mem_cons_self _ _)
    have ht := ih (fun y hy => h y (List.mem_cons_of_mem _ hy))
    simp only [List.filter_cons]
    cases hq : q x <;> cases hr : r x
    · have hp : p x = false := by
        cases hpx : p x
        · rfl
        · rcases hx.1.1 hpx with h' | h'
          · rw [hq] at h'
            cases h'
          · rw [hr] at h'
            cases h'
      simp only [hp, hq, hr, Bool.false_eq_true, if_false]
      exact ht
    · have hp : p x = true := hx.1.2 (Or.inr hr)
      simp only [hp, hq, hr, Bool.false_eq_true, if_false, if_true, List.length_cons]
      omega
    · have hp : p x = true := hx.1.2 (Or.inl hq)
      simp only [hp, hq, hr, Bool.false_eq_true, if_false, if_true, List.length_cons]
      omega
    · exact absurd ⟨hq, hr⟩ hx.2

lemma occs_succsOf {E : List (String × String)} {n v : String} :
    occs v (succsOf E n) = (E.filter (fun e => e.1 == n && e.2 == v)).length := by
  unfold occs succsOf
  rw [List.filter_map]
  rw [List.length_map, List.filter_filter]
  congr 1
  apply List.filter_congr
  intro e he
  simp only [Function.comp]
  rw [Bool.and_comm]

lemma edgesInto_append {E : List (String × String)} {out : List String} {n v : String}
    (hn : ¬ n ∈ out) :
    edgesInto E out v = edgesInto E (out ++ [n]) v + occs v (succsOf E n) := by
  rw [occs_succsOf]
  unfold edgesInto
  apply filter_length_split
  intro e he
  by_cases h2 : e.2 = v
  · by_cases h1 : e.1 ∈ out
    · constructor
      · constructor
        · intro hp
          simp [h1] at hp
        · rintro (hq | hr)
          · simp [List.mem_append, h1] at hq
          · simp only [Bool.and_eq_true, beq_iff_eq] at hr
            exact absurd (hr.1 ▸ h1) hn
      · rintro ⟨hq, _⟩
        simp [List.mem_append, h1] at hq
    · by_cases hen : e.1 = n
      · constructor
        · constructor
          · intro _
            exact Or.inr (by simp [hen, h2])
          · intro _
            simp [h1, h2]
        · rintro ⟨hq, _⟩
          simp only [Bool.and_eq_true, Bool.not_eq_true', decide_eq_false_iff_not,
            List.mem_append, List.mem_singleton, beq_iff_eq] at hq
          exact hq.1 (Or.inr hen)
      · constructor
        · constructor
          · intro _
            refine Or.inl ?_
            simp only [Bool.and_eq_true, Bool.not_eq_true', decide_eq_false_iff_not,
              List.mem_append, List.mem_singleton, beq_iff_eq]
            exact ⟨by rintro (h' | h') <;> [exact h1 h'; exact hen h'], h2⟩
          · intro _
            simp [h1, h2]
        · rintro ⟨_, hr⟩
          simp only [Bool.and_eq_true, beq_iff_eq] at hr
          exact hen hr.1
  · constructor
    · constructor
      · intro hp
        simp [h2] at hp
      · rintro (hq | hr)
        · simp [h2] at hq
        · simp [h2] at hr
    · rintro ⟨_, hr⟩
      simp [h2] at hr

lemma edgesInto_eq_zero_iff {E : List (String × String)} {out : List String}
    {v : String} :
    edgesInto E out v = 0 ↔ ∀ u, (u, v) ∈ E → u ∈ out := by
  unfold edgesInto
  rw [List.length_eq_zero, List.filter_eq_nil_iff]
  constructor
  · intro hf u huv
    have := hf (u, v) huv
    by_contra hu
    apply this
    simp [hu]
  · intro hall e he
    by_cases h2 : e.2 = v
    · have := hall e.1 (by rw [← h2]; exact he)
      simp [this]
    · simp [h2]

lemma edgesInto_pos {E : List (String × String)} {out : List String} {v : String}
    (h : 1 ≤ edgesInto E out v) : ∃ u, (u, v) ∈ E ∧ ¬ u ∈ out := by
  unfold edgesInto at h
  cases hf : E.filter (fun e => !(decide (e.1 ∈ out)) && e.2 == v) with
  | nil => rw [hf] at h; cases h
  | cons e rest =>
    have he : e ∈ E.filter (fun e => !(decide (e.1 ∈ out)) && e.2 == v) := by
      rw [hf]
      exact List.mem_cons_self _ _
    rcases List.mem_filter.1 he with ⟨hmem, hcond⟩
    simp only [Bool.and_eq_true, Bool.not_eq_true', decide_eq_false_iff_not,
      beq_iff_eq] at hcond
    exact ⟨e.1, by rw [← hcond.2]; exact hmem, hcond.1⟩

lemma occs_cons {v m : String} {l : List String} :
    occs v (m :: l) = occs v l + (if m = v then 1 else 0) := by
  unfold occs
  rw [List.filter_cons]
  by_cases hm : m = v
  · simp [hm]
  · simp [hm]

lemma kahnSucc_run {nodes : List String} :
    ∀ (ms : List String) (inDeg : SMap Int) (q : List String) (f : String → Int),
    (∀ m ∈ ms, m ∈ nodes) →
    (∀ v ∈ nodes, inDeg.get? v = some (f v)) →
    (∀ m ∈ q, ¬ 1 ≤ f m) →
    q.Nodup →
    (∀ v ∈ nodes, (kahnSucc inDeg q ms).1.get? v = some (f v - (occs v ms : Nat))) ∧
    (∀ m, m ∈ (kahnSucc inDeg q ms).2 ↔
      m ∈ q ∨ (1 ≤ f m ∧ f m ≤ (occs m ms : Nat))) ∧
    (kahnSucc inDeg q ms).2.Nodup ∧
    (∀ m ∈ (kahnSucc inDeg q ms).2, m ∈ q ∨ m ∈ ms) := by
  intro ms
  induction ms with
  | nil =>
    intro inDeg q f hms hval hq hqnd
    refine ⟨?_, ?_, ?_, ?_⟩
    · intro v hv
      have hocc : occs v [] = 0 := rfl
      simp only [kahnSucc, hocc, Nat.cast_zero, sub_zero]
      exact hval v hv
    · intro m
      simp only [kahnSucc]
      constructor
      · exact Or.inl
      · rintro (hm | ⟨h1, h2⟩)
        · exact hm
        · exfalso
          have hocc : occs m [] = 0 := rfl
          rw [hocc] at h2
          simp only [Nat.cast_zero] at h2
          omega
    · simp only [kahnSucc]
      exact hqnd
    · intro m hm
      simp only [kahnSucc] at hm
      exact Or.inl hm
  | cons m0 ms ih =>
    intro inDeg q f hms hval hq hqnd
    simp only [kahnSucc]
    have hm0 : m0 ∈ nodes := hms m0 (List.mem_cons_self _ _)
    have hv0 : inDeg.get? m0 = some (f m0) := hval m0 hm0
    rw [hv0]
    simp only [Option.getD_some]
    set f1 : String → Int := fun v => if v = m0 then f v - 1 else f v with hf1
    have hval1 : ∀ v ∈ nodes, (inDeg.set m0 (f m0 - 1)).get? v = some (f1 v) := by
      intro v hv
      by_cases hvm : v = m0
      · subst hvm
        rw [SMap.get?_set_self]
        simp [hf1]
      · rw [SMap.get?_set_ne _ _ _ _ hvm]
        rw [hval v hv]
        simp [hf1, hvm]
    by_cases hd : f m0 - 1 = 0
    · rw [if_pos hd]
      have hm0q : ¬ m0 ∈ q := by
        intro hmem
        have := hq m0 hmem
        omega
      have hq1 : ∀ m ∈ q ++ [m0], ¬ 1 ≤ f1 m := by
        intro m hm
        rcases List.mem_append.1 hm with hm | hm
        · have := hq m hm
          simp only [hf1]
          split <;> omega
        · rcases List.mem_singleton.1 hm with rfl
          simp only [hf1, if_pos rfl]
          omega
      have hqnd1 : (q ++ [m0]).Nodup := by
        rw [List.nodup_append]
        exact ⟨hqnd, List.nodup_singleton _, fun x hx hx1 =>
          (List.mem_singleton.1 hx1 ▸ hm0q) hx⟩
      rcases ih (inDeg.set m0 (f m0 - 1)) (q ++ [m0]) f1
        (fun m hm => hms m (List.mem_cons_of_mem _ hm)) hval1 hq1 hqnd1
        with ⟨cval, cmem, cnd, csub⟩
      refine ⟨?_, ?_, cnd, ?_⟩
      · intro v hv
        rw [cval v hv]
        congr 1
        rw [occs_cons]
        simp only [hf1]
        by_cases hvm : v = m0
        · rw [if_pos hvm, if_pos hvm.symm]
          push_cast
          omega
        · rw [if_neg hvm, if_neg (fun hh => hvm hh.symm)]
          push_cast
          omega
      · intro m
        rw [cmem m]
        rw [List.mem_append, List.mem_singleton]
        rw [occs_cons]
        by_cases hvm : m = m0
        · subst hvm
          rw [if_pos rfl]
          simp only [hf1, if_pos rfl]
          constructor
          · rintro ((hm | _) | ⟨h1, h2⟩)
            · exact Or.inl hm
            · exact Or.inr ⟨by omega, by push_cast; omega⟩
            · exact Or.inr ⟨by omega, by push_cast at h2 ⊢; omega⟩
          · rintro (hm | ⟨h1, h2⟩)
            · exact Or.inl (Or.inl hm)
            · push_cast at h2
              by_cases hone : f m = 1
              · exact Or.inl (Or.inr trivial)
              · exact Or.inr ⟨by omega, by push_cast; omega⟩
          -- note: f m here is f m0 (m := m0)
        · rw [if_neg (fun hh => hvm hh.symm)]
          simp only [hf1, if_neg hvm]
          constructor
          · rintro ((hm | rfl) | ⟨h1, h2⟩)
            · exact Or.inl hm
            · exact absurd rfl hvm
            · exact Or.inr ⟨h1, by push_cast at h2 ⊢; omega⟩
          · rintro (hm | ⟨h1, h2⟩)
            · exact Or.inl (Or.inl hm)
            · exact Or.inr ⟨h1, by push_cast at h2 ⊢; omega⟩
      · intro m hm
        rcases csub m hm with hm' | hm'
        · rcases List.mem_append.1 hm' with hm'' | hm''
          · exact Or.inl hm''
          · exact Or.inr (List.mem_cons.2 (Or.inl (List.mem_singleton.1 hm'')))
        · exact Or.inr (List.mem_cons_of_mem _ hm')
    · rw [if_neg hd]
      have hq1 : ∀ m ∈ q, ¬ 1 ≤ f1 m := by
        intro m hm
        have := hq m hm
        simp only [hf1]
        split <;> omega
      rcases ih (inDeg.set m0 (f m0 - 1)) q f1
        (fun m hm => hms m (List.mem_cons_of_mem _ hm)) hval1 hq1 hqnd
        with ⟨cval, cmem, cnd, csub⟩
      refine ⟨?_, ?_, cnd, ?_⟩
      · intro v hv
        rw [cval v hv]
        congr 1
        rw [occs_cons]
        simp only [hf1]
        by_cases hvm : v = m0
        · rw [if_pos hvm, if_pos hvm.symm]
          push_cast
          omega
        · rw [if_neg hvm, if_neg (fun hh => hvm hh.symm)]
          push_cast
          omega
      · intro m
        rw [cmem m]
        rw [occs_cons]
        by_cases hvm : m = m0
        · subst hvm
          rw [if_pos rfl]
          simp only [hf1, if_pos rfl]
          constructor
          · rintro (hm | ⟨h1, h2⟩)
            · exact Or.inl hm
            · exact Or.inr ⟨by omega, by push_cast at h2 ⊢; omega⟩
          · rintro (hm | ⟨h1, h2⟩)
            · exact Or.inl hm
            · push_cast at h2
              exact Or.inr ⟨by omega, by push_cast; omega⟩
        · rw [if_neg (fun hh => hvm hh.symm)]
          simp only [hf1, if_neg hvm]
          constructor
          · rintro (hm | ⟨h1, h2⟩)
            · exact Or.inl hm
            · exact Or.inr ⟨h1, by push_cast at h2 ⊢; omega⟩
          · rintro (hm | ⟨h1, h2⟩)
            · exact Or.inl hm
            · exact Or.inr ⟨h1, by push_cast at h2 ⊢; omega⟩
      · intro m hm
        rcases csub m hm with hm' | hm'
        · exact Or.inl hm'
        · exact Or.inr (List.mem_cons_of_mem _ hm')

lemma kahn_step {nodes : List String} {E : List (String × String)}
    {adj : SMap (List String)} {inDeg : SMap Int} {n : String} {q out : List String}
    (hE : ∀ e ∈ E, e.1 ∈ nodes ∧ e.2 ∈ nodes)
    (hadj : ∀ u ∈ nodes, adj.get? u = some (succsOf E u))
    (hinv : KInv nodes E inDeg (n :: q) out) :
    KInv nodes E (kahnSucc inDeg q ((adj.get? n).getD [])).1
      (kahnSucc inDeg q ((adj.get? n).getD [])).2 (out ++ [n]) := by
  have hnn : n ∈ nodes := hinv.mem n (by simp)
  rw [hadj n hnn]
  simp only [Option.getD_some]
  have hndsplit : ((out ++ [n]) ++ q).Nodup := by
    rw [← List.append_cons]
    exact hinv.nd
  have hnout : ¬ n ∈ out := fun hmem =>
    (List.nodup_append.1 hinv.nd).2.2 hmem (List.mem_cons_self _ _)
  have hqq : q.Nodup := by
    have h2 := hndsplit
    rw [List.nodup_append] at h2
    exact h2.2.1
  have hms : ∀ m ∈ succsOf E n, m ∈ nodes := by
    intro m hm
    unfold succsOf at hm
    rcases List.mem_map.1 hm with ⟨e, he, rfl⟩
    exact (hE e (List.mem_filter.1 he).1).2
  have hqf : ∀ m ∈ q, ¬ 1 ≤ ((edgesInto E out m : Nat) : Int) := by
    intro m hm
    have h0 : edgesInto E out m = 0 := edgesInto_eq_zero_iff.2 (fun u hu =>
      hinv.preds m (by simp [hm]) u hu)
    rw [h0]
    simp
  rcases @kahnSucc_run nodes (succsOf E n) inDeg q
      (fun v => ((edgesInto E out v : Nat) : Int)) hms hinv.val hqf hqq
    with ⟨cval, cmem, cnd, csub⟩
  have harith : ∀ v, edgesInto E out v =
      edgesInto E (out ++ [n]) v + occs v (succsOf E n) :=
    fun v => edgesInto_append hnout
  have hnew_not : ∀ m, 1 ≤ ((edgesInto E out m : Nat) : Int) → ¬ m ∈ out ++ [n] := by
    intro m h1 hmem
    have hm2 : m ∈ out ++ n :: q := by
      rcases List.mem_append.1 hmem with h | h
      · exact List.mem_append.2 (Or.inl h)
      · rcases List.mem_singleton.1 h with rfl
        exact List.mem_append.2 (Or.inr (List.mem_cons_self _ _))
    have h0 : edgesInto E out m = 0 := edgesInto_eq_zero_iff.2 (fun u hu =>
      hinv.preds m hm2 u hu)
    rw [h0] at h1
    norm_num at h1
  constructor
  · intro v hv
    rw [cval v hv]
    congr 1
    have := harith v
    push_cast
    omega
  · rw [List.nodup_append]
    refine ⟨(List.nodup_append.1 hndsplit).1, cnd, ?_⟩
    intro x hx hx'
    rcases (cmem x).1 hx' with hxq | ⟨h1, _⟩
    · rw [List.nodup_append] at hndsplit
      exact hndsplit.2.2 hx hxq
    · exact hnew_not x h1 hx
  · intro x hx
    rcases List.mem_append.1 hx with hx | hx
    · rcases List.mem_append.1 hx with hx | hx
      · exact hinv.mem x (List.mem_append.2 (Or.inl hx))
      · rcases List.mem_singleton.1 hx with rfl
        exact hnn
    · rcases csub x hx with hx' | hx'
      · exact hinv.mem x (by simp [hx'])
      · exact hms x hx'
  · intro x hx u hu
    rcases List.mem_append.1 hx with hx | hx
    · have hx2 : x ∈ out ++ n :: q := by
        rcases List.mem_append.1 hx with h | h
        · exact List.mem_append.2 (Or.inl h)
        · rcases List.mem_singleton.1 h with rfl
          exact List.mem_append.2 (Or.inr (List.mem_cons_self _ _))
      exact List.mem_append.2 (Or.inl (hinv.preds x hx2 u hu))
    · rcases (cmem x).1 hx with hxq | ⟨h1, h2⟩
      · exact List.mem_append.2 (Or.inl (hinv.preds x (by simp [hxq]) u hu))
      · by_contra hun
        have hge : 1 ≤ edgesInto E (out ++ [n]) x := by
          by_contra hlt
          exact hun (edgesInto_eq_zero_iff.1 (by omega) u hu)
        have := harith x
        push_cast at h2
        omega
  · intro v hv hvo hvq
    have hvout : ¬ v ∈ out := fun h => hvo (List.mem_append.2 (Or.inl h))
    have hvn : ¬ v = n := fun h =>
      hvo (List.mem_append.2 (Or.inr (List.mem_singleton.2 h)))
    have hvq0 : ¬ v ∈ q := fun h => hvq ((cmem v).2 (Or.inl h))
    have hold : 1 ≤ edgesInto E out v := by
      refine hinv.pos v hv hvout ?_
      intro hm
      rcases List.mem_cons.1 hm with h | h
      · exact hvn h
      · exact hvq0 h
    have hnotnew : ¬ (1 ≤ ((edgesInto E out v : Nat) : Int) ∧
        ((edgesInto E out v : Nat) : Int) ≤ ((occs v (succsOf E n) : Nat) : Int)) :=
      fun hc => hvq ((cmem v).2 (Or.inr hc))
    have := harith v
    by_contra hle
    push_cast at hnotnew
    omega
  · intro v hvmem u hu
    rcases List.mem_append.1 hvmem with hv | hv
    · have hut : u ∈ out := hinv.preds v (List.mem_append.2 (Or.inl hv)) u hu
      rw [posIn_append_left hv, posIn_append_left hut]
      exact hinv.ord v hv u hu
    · rcases List.mem_singleton.1 hv with rfl
      have hut : u ∈ out := hinv.preds v
        (List.mem_append.2 (Or.inr (List.mem_cons_self _ _))) u hu
      rw [posIn_append_left hut, posIn_append_self hnout]
      exact posIn_lt_length hut

lemma kahnLoop_run {nodes : List String} {E : List (String × String)}
    {adj : SMap (List String)}
    (hE : ∀ e ∈ E, e.1 ∈ nodes ∧ e.2 ∈ nodes)
    (hadj : ∀ u ∈ nodes, adj.get? u = some (succsOf E u)) :
    ∀ (fuel : Nat) (inDeg : SMap Int) (q out : List String),
    KInv nodes E inDeg q out →
    nodes.length - out.length < fuel →
    KInv nodes E (kahnLoop adj fuel inDeg q out).1 []
      (kahnLoop adj fuel inDeg q out).2 := by
  intro fuel
  induction fuel with
  | zero =>
    intro inDeg q out hinv hfuel
    omega
  | succ fuel ih =>
    intro inDeg q out hinv hfuel
    cases q with
    | nil =>
      simp only [kahnLoop]
      exact hinv
    | cons n q' =>
      simp only [kahnLoop]
      have hstep := kahn_step hE hadj hinv
      rcases hp : kahnSucc inDeg q' ((adj.get? n).getD []) with ⟨inDeg1, q1⟩
      rw [hp] at hstep
      have hlen : (out ++ n :: q').length ≤ nodes.length :=
        (List.Nodup.subperm hinv.nd (fun x hx => hinv.mem x hx)).length_le
      simp only [List.length_append, List.length_cons] at hlen
      apply ih inDeg1 q1 (out ++ [n]) hstep
      simp only [List.length_append, List.length_cons, List.length_nil]
      omega

lemma kahnLoop_fuel_irrel {nodes : List String} {E : List (String × String)}
    {adj : SMap (List String)}
    (hE : ∀ e ∈ E, e.1 ∈ nodes ∧ e.2 ∈ nodes)
    (hadj : ∀ u ∈ nodes, adj.get? u = some (succsOf E u)) :
    ∀ (fuel1 fuel2 : Nat) (inDeg : SMap Int) (q out : List String),
    KInv nodes E inDeg q out →
    nodes.length - out.length < fuel1 →
    nodes.length - out.length < fuel2 →
    kahnLoop adj fuel1 inDeg q out = kahnLoop adj fuel2 inDeg q out := by
  intro fuel1
  induction fuel1 with
  | zero =>
    intro fuel2 inDeg q out hinv h1 h2
    omega
  | succ fuel1 ih =>
    intro fuel2 inDeg q out hinv h1 h2
    cases q with
    | nil => cases fuel2 <;> rfl
    | cons n q' =>
      cases fuel2 with
      | zero => omega
      | succ fuel2 =>
        simp only [kahnLoop]
        have hstep := kahn_step hE hadj hinv
        rcases hp : kahnSucc inDeg q' ((adj.get? n).getD []) with ⟨inDeg1, q1⟩
        rw [hp] at hstep
        have hlen : (out ++ n :: q').length ≤ nodes.length :=
          (List.Nodup.subperm hinv.nd (fun x hx => hinv.mem x hx)).length_le
        simp only [List.length_append, List.length_cons] at hlen
        exact ih fuel2 inDeg1 q1 (out ++ [n]) hstep
          (by simp only [List.length_append, List.length_cons, List.length_nil]; omega)
          (by simp only [List.length_append, List.length_cons, List.length_nil]; omega)

lemma retainedEdges_mem {nodes : List String} {edges : List (String × String)} :
    ∀ e ∈ retainedEdges nodes edges, e.1 ∈ nodes ∧ e.2 ∈ nodes := by
  intro e he
  have := (List.mem_filter.1 he).2
  simp only [Bool.and_eq_true, decide_eq_true_eq] at this
  exact this

lemma edgesInto_snoc {R : List (String × String)} {e : String × String} {v : String} :
    edgesInto (R ++ [e]) [] v = edgesInto R [] v + (if e.2 = v then 1 else 0) := by
  unfold edgesInto
  rw [List.filter_append, List.length_append]
  congr 1
  simp only [List.filter_cons, List.filter_nil]
  by_cases h2 : e.2 = v
  · simp [h2]
  · simp [h2]

lemma succsOf_snoc {R : List (String × String)} {e : String × String} {u : String} :
    succsOf (R ++ [e]) u = succsOf R u ++ (if e.1 = u then [e.2] else []) := by
  unfold succsOf
  rw [List.filter_append, List.map_append]
  congr 1
  by_cases h1 : e.1 = u <;> simp [h1]

lemma SMap.get?_some_mem {α : Type} {m : SMap α} {k : String} {v : α}
    (h : m.get? k = some v) : (k, v) ∈ m := by
  unfold SMap.get? at h
  cases hf : m.find? (fun p => p.1 == k) with
  | none => rw [hf] at h; cases h
  | some p =>
    rw [hf] at h
    have hp := List.mem_of_find?_eq_some hf
    have hk : p.1 = k := by simpa using List.find?_some hf
    have hv : p.2 = v := by simpa using h
    rw [← hk, ← hv]
    exact hp

lemma topoBuild_char {nodes : List String} {edges : List (String × String)} :
    (∀ v ∈ nodes, (topoBuild nodes edges).1.get? v =
      some ((edgesInto (retainedEdges nodes edges) [] v : Nat) : Int)) ∧
    (∀ u ∈ nodes, (topoBuild nodes edges).2.get? u =
      some (succsOf (retainedEdges nodes edges) u)) := by
  have main : ∀ (es : List (String × String)) (st : SMap Int × SMap (List String))
      (R : List (String × String)),
      (∀ v ∈ nodes, st.1.get? v = some ((edgesInto R [] v : Nat) : Int)) →
      (∀ u ∈ nodes, st.2.get? u = some (succsOf R u)) →
      (∀ v, ¬ v ∈ nodes → st.1.get? v = none ∧ st.2.get? v = none) →
      (∀ v ∈ nodes, (es.foldl
          (fun (p : SMap Int × SMap (List String)) e =>
            if (p.2.get? e.1).isSome && (p.2.get? e.2).isSome then
              (p.1.set e.2 (((p.1.get? e.2).getD 0) + 1),
               p.2.set e.1 (((p.2.get? e.1).getD []) ++ [e.2]))
            else p) st).1.get? v =
        some ((edgesInto (R ++ retainedEdges nodes es) [] v : Nat) : Int)) ∧
      (∀ u ∈ nodes, (es.foldl
          (fun (p : SMap Int × SMap (List String)) e =>
            if (p.2.get? e.1).isSome && (p.2.get? e.2).isSome then
              (p.1.set e.2 (((p.1.get? e.2).getD 0) + 1),
               p.2.set e.1 (((p.2.get? e.1).getD []) ++ [e.2]))
            else p) st).2.get? u =
        some (succsOf (R ++ retainedEdges nodes es) u)) := by
    intro es
    induction es with
    | nil =>
      intro st R hval hsucc hnone
      constructor
      · intro v hv
        simpa [retainedEdges] using hval v hv
      · intro u hu
        simpa [retainedEdges] using hsucc u hu
    | cons e rest ih =>
      intro st R hval hsucc hnone
      simp only [List.foldl_cons]
      by_cases hc : e.1 ∈ nodes ∧ e.2 ∈ nodes
      · have hcond : ((st.2.get? e.1).isSome && (st.2.get? e.2).isSome) = true := by
          rw [Bool.and_eq_true]
          constructor
          · rw [hsucc e.1 hc.1]
            rfl
          · rw [hsucc e.2 hc.2]
            rfl
        rw [if_pos hcond]
        have hret : retainedEdges nodes (e :: rest) = e :: retainedEdges nodes rest := by
          unfold retainedEdges
          rw [List.filter_cons, if_pos (by simp [hc.1, hc.2])]
        rw [hret]
        have hassoc : R ++ e :: retainedEdges nodes rest =
            (R ++ [e]) ++ retainedEdges nodes rest := by
          simp
        rw [hassoc]
        apply ih
        · intro v hv
          by_cases hve : v = e.2
          · dsimp only
            rw [hve, SMap.get?_set_self, hval e.2 hc.2]
            simp only [Option.getD_some]
            rw [edgesInto_snoc, if_pos rfl]
            norm_cast
          · dsimp only
            rw [SMap.get?_set_ne _ _ _ _ hve, hval v hv]
            rw [edgesInto_snoc, if_neg (fun hh => hve hh.symm)]
            norm_num
        · intro u hu
          by_cases hue : u = e.1
          · dsimp only
            rw [hue, SMap.get?_set_self, hsucc e.1 hc.1]
            simp only [Option.getD_some]
            rw [succsOf_snoc, if_pos rfl]
          · dsimp only
            rw [SMap.get?_set_ne _ _ _ _ hue, hsucc u hu]
            rw [succsOf_snoc, if_neg (fun hh => hue hh.symm)]
            simp
        · intro v hv
          dsimp only
          constructor
          · rw [SMap.get?_set_ne _ _ _ _ (fun hh => hv (by rw [hh]; exact hc.2))]
            exact (hnone v hv).1
          · rw [SMap.get?_set_ne _ _ _ _ (fun hh => hv (by rw [hh]; exact hc.1))]
            exact (hnone v hv).2
      · have hiff : ∀ x, (st.2.get? x).isSome = true ↔ x ∈ nodes := by
          intro x
          constructor
          · intro hx
            by_contra hxn
            rw [(hnone x hxn).2] at hx
            cases hx
          · intro hx
            rw [hsucc x hx]
            rfl
        have hcond : ((st.2.get? e.1).isSome && (st.2.get? e.2).isSome) = false := by
          cases h1 : (st.2.get? e.1).isSome
          · rfl
          · cases h2 : (st.2.get? e.2).isSome
            · simp
            · exact absurd ⟨(hiff e.1).1 h1, (hiff e.2).1 h2⟩ hc
        rw [hcond]
        rw [if_neg Bool.false_ne_true]
        have hret : retainedEdges nodes (e :: rest) = retainedEdges nodes rest := by
          unfold retainedEdges
          rw [List.filter_cons, if_neg (by simpa using hc)]
        rw [hret]
        exact ih st R hval hsucc hnone
  unfold topoBuild
  have h0 := main edges
    (nodes.foldl (fun m n => m.set n 0) [], nodes.foldl (fun m n => m.set n []) [])
    [] ?_ ?_ ?_
  · constructor
    · intro v hv
      have := h0.1 v hv
      simpa using this
    · intro u hu
      have := h0.2 u hu
      simpa using this
  · intro v hv
    dsimp only
    rw [constFold_get, if_pos hv]
    have h00 : edgesInto ([] : List (String × String)) [] v = 0 := rfl
    rw [h00]
    norm_num
  · intro u hu
    dsimp only
    rw [constFold_get, if_pos hu]
    rfl
  · intro v hv
    dsimp only
    constructor
    · rw [constFold_get, if_neg hv]
    · rw [constFold_get, if_neg hv]

lemma buildFold_filter {nodes : List String} :
    ∀ (es : List (String × String)) (st : SMap Int × SMap (List String)),
    (∀ k, ((st.2.get? k).isSome ↔ k ∈ nodes)) →
    (∀ k, ((st.1.get? k).isSome ↔ k ∈ nodes)) →
    es.foldl
      (fun (p : SMap Int × SMap (List String)) e =>
        if (p.2.get? e.1).isSome && (p.2.get? e.2).isSome then
          (p.1.set e.2 (((p.1.get? e.2).getD 0) + 1),
           p.2.set e.1 (((p.2.get? e.1).getD []) ++ [e.2]))
        else p) st =
    (es.filter (fun e => decide (e.1 ∈ nodes) && decide (e.2 ∈ nodes))).foldl
      (fun (p : SMap Int × SMap (List String)) e =>
        if (p.2.get? e.1).isSome && (p.2.get? e.2).isSome then
          (p.1.set e.2 (((p.1.get? e.2).getD 0) + 1),
           p.2.set e.1 (((p.2.get? e.1).getD []) ++ [e.2]))
        else p) st := by
  intro es
  induction es with
  | nil =>
    intro st h2 h1
    rfl
  | cons e rest ih =>
    intro st h2 h1
    rw [List.filter_cons]
    by_cases hc : e.1 ∈ nodes ∧ e.2 ∈ nodes
    · rw [if_pos (by simp [hc.1, hc.2])]
      simp only [List.foldl_cons]
      have hcond : ((st.2.get? e.1).isSome && (st.2.get? e.2).isSome) = true := by
        rw [Bool.and_eq_true]
        exact ⟨(h2 e.1).2 hc.1, (h2 e.2).2 hc.2⟩
      rw [if_pos hcond]
      apply ih
      · intro k
        dsimp only
        rw [SMap.isSome_get?_set]
        constructor
        · rintro (rfl | hs)
          · exact hc.1
          · exact (h2 k).1 hs
        · intro hk
          exact Or.inr ((h2 k).2 hk)
      · intro k
        dsimp only
        rw [SMap.isSome_get?_set]
        constructor
        · rintro (rfl | hs)
          · exact hc.2
          · exact (h1 k).1 hs
        · intro hk
          exact Or.inr ((h1 k).2 hk)
    · rw [if_neg (by simpa using hc)]
      simp only [List.foldl_cons]
      have hcond : ((st.2.get? e.1).isSome && (st.2.get? e.2).isSome) = false := by
        cases hb1 : (st.2.get? e.1).isSome
        · rfl
        · cases hb2 : (st.2.get? e.2).isSome
          · simp
          · exact absurd ⟨(h2 e.1).1 hb1, (h2 e.2).1 hb2⟩ hc
      rw [hcond, if_neg Bool.false_ne_true]
      exact ih st h2 h1

lemma topoBuild_eq_retained {nodes : List String} {edges : List (String × String)} :
    topoBuild nodes edges = topoBuild nodes (retainedEdges nodes edges) := by
  unfold topoBuild retainedEdges
  apply buildFold_filter
  · intro k
    dsimp only
    rw [constFold_get]
    by_cases hk : k ∈ nodes
    · rw [if_pos hk]
      simp [hk]
    · rw [if_neg hk]
      simp [hk]
  · intro k
    dsimp only
    rw [constFold_get]
    by_cases hk : k ∈ nodes
    · rw [if_pos hk]
      simp [hk]
    · rw [if_neg hk]
      simp [hk]

lemma topoBuild_initial_KInv {nodes : List String} {edges : List (String × String)} :
    KInv nodes (retainedEdges nodes edges) (topoBuild nodes edges).1
      (topoQ0 (topoBuild nodes edges).1) [] := by
  have hchar := @topoBuild_char nodes edges
  have hspec := topoBuild_spec nodes edges
  have hq0 := topoQ0_spec hspec.2.2.1
  constructor
  · intro v hv
    simpa using hchar.1 v hv
  · simpa using hq0.2
  · intro x hx
    simp only [List.nil_append] at hx
    have := hq0.1 x hx
    exact (hspec.1 x).1.1 (by rw [this]; rfl)
  · intro x hx u hu
    simp only [List.nil_append] at hx
    have hx0 := hq0.1 x hx
    have hxn : x ∈ nodes := (hspec.1 x).1.1 (by rw [hx0]; rfl)
    have hval := hchar.1 x hxn
    have heq : some (((edgesInto (retainedEdges nodes edges) [] x : Nat) : Int)) =
        some (0 : Int) := hval.symm.trans hx0
    have hz : edgesInto (retainedEdges nodes edges) [] x = 0 := by
      have := Option.some.inj heq
      exact_mod_cast this
    exact edgesInto_eq_zero_iff.1 hz u hu
  · intro v hv hvo hvq
    by_contra hle
    have hz : edgesInto (retainedEdges nodes edges) [] v = 0 := by omega
    have hval0 : (topoBuild nodes edges).1.get? v = some 0 := by
      rw [hchar.1 v hv, hz]
      norm_num
    have hmem : (v, (0 : Int)) ∈ (topoBuild nodes edges).1 :=
      SMap.get?_some_mem hval0
    apply hvq
    unfold topoQ0
    exact List.mem_map.2 ⟨(v, 0), List.mem_filter.2 ⟨hmem, by simp⟩, rfl⟩
  · intro v hv
    cases hv

lemma chain_extract_cycle {α : Type} {R : α → α → Prop} :
    ∀ (l : List α) (a : α), List.Chain R a l → ¬ (a :: l).Nodup →
    ∃ u m, List.Chain R u (m ++ [u]) := by
  intro l
  induction l with
  | nil =>
    intro a hch hnd
    exact absurd (List.nodup_singleton a) hnd
  | cons b l' ih =>
    intro a hch hnd
    by_cases hal : a ∈ b :: l'
    · rcases List.append_of_mem hal with ⟨l1, l2, heq⟩
      rw [heq] at hch
      exact ⟨a, l1, (List.chain_split.1 hch).1⟩
    · have hch' := (List.chain_cons.1 hch).2
      refine ih b hch' ?_
      intro hnd'
      exact hnd (List.nodup_cons.2 ⟨hal, hnd'⟩)

lemma exists_long_chain {α : Type} {R : α → α → Prop} {S : List α} (hS : S ≠ [])
    (hpred : ∀ v ∈ S, ∃ u ∈ S, R u v) :
    ∀ n, ∃ a l, a ∈ S ∧ (∀ x ∈ l, x ∈ S) ∧ l.length = n ∧ List.Chain R a l := by
  intro n
  induction n with
  | zero =>
    rcases List.exists_mem_of_ne_nil S hS with ⟨v, hv⟩
    exact ⟨v, [], hv, by simp, rfl, List.Chain.nil⟩
  | succ n ih =>
    rcases ih with ⟨a, l, ha, hl, hlen, hch⟩
    rcases hpred a ha with ⟨u, hu, hR⟩
    refine ⟨u, a :: l, hu, ?_, by simp [hlen], List.chain_cons.2 ⟨hR, hch⟩⟩
    intro x hx
    rcases List.mem_cons.1 hx with rfl | hx
    · exact ha
    · exact hl x hx

lemma cycle_of_pred {S : List String} {R : String → String → Prop} (hS : S ≠ [])
    (hpred : ∀ v ∈ S, ∃ u ∈ S, R u v) :
    ∃ u m, List.Chain R u (m ++ [u]) := by
  rcases exists_long_chain hS hpred S.length with ⟨a, l, ha, hl, hlen, hch⟩
  refine chain_extract_cycle l a hch ?_
  intro hnd
  have hsub : (a :: l).Subperm S := hnd.subperm (by
    intro x hx
    rcases List.mem_cons.1 hx with rfl | hx
    · exact ha
    · exact hl x hx)
  have hle := hsub.length_le
  rw [List.length_cons, hlen] at hle
  omega

lemma chain_pos_lt {α : Type} {pos : α → Nat} {E : α → α → Prop}
    (hstep : ∀ x y, E x y → pos x < pos y) :
    ∀ (l : List α) (a : α), List.Chain E a l → ∀ h : l ≠ [],
      pos a < pos (l.getLast h) := by
  intro l
  induction l with
  | nil =>
    intro a hch h
    exact absurd rfl h
  | cons b t ih =>
    intro a hch h
    rcases List.chain_cons.1 hch with ⟨hab, hbt⟩
    cases t with
    | nil => simpa using hstep a b hab
    | cons c t' =>
      have hrec := ih b hbt (by simp)
      rw [List.getLast_cons (by simp : c :: t' ≠ [])]
      exact lt_trans (hstep a b hab) hrec

lemma topoSort_final {nodes : List String} {edges : List (String × String)} :
    KInv nodes (retainedEdges nodes edges)
      (kahnLoop (topoBuild nodes edges).2 (nodes.length + edges.length + 1)
        (topoBuild nodes edges).1 (topoQ0 (topoBuild nodes edges).1) []).1
      []
      (kahnLoop (topoBuild nodes edges).2 (nodes.length + edges.length + 1)
        (topoBuild nodes edges).1 (topoQ0 (topoBuild nodes edges).1) []).2 :=
  kahnLoop_run retainedEdges_mem topoBuild_char.2 _ _ _ _
    topoBuild_initial_KInv (by simp only [List.length_nil]; omega)

/-- Claim C7 counterexample: with the duplicated node list `["a", "a"]` and no
edges, the Kahn loop emits the single map entry `"a"` once, so
`out.length = 1 ≠ 2 = nodes.length` and the function fails with a
CircularDependency error (carrying the empty list: no node has positive
residual in-degree) although the graph has no cycle: failure is NOT
equivalent to a cycle on inputs with duplicate node ids. -/
theorem C7_counterexample :
    topoSortOrThrow ["a", "a"] [] = .error (.circularDependency []) ∧
    ¬ HasCycle ["a", "a"] [] := by
  constructor
  · rfl
  · rintro ⟨u, l, hch⟩
    cases hl : l ++ [u] with
    | nil => exact absurd hl (by simp)
    | cons b t =>
      rw [hl] at hch
      rcases List.chain_cons.1 hch with ⟨h1, _⟩
      simp [retainedEdges] at h1

/-- Claim C7 (amended with `nodes.Nodup`; the counterexample shows duplicate
node ids make the length test fail without any cycle): `topoSortOrThrow`
ignores edges with an unknown endpoint (dropping them gives the same result);
it fails (with some error) if and only if the graph restricted to the known
nodes and retained edges has a cycle; on success every retained edge's source
appears strictly before its target in the output; and every failure is a
CircularDependency error carrying a non-empty list of nodes - exactly those
with positive residual in-degree - each of which has a retained predecessor
inside the carried list itself. -/
theorem C7_topoSort_spec (nodes : List String) (edges : List (String × String))
    (hnd : nodes.Nodup) :
    topoSortOrThrow nodes edges = topoSortOrThrow nodes (retainedEdges nodes edges) ∧
    ((∃ err, topoSortOrThrow nodes edges = .error err) ↔ HasCycle nodes edges) ∧
    (∀ out, topoSortOrThrow nodes edges = .ok out →
      ∀ e ∈ retainedEdges nodes edges,
        ∃ i j : Nat, i < j ∧ out[i]? = some e.1 ∧ out[j]? = some e.2) ∧
    (∀ err, topoSortOrThrow nodes edges = .error err →
      ∃ l, err = .circularDependency l ∧ ¬ l = [] ∧
        ∀ v ∈ l, ∃ u ∈ l, (u, v) ∈ retainedEdges nodes edges) := by
  have hpart1 : topoSortOrThrow nodes edges =
      topoSortOrThrow nodes (retainedEdges nodes edges) := by
    have hloopeq := kahnLoop_fuel_irrel retainedEdges_mem
      (@topoBuild_char nodes edges).2
      (nodes.length + edges.length + 1)
      (nodes.length + (retainedEdges nodes edges).length + 1)
      (topoBuild nodes edges).1 (topoQ0 (topoBuild nodes edges).1) []
      topoBuild_initial_KInv
      (by simp only [List.length_nil]; omega)
      (by simp only [List.length_nil]; omega)
    unfold topoSortOrThrow
    dsimp only
    rw [← @topoBuild_eq_retained nodes edges]
    rw [← hloopeq]
  refine ⟨hpart1, ?_⟩
  have hfin := @topoSort_final nodes edges
  generalize hres : kahnLoop (topoBuild nodes edges).2
      (nodes.length + edges.length + 1) (topoBuild nodes edges).1
      (topoQ0 (topoBuild nodes edges).1) [] = res at hfin
  have hts : topoSortOrThrow nodes edges =
      if res.2.length ≠ nodes.length then
        .error (.circularDependency
          (nodes.filter (fun n => 0 < (res.1.get? n).getD 0)))
      else .ok res.2 := by
    unfold topoSortOrThrow
    dsimp only
    rw [hres]
  have houtnd : res.2.Nodup := by
    have := hfin.nd
    simpa using this
  have houtsub : ∀ x ∈ res.2, x ∈ nodes := by
    intro x hx
    exact hfin.mem x (by simpa using hx)
  have hlenle : res.2.length ≤ nodes.length :=
    (houtnd.subperm houtsub).length_le
  by_cases hcond : res.2.length = nodes.length
  · have hok : topoSortOrThrow nodes edges = .ok res.2 := by
      rw [hts, if_neg (by omega)]
    have hperm : res.2.Perm nodes :=
      (houtnd.subperm houtsub).perm_of_length_le (by omega)
    have hall : ∀ n ∈ nodes, n ∈ res.2 := fun n h => hperm.mem_iff.2 h
    have hord : ∀ e ∈ retainedEdges nodes edges,
        posIn res.2 e.1 < posIn res.2 e.2 ∧ e.1 ∈ res.2 ∧ e.2 ∈ res.2 := by
      intro e he
      have hv2 : e.2 ∈ res.2 := hall e.2 (retainedEdges_mem e he).2
      have hu : e.1 ∈ res.2 := hfin.preds e.2 (by simpa using hv2) e.1 he
      exact ⟨hfin.ord e.2 hv2 e.1 he, hu, hv2⟩
    have hnocycle : ¬ HasCycle nodes edges := by
      rintro ⟨u, l, hch⟩
      have hstep : ∀ x y, (x, y) ∈ retainedEdges nodes edges →
          posIn res.2 x < posIn res.2 y := by
        intro x y hxy
        exact (hord (x, y) hxy).1
      have hlast : (l ++ [u]).getLast (by simp) = u := by simp
      have hmono := chain_pos_lt hstep (l ++ [u]) u hch (by simp)
      rw [hlast] at hmono
      omega
    refine ⟨?_, ?_, ?_⟩
    · constructor
      · rintro ⟨err, herr⟩
        rw [hok] at herr
        cases herr
      · intro hcyc
        exact absurd hcyc hnocycle
    · intro out hout
      rw [hok] at hout
      cases hout
      intro e he
      rcases hord e he with ⟨hlt, hu, hv⟩
      exact ⟨posIn res.2 e.1, posIn res.2 e.2, hlt,
        posIn_getElem hu, posIn_getElem hv⟩
    · intro err herr
      rw [hok] at herr
      cases herr
  · have herr : topoSortOrThrow nodes edges =
        .error (.circularDependency
          (nodes.filter (fun n => 0 < (res.1.get? n).getD 0))) := by
      rw [hts, if_pos hcond]
    have hSrest : ∀ v ∈ nodes, ¬ v ∈ res.2 →
        ∃ u, (u, v) ∈ retainedEdges nodes edges ∧ ¬ u ∈ res.2 ∧ u ∈ nodes := by
      intro v hv hvo
      have hpos := hfin.pos v hv hvo (by simp)
      rcases edgesInto_pos hpos with ⟨u, hu, huo⟩
      exact ⟨u, hu, huo, (retainedEdges_mem _ hu).1⟩
    have hSne : ∃ v ∈ nodes, ¬ v ∈ res.2 := by
      by_contra hallin
      push_neg at hallin
      have hsp : nodes.Subperm res.2 := hnd.subperm hallin
      have := hsp.length_le
      omega
    have hfilterne : nodes.filter (fun n => decide (¬ n ∈ res.2)) ≠ [] := by
      rcases hSne with ⟨v0, hv0n, hv0o⟩
      intro hnil
      have hm : v0 ∈ nodes.filter (fun n => decide (¬ n ∈ res.2)) :=
        List.mem_filter.2 ⟨hv0n, by simpa using hv0o⟩
      rw [hnil] at hm
      cases hm
    have hpred : ∀ v ∈ nodes.filter (fun n => decide (¬ n ∈ res.2)),
        ∃ u ∈ nodes.filter (fun n => decide (¬ n ∈ res.2)),
          (u, v) ∈ retainedEdges nodes edges := by
      intro v hv
      rcases List.mem_filter.1 hv with ⟨hvn, hvo⟩
      rcases hSrest v hvn (by simpa using hvo) with ⟨u, hu, huo, hun⟩
      exact ⟨u, List.mem_filter.2 ⟨hun, by simpa using huo⟩, hu⟩
    have hcyc : HasCycle nodes edges := by
      rcases cycle_of_pred hfilterne hpred with ⟨u, m, hch⟩
      exact ⟨u, m, hch⟩
    have hfeq : nodes.filter (fun n => 0 < (res.1.get? n).getD 0) =
        nodes.filter (fun n => decide (¬ n ∈ res.2)) := by
      apply List.filter_congr
      intro n hn
      rw [hfin.val n hn]
      simp only [Option.getD_some]
      rw [decide_eq_decide]
      constructor
      · intro hpos hmem
        have h0 : edgesInto (retainedEdges nodes edges) res.2 n = 0 :=
          edgesInto_eq_zero_iff.2 (fun u hu =>
            hfin.preds n (by simpa using hmem) u hu)
        rw [h0] at hpos
        norm_num at hpos
      · intro hmem
        have h1 := hfin.pos n hn hmem (by simp)
        push_cast
        omega
    refine ⟨?_, ?_, ?_⟩
    · exact ⟨fun _ => hcyc, fun _ => ⟨_, herr⟩⟩
    · intro out hout
      rw [herr] at hout
      cases hout
    · intro err herr2
      rw [herr] at herr2
      injection herr2 with hpay
      refine ⟨nodes.filter (fun n => decide (¬ n ∈ res.2)), ?_, hfilterne, hpred⟩
      rw [← hpay, hfeq]

/-- Witness for C7 (amended) at a concrete acyclic input with one unknown-
endpoint edge: `nodes = ["a", "b"]`, `edges = [("a","b"), ("x","b")]` (the
second edge is dropped since `"x"` is unknown). -/
theorem C7_witness :
    (["a", "b"] : List String).Nodup ∧
    (topoSortOrThrow ["a", "b"] [("a", "b"), ("x", "b")] =
      topoSortOrThrow ["a", "b"]
        (retainedEdges ["a", "b"] [("a", "b"), ("x", "b")]) ∧
    ((∃ err, topoSortOrThrow ["a", "b"] [("a", "b"), ("x", "b")] = .error err) ↔
      HasCycle ["a", "b"] [("a", "b"), ("x", "b")]) ∧
    (∀ out, topoSortOrThrow ["a", "b"] [("a", "b"), ("x", "b")] = .ok out →
      ∀ e ∈ retainedEdges ["a", "b"] [("a", "b"), ("x", "b")],
        ∃ i j : Nat, i < j ∧ out[i]? = some e.1 ∧ out[j]? = some e.2) ∧
    (∀ err, topoSortOrThrow ["a", "b"] [("a", "b"), ("x", "b")] = .error err →
      ∃ l, err = .circularDependency l ∧ ¬ l = [] ∧
        ∀ v ∈ l, ∃ u ∈ l,
          (u, v) ∈ retainedEdges ["a", "b"] [("a", "b"), ("x", "b")])) :=
  ⟨by decide, C7_topoSort_spec ["a", "b"] [("a", "b"), ("x", "b")] (by decide)⟩

/-! ## Lemmas: the millisecond-counting machinery for claim C3. -/

lemma cntB_split {f : Nat → Bool} {lo mid hi : Nat} (h1 : lo ≤ mid) (h2 : mid ≤ hi) :
    cntB f lo hi = cntB f lo mid + cntB f mid hi := by
  unfold cntB
  rw [← Finset.Ico_union_Ico_eq_Ico h1 h2, Finset.filter_union,
    Finset.card_union_of_disjoint
      (Finset.disjoint_filter_filter (Finset.Ico_disjoint_Ico_consecutive lo mid hi))]

lemma cntB_zero {f : Nat → Bool} {lo hi : Nat}
    (h : ∀ p, lo ≤ p → p < hi → f p = false) : cntB f lo hi = 0 := by
  unfold cntB
  rw [Finset.card_eq_zero, Finset.filter_eq_empty_iff]
  intro p hp
  rw [Finset.mem_Ico] at hp
  rw [h p hp.1 hp.2]
  simp

lemma cntB_full {f : Nat → Bool} {lo hi : Nat}
    (h : ∀ p, lo ≤ p → p < hi → f p = true) : cntB f lo hi = hi - lo := by
  unfold cntB
  rw [Finset.filter_true_of_mem, Nat.card_Ico]
  intro p hp
  rw [Finset.mem_Ico] at hp
  exact h p hp.1 hp.2

lemma cntB_congr {f g : Nat → Bool} {lo hi : Nat}
    (h : ∀ p, lo ≤ p → p < hi → f p = g p) : cntB f lo hi = cntB g lo hi := by
  unfold cntB
  congr 1
  apply Finset.filter_congr
  intro p hp
  rw [Finset.mem_Ico] at hp
  rw [h p hp.1 hp.2]

lemma inIvsB_true_iff {l : List (Nat × Nat)} {p : Nat} :
    inIvsB l p = true ↔ ∃ w ∈ l, w.1 ≤ p ∧ p < w.2 := by
  unfold inIvsB
  rw [List.any_eq_true]
  constructor
  · rintro ⟨w, hw, hcond⟩
    simp only [Bool.and_eq_true, decide_eq_true_eq] at hcond
    exact ⟨w, hw, hcond⟩
  · rintro ⟨w, hw, h1, h2⟩
    exact ⟨w, hw, by simp [h1, h2]⟩

lemma inIvsB_false_iff {l : List (Nat × Nat)} {p : Nat} :
    inIvsB l p = false ↔ ∀ w ∈ l, ¬(w.1 ≤ p ∧ p < w.2) := by
  rw [← Bool.not_eq_true, inIvsB_true_iff]
  constructor
  · intro h w hw hc
    exact h ⟨w, hw, hc⟩
  · rintro h ⟨w, hw, hc⟩
    exact h w hw hc

lemma inIvsB_cons {w : Nat × Nat} {l : List (Nat × Nat)} {p : Nat} :
    inIvsB (w :: l) p = ((decide (w.1 ≤ p) && decide (p < w.2)) || inIvsB l p) := by
  unfold inIvsB
  rw [List.any_cons]

lemma aligned_diff {a b : Nat} (ha : a % minuteMs = 0) (hb : b % minuteMs = 0)
    (hab : a ≤ b) : (b - a) / minuteMs * minuteMs = b - a ∧
      (1 ≤ b - a → minuteMs ≤ b - a) := by
  unfold minuteMs at *
  omega

lemma consumeParts_inl_count :
    ∀ (parts : List (Nat × Nat)) (rem endMs : Nat),
    parts.Pairwise (fun a b => a.2 ≤ b.1) →
    (∀ w ∈ parts, w.1 < w.2) →
    (∀ w ∈ parts, w.1 % minuteMs = 0 ∧ w.2 % minuteMs = 0) →
    consumeParts parts rem = .inl endMs →
    (∀ lo, (∀ w ∈ parts, lo ≤ w.1) → lo ≤ endMs ∧
      cntB (inIvsB parts) lo endMs = rem * minuteMs) ∧
    endMs % minuteMs = 0 ∧
    (∀ hi, (∀ w ∈ parts, w.2 ≤ hi) → endMs ≤ hi) := by
  intro parts
  induction parts with
  | nil =>
    intro rem endMs _ _ _ h
    cases h
  | cons w rest ih =>
    intro rem endMs hsort hvalid halign h
    obtain ⟨ps, pe⟩ := w
    have hv : ps < pe := hvalid (ps, pe) (List.mem_cons_self _ _)
    have hal := halign (ps, pe) (List.mem_cons_self _ _)
    have hdiv : (pe - ps) / minuteMs * minuteMs = pe - ps :=
      (aligned_diff hal.1 hal.2 (le_of_lt hv)).1
    have hmin1 : 1 ≤ (pe - ps) / minuteMs := by
      have h2 := (aligned_diff hal.1 hal.2 (le_of_lt hv)).2 (by omega)
      unfold minuteMs at *
      omega
    rcases List.pairwise_cons.1 hsort with ⟨hge, hsort'⟩
    simp only [consumeParts] at h
    rw [if_neg (by omega)] at h
    by_cases hrem : rem ≤ (pe - ps) / minuteMs
    · rw [if_pos hrem] at h
      cases h
      have hendpe : ps + rem * minuteMs ≤ pe := by
        have hmm : rem * minuteMs ≤ (pe - ps) / minuteMs * minuteMs :=
          Nat.mul_le_mul_right _ hrem
        omega
      refine ⟨?_, ?_, ?_⟩
      · intro lo hlo
        have hlops : lo ≤ ps := hlo (ps, pe) (List.mem_cons_self _ _)
        refine ⟨by omega, ?_⟩
        rw [cntB_split hlops (by omega : ps ≤ ps + rem * minuteMs)]
        have hc1 : cntB (inIvsB ((ps, pe) :: rest)) lo ps = 0 := by
          apply cntB_zero
          intro p hp1 hp2
          rw [inIvsB_cons, decide_eq_false (by omega : ¬ ps ≤ p), Bool.false_and,
            Bool.false_or, inIvsB_false_iff]
          intro w' hw' hc
          have := hge w' hw'
          omega
        have hc2 : cntB (inIvsB ((ps, pe) :: rest)) ps (ps + rem * minuteMs) =
            rem * minuteMs := by
          rw [cntB_full]
          · omega
          · intro p hp1 hp2
            rw [inIvsB_cons, decide_eq_true (by omega : ps ≤ p),
              decide_eq_true (by omega : p < pe)]
            rfl
        rw [hc1, hc2]
        omega
      · have := hal.1
        unfold minuteMs at *
        omega
      · intro hi hhi
        have := hhi (ps, pe) (List.mem_cons_self _ _)
        omega
    · rw [if_neg hrem] at h
      rcases ih (rem - (pe - ps) / minuteMs) endMs hsort'
        (fun w hw => hvalid w (List.mem_cons_of_mem _ hw))
        (fun w hw => halign w (List.mem_cons_of_mem _ hw)) h with ⟨hmain, hal2, hhi2⟩
      have hrestlo : ∀ w ∈ rest, pe ≤ w.1 := hge
      rcases hmain pe hrestlo with ⟨hpee, hcount⟩
      refine ⟨?_, hal2, ?_⟩
      · intro lo hlo
        have hlops : lo ≤ ps := hlo (ps, pe) (List.mem_cons_self _ _)
        refine ⟨by omega, ?_⟩
        rw [cntB_split hlops (by omega : ps ≤ endMs),
          cntB_split (by omega : ps ≤ pe) hpee]
        have hc1 : cntB (inIvsB ((ps, pe) :: rest)) lo ps = 0 := by
          apply cntB_zero
          intro p hp1 hp2
          rw [inIvsB_cons, decide_eq_false (by omega : ¬ ps ≤ p), Bool.false_and,
            Bool.false_or, inIvsB_false_iff]
          intro w' hw' hc
          have := hge w' hw'
          omega
        have hc2 : cntB (inIvsB ((ps, pe) :: rest)) ps pe = pe - ps := by
          apply cntB_full
          intro p hp1 hp2
          rw [inIvsB_cons, decide_eq_true (by omega : ps ≤ p),
            decide_eq_true (by omega : p < pe)]
          rfl
        have hc3 : cntB (inIvsB ((ps, pe) :: rest)) pe endMs =
            (rem - (pe - ps) / minuteMs) * minuteMs := by
          rw [← hcount]
          apply cntB_congr
          intro p hp1 hp2
          rw [inIvsB_cons, decide_eq_false (by omega : ¬ p < pe), Bool.and_false,
            Bool.false_or]
        rw [hc1, hc2, hc3]
        have hmul : (rem - (pe - ps) / minuteMs) * minuteMs =
            rem * minuteMs - (pe - ps) := by
          rw [Nat.sub_mul, hdiv]
        have hle2 : pe - ps ≤ rem * minuteMs := by
          have hmm : (pe - ps) / minuteMs * minuteMs ≤ rem * minuteMs :=
            Nat.mul_le_mul_right _ (by omega)
          omega
        omega
      · intro hi hhi
        exact hhi2 hi (fun w hw => hhi w (List.mem_cons_of_mem _ hw))

lemma consumeParts_inr_count :
    ∀ (parts : List (Nat × Nat)) (rem rem' : Nat),
    parts.Pairwise (fun a b => a.2 ≤ b.1) →
    (∀ w ∈ parts, w.1 < w.2) →
    (∀ w ∈ parts, w.1 % minuteMs = 0 ∧ w.2 % minuteMs = 0) →
    consumeParts parts rem = .inr rem' →
    rem' ≤ rem ∧
    ∀ lo hi, (∀ w ∈ parts, lo ≤ w.1) → (∀ w ∈ parts, w.2 ≤ hi) → lo ≤ hi →
      cntB (inIvsB parts) lo hi = (rem - rem') * minuteMs := by
  intro parts
  induction parts with
  | nil =>
    intro rem rem' _ _ _ h
    cases h
    refine ⟨le_refl _, ?_⟩
    intro lo hi _ _ _
    rw [cntB_zero (fun p _ _ => by rw [inIvsB_false_iff]; intro w hw; cases hw),
      Nat.sub_self, Nat.zero_mul]
  | cons w rest ih =>
    intro rem rem' hsort hvalid halign h
    obtain ⟨ps, pe⟩ := w
    have hv : ps < pe := hvalid (ps, pe) (List.mem_cons_self _ _)
    have hal := halign (ps, pe) (List.mem_cons_self _ _)
    have hdiv : (pe - ps) / minuteMs * minuteMs = pe - ps :=
      (aligned_diff hal.1 hal.2 (le_of_lt hv)).1
    have hmin1 : 1 ≤ (pe - ps) / minuteMs := by
      have h2 := (aligned_diff hal.1 hal.2 (le_of_lt hv)).2 (by omega)
      unfold minuteMs at *
      omega
    rcases List.pairwise_cons.1 hsort with ⟨hge, hsort'⟩
    simp only [consumeParts] at h
    rw [if_neg (by omega)] at h
    by_cases hrem : rem ≤ (pe - ps) / minuteMs
    · rw [if_pos hrem] at h
      cases h
    · rw [if_neg hrem] at h
      rcases ih (rem - (pe - ps) / minuteMs) rem' hsort'
        (fun w hw => hvalid w (List.mem_cons_of_mem _ hw))
        (fun w hw => halign w (List.mem_cons_of_mem _ hw)) h with ⟨hle, hcount⟩
      refine ⟨by omega, ?_⟩
      intro lo hi hlo hhi hlohi
      have hlops : lo ≤ ps := hlo (ps, pe) (List.mem_cons_self _ _)
      have hpehi : pe ≤ hi := hhi (ps, pe) (List.mem_cons_self _ _)
      rw [cntB_split hlops (by omega : ps ≤ hi), cntB_split (by omega : ps ≤ pe) hpehi]
      have hc1 : cntB (inIvsB ((ps, pe) :: rest)) lo ps = 0 := by
        apply cntB_zero
        intro p hp1 hp2
        rw [inIvsB_cons, decide_eq_false (by omega : ¬ ps ≤ p), Bool.false_and,
          Bool.false_or, inIvsB_false_iff]
        intro w' hw' hc
        have := hge w' hw'
        omega
      have hc2 : cntB (inIvsB ((ps, pe) :: rest)) ps pe = pe - ps := by
        apply cntB_full
        intro p hp1 hp2
        rw [inIvsB_cons, decide_eq_true (by omega : ps ≤ p),
          decide_eq_true (by omega : p < pe)]
        rfl
      have hc3 : cntB (inIvsB ((ps, pe) :: rest)) pe hi =
          (rem - (pe - ps) / minuteMs - rem') * minuteMs := by
        rw [← hcount pe hi hge (fun w hw => hhi w (List.mem_cons_of_mem _ hw))
          (by omega)]
        apply cntB_congr
        intro p hp1 hp2
        rw [inIvsB_cons, decide_eq_false (by omega : ¬ p < pe), Bool.and_false,
          Bool.false_or]
      rw [hc1, hc2, hc3]
      have hmul : (rem - (pe - ps) / minuteMs - rem') * minuteMs =
          (rem - (pe - ps) / minuteMs) * minuteMs - rem' * minuteMs := by
        rw [Nat.sub_mul]
      have hmul2 : (rem - (pe - ps) / minuteMs) * minuteMs =
          rem * minuteMs - (pe - ps) := by
        rw [Nat.sub_mul, hdiv]
      have hle2 : pe - ps ≤ rem * minuteMs := by
        have hmm : (pe - ps) / minuteMs * minuteMs ≤ rem * minuteMs :=
          Nat.mul_le_mul_right _ (by omega)
        omega
      have hle3 : rem' * minuteMs ≤ (rem - (pe - ps) / minuteMs) * minuteMs :=
        Nat.mul_le_mul_right _ hle
      rw [hmul2] at hle3
      rw [hmul, hmul2, Nat.sub_mul rem rem' minuteMs]
      omega

lemma insertSorted_perm {α : Type} (lt : α → α → Bool) (x : α) (l : List α) :
    (insertSorted lt x l).Perm (x :: l) := by
  induction l with
  | nil => exact List.Perm.refl _
  | cons y ys ih =>
    simp only [insertSorted]
    split
    · exact (ih.cons y).trans (List.Perm.swap x y ys)
    · exact List.Perm.refl _

lemma stableSortBy_perm {α : Type} (lt : α → α → Bool) (l : List α) :
    (stableSortBy lt l).Perm l := by
  induction l with
  | nil => exact List.Perm.refl _
  | cons x xs ih => exact (insertSorted_perm lt x _).trans (ih.cons x)

lemma subtractBlock_sub :
    ∀ (parts : List (Nat × Nat)) (b : Nat × Nat),
    ∀ x ∈ subtractBlock parts b, ∃ q ∈ parts, q.1 ≤ x.1 ∧ x.2 ≤ q.2 := by
  intro parts b
  induction parts with
  | nil => intro x hx; cases hx
  | cons p rest ih =>
    intro x hx
    unfold subtractBlock at hx
    rw [List.flatMap_cons] at hx
    rcases List.mem_append.1 hx with hx | hx
    · split at hx
      · rcases List.mem_singleton.1 hx with rfl
        exact ⟨x, List.mem_cons_self _ _, le_refl _, le_refl _⟩
      · rename_i hov
        rw [Bool.not_eq_true', Bool.not_eq_false] at hov
        unfold ivOverlaps at hov
        simp only [Bool.and_eq_true, decide_eq_true_eq] at hov
        rcases List.mem_append.1 hx with hx | hx
        · split at hx
          · rcases List.mem_singleton.1 hx with rfl
            exact ⟨p, List.mem_cons_self _ _, le_refl _, by dsimp; omega⟩
          · cases hx
        · split at hx
          · rcases List.mem_singleton.1 hx with rfl
            exact ⟨p, List.mem_cons_self _ _, by dsimp; omega, le_refl _⟩
          · cases hx
    · rcases ih x hx with ⟨q, hq, hb⟩
      exact ⟨q, List.mem_cons_of_mem _ hq, hb⟩

lemma subtractBlock_valid :
    ∀ (parts : List (Nat × Nat)) (b : Nat × Nat),
    (∀ w ∈ parts, w.1 < w.2) →
    ∀ x ∈ subtractBlock parts b, x.1 < x.2 := by
  intro parts b hv
  induction parts with
  | nil => intro x hx; cases hx
  | cons p rest ih =>
    intro x hx
    unfold subtractBlock at hx
    rw [List.flatMap_cons] at hx
    rcases List.mem_append.1 hx with hx | hx
    · split at hx
      · rcases List.mem_singleton.1 hx with rfl
        exact hv x (List.mem_cons_self _ _)
      · rcases List.mem_append.1 hx with hx | hx
        · split at hx
          · rename_i hlt
            rcases List.mem_singleton.1 hx with rfl
            exact hlt
          · cases hx
        · split at hx
          · rename_i hlt
            rcases List.mem_singleton.1 hx with rfl
            exact hlt
          · cases hx
    · exact ih (fun w hw => hv w (List.mem_cons_of_mem _ hw)) x hx

lemma subtractBlock_align :
    ∀ (parts : List (Nat × Nat)) (b : Nat × Nat),
    (∀ w ∈ parts, w.1 % minuteMs = 0 ∧ w.2 % minuteMs = 0) →
    b.1 % minuteMs = 0 → b.2 % minuteMs = 0 →
    ∀ x ∈ subtractBlock parts b, x.1 % minuteMs = 0 ∧ x.2 % minuteMs = 0 := by
  intro parts b ha hb1 hb2
  induction parts with
  | nil => intro x hx; cases hx
  | cons p rest ih =>
    intro x hx
    have hp := ha p (List.mem_cons_self _ _)
    unfold subtractBlock at hx
    rw [List.flatMap_cons] at hx
    rcases List.mem_append.1 hx with hx | hx
    · split at hx
      · rcases List.mem_singleton.1 hx with rfl
        exact ha x (List.mem_cons_self _ _)
      · rcases List.mem_append.1 hx with hx | hx
        · split at hx
          · rcases List.mem_singleton.1 hx with rfl
            exact ⟨hp.1, hb1⟩
          · cases hx
        · split at hx
          · rcases List.mem_singleton.1 hx with rfl
            exact ⟨hb2, hp.2⟩
          · cases hx
    · exact ih (fun w hw => ha w (List.mem_cons_of_mem _ hw)) x hx

lemma subtractBlock_points :
    ∀ (parts : List (Nat × Nat)) (b : Nat × Nat),
    (∀ w ∈ parts, w.1 < w.2) →
    ∀ p, inIvsB (subtractBlock parts b) p = true ↔
      (inIvsB parts p = true ∧ ¬(b.1 ≤ p ∧ p < b.2)) := by
  intro parts b hv
  induction parts with
  | nil =>
    intro p
    constructor
    · intro h
      rw [inIvsB_true_iff] at h
      rcases h with ⟨w, hw, _⟩
      cases hw
    · rintro ⟨h, _⟩
      rw [inIvsB_true_iff] at h
      rcases h with ⟨w, hw, _⟩
      cases hw
  | cons q rest ih =>
    intro p
    have hstep : subtractBlock (q :: rest) b =
        (if !ivOverlaps q b then [q]
         else (if q.1 < b.1 then [(q.1, b.1)] else []) ++
           (if b.2 < q.2 then [(b.2, q.2)] else [])) ++ subtractBlock rest b := by
      unfold subtractBlock
      rw [List.flatMap_cons]
    have hq := hv q (List.mem_cons_self _ _)
    have ihp := ih (fun w hw => hv w (List.mem_cons_of_mem _ hw)) p
    rw [hstep]
    constructor
    · intro hmem
      rcases inIvsB_true_iff.1 hmem with ⟨w, hw, hw1, hw2⟩
      rcases List.mem_append.1 hw with hw | hw
      · split at hw
        · rename_i hov
          have hov' : ivOverlaps q b = false := by
            revert hov
            cases ivOverlaps q b <;> simp
          have hwq : w = q := List.mem_singleton.1 hw
          rw [hwq] at hw1 hw2
          refine ⟨inIvsB_true_iff.2 ⟨q, List.mem_cons_self _ _, hw1, hw2⟩, ?_⟩
          intro hbp
          have htrue : ivOverlaps q b = true := by
            unfold ivOverlaps
            simp only [Bool.and_eq_true, decide_eq_true_eq]
            omega
          rw [hov'] at htrue
          cases htrue
        · rename_i hov
          have hov' : ivOverlaps q b = true := by
            revert hov
            cases ivOverlaps q b <;> simp
          unfold ivOverlaps at hov'
          simp only [Bool.and_eq_true, decide_eq_true_eq] at hov'
          rcases List.mem_append.1 hw with hw | hw
          · split at hw
            · rename_i hlt
              have hwq : w = (q.1, b.1) := List.mem_singleton.1 hw
              rw [hwq] at hw1 hw2
              dsimp at hw1 hw2
              exact ⟨inIvsB_true_iff.2 ⟨q, List.mem_cons_self _ _, hw1, by omega⟩, by omega⟩
            · cases hw
          · split at hw
            · rename_i hlt
              have hwq : w = (b.2, q.2) := List.mem_singleton.1 hw
              rw [hwq] at hw1 hw2
              dsimp at hw1 hw2
              exact ⟨inIvsB_true_iff.2 ⟨q, List.mem_cons_self _ _, by omega, hw2⟩, by omega⟩
            · cases hw
      · rcases ihp.1 (inIvsB_true_iff.2 ⟨w, hw, hw1, hw2⟩) with ⟨hrest, hnb⟩
        rcases inIvsB_true_iff.1 hrest with ⟨w', hw', hc'⟩
        exact ⟨inIvsB_true_iff.2 ⟨w', List.mem_cons_of_mem _ hw', hc'⟩, hnb⟩
    · rintro ⟨hcov, hnb⟩
      rcases inIvsB_true_iff.1 hcov with ⟨w0, hw0, hc1, hc2⟩
      rcases List.mem_cons.1 hw0 with hwq | hw0
      · rw [hwq] at hc1 hc2
        by_cases hov : ivOverlaps q b = true
        · rw [if_neg (by simp [hov])]
          unfold ivOverlaps at hov
          simp only [Bool.and_eq_true, decide_eq_true_eq] at hov
          by_cases hpb : p < b.1
          · refine inIvsB_true_iff.2 ⟨(q.1, b.1), ?_, hc1, hpb⟩
            refine List.mem_append.2 (Or.inl (List.mem_append.2 (Or.inl ?_)))
            rw [if_pos (by omega)]
            exact List.mem_singleton.2 rfl
          · refine inIvsB_true_iff.2 ⟨(b.2, q.2), ?_, by dsimp; omega, hc2⟩
            refine List.mem_append.2 (Or.inl (List.mem_append.2 (Or.inr ?_)))
            rw [if_pos (by omega)]
            exact List.mem_singleton.2 rfl
        · have hov' : ivOverlaps q b = false := by
            revert hov
            cases ivOverlaps q b <;> simp
          rw [if_pos (by simp [hov'])]
          exact inIvsB_true_iff.2
            ⟨q, List.mem_append.2 (Or.inl (List.mem_singleton.2 rfl)), hc1, hc2⟩
      · have hrest : inIvsB rest p = true := inIvsB_true_iff.2 ⟨w0, hw0, hc1, hc2⟩
        rcases inIvsB_true_iff.1 (ihp.2 ⟨hrest, hnb⟩) with ⟨w, hw, hcw⟩
        exact inIvsB_true_iff.2 ⟨w, List.mem_append.2 (Or.inr hw), hcw⟩

/-! ## Lemmas for claim C3: alignment plumbing. -/

lemma resCoverB_true_iff {rs : List Reservation} {p : Nat} :
    resCoverB rs p = true ↔ ∃ r ∈ rs, r.start ≤ p ∧ p < r.stop := by
  unfold resCoverB
  rw [List.any_eq_true]
  constructor
  · rintro ⟨r, hr, hc⟩
    simp only [Bool.and_eq_true, decide_eq_true_eq] at hc
    exact ⟨r, hr, hc⟩
  · rintro ⟨r, hr, h1, h2⟩
    exact ⟨r, hr, by simp [h1, h2]⟩

lemma resCoverB_false_iff {rs : List Reservation} {p : Nat} :
    resCoverB rs p = false ↔ ∀ r ∈ rs, ¬(r.start ≤ p ∧ p < r.stop) := by
  rw [← Bool.not_eq_true, resCoverB_true_iff]
  constructor
  · intro h r hr hc
    exact h ⟨r, hr, hc⟩
  · rintro h ⟨r, hr, hc⟩
    exact h r hr hc

lemma mwCoversB_true_iff {mws : List MaintenanceWindow} {p : Nat} :
    mwCoversB mws p = true ↔ ∃ mw ∈ mws, mw.startDate ≤ p ∧ p < mw.endDate := by
  unfold mwCoversB
  rw [List.any_eq_true]
  constructor
  · rintro ⟨mw, hmw, hc⟩
    simp only [Bool.and_eq_true, decide_eq_true_eq] at hc
    exact ⟨mw, hmw, hc⟩
  · rintro ⟨mw, hmw, h1, h2⟩
    exact ⟨mw, hmw, by simp [h1, h2]⟩

lemma minute_dvd_day {d : Nat} (hd : d % dayMs = 0) : d % minuteMs = 0 := by
  unfold dayMs at hd
  unfold minuteMs
  omega

lemma startOfDay_minute (t : Nat) : startOfDay t % minuteMs = 0 :=
  minute_dvd_day (startOfDay_mod t)

lemma hour_offset_minute {d h : Nat} (hd : d % minuteMs = 0) :
    (d + h * hourMs) % minuteMs = 0 := by
  unfold hourMs minuteMs at *
  omega

lemma findInWindows_some_eq {l : List (Nat × Nat)} {c r : Nat}
    (h : findInWindows l c = some r) : r = c ∨ ∃ w ∈ l, r = w.1 := by
  induction l with
  | nil => cases h
  | cons w rest ih =>
    obtain ⟨ws, we⟩ := w
    simp only [findInWindows] at h
    split at h
    · injection h with h2
      exact Or.inr ⟨(ws, we), List.mem_cons_self _ _, h2.symm⟩
    · split at h
      · injection h with h2
        exact Or.inl h2.symm
      · rcases ih h with hc | ⟨w', hw', he⟩
        · exact Or.inl hc
        · exact Or.inr ⟨w', List.mem_cons_of_mem _ hw', he⟩

lemma snapGo_aligned {shifts : List Shift} {fuel cursor r : Nat}
    (hc : cursor % minuteMs = 0) (h : snapGo shifts fuel cursor = .ok r) :
    r % minuteMs = 0 := by
  induction fuel generalizing cursor with
  | zero => cases h
  | succ fuel ih =>
    have hnext : (startOfDay cursor + dayMs) % minuteMs = 0 := by
      have := startOfDay_minute cursor
      unfold minuteMs dayMs at *
      omega
    simp only [snapGo] at h
    split at h
    · cases h
    · rename_i windows hw
      split at h
      · exact ih hnext h
      · split at h
        · rename_i r' hf
          cases h
          rcases findInWindows_some_eq hf with rfl | ⟨w, hwmem, rfl⟩
          · exact hc
          · rcases windows_shift hw w (mem_sortWindows.1 hwmem) with ⟨s, _, _, hweq, _⟩
            rw [hweq]
            exact hour_offset_minute (startOfDay_minute cursor)
        · exact ih hnext h

/-! ## Lemmas for claim C3: the `subtractIntervals` fold. -/

lemma sep_imp_startle :
    ∀ {l : List (Nat × Nat)}, l.Pairwise (fun a b => a.2 ≤ b.1) →
    (∀ w ∈ l, w.1 < w.2) → l.Pairwise (fun a b => a.1 ≤ b.1) := by
  intro l hsep hv
  induction l with
  | nil => exact List.Pairwise.nil
  | cons q rest ih =>
    rcases List.pairwise_cons.1 hsep with ⟨hq, hsep'⟩
    have hqv := hv q (List.mem_cons_self _ _)
    refine List.pairwise_cons.2 ⟨?_, ih hsep' (fun w hw => hv w (List.mem_cons_of_mem _ hw))⟩
    intro b hb
    have := hq b hb
    omega

lemma subtractBlock_sep :
    ∀ (parts : List (Nat × Nat)) (b : Nat × Nat),
    parts.Pairwise (fun a b => a.2 ≤ b.1) →
    (subtractBlock parts b).Pairwise (fun a b => a.2 ≤ b.1) := by
  intro parts b hsep
  induction parts with
  | nil => exact List.Pairwise.nil
  | cons q rest ih =>
    rcases List.pairwise_cons.1 hsep with ⟨hq, hsep'⟩
    have hstep : subtractBlock (q :: rest) b =
        (if !ivOverlaps q b then [q]
         else (if q.1 < b.1 then [(q.1, b.1)] else []) ++
           (if b.2 < q.2 then [(b.2, q.2)] else [])) ++ subtractBlock rest b := by
      unfold subtractBlock
      rw [List.flatMap_cons]
    have hhi : ∀ x ∈ (if !ivOverlaps q b then [q]
        else (if q.1 < b.1 then [(q.1, b.1)] else []) ++
          (if b.2 < q.2 then [(b.2, q.2)] else [])), x.2 ≤ q.2 := by
      intro x hx
      split at hx
      · rcases List.mem_singleton.1 hx with rfl
        exact le_refl _
      · rename_i hov
        have hov' : ivOverlaps q b = true := by
          revert hov
          cases ivOverlaps q b <;> simp
        unfold ivOverlaps at hov'
        simp only [Bool.and_eq_true, decide_eq_true_eq] at hov'
        rcases List.mem_append.1 hx with hx | hx
        · split at hx
          · rcases List.mem_singleton.1 hx with rfl
            dsimp
            omega
          · cases hx
        · split at hx
          · rcases List.mem_singleton.1 hx with rfl
            exact le_refl _
          · cases hx
    rw [hstep]
    rw [List.pairwise_append]
    refine ⟨?_, ih hsep', ?_⟩
    · split
      · simp
      · rename_i hov
        have hov' : ivOverlaps q b = true := by
          revert hov
          cases ivOverlaps q b <;> simp
        unfold ivOverlaps at hov'
        simp only [Bool.and_eq_true, decide_eq_true_eq] at hov'
        split
        · split
          · refine List.pairwise_cons.2 ⟨?_, by simp⟩
            intro y hy
            rcases List.mem_singleton.1 hy with rfl
            dsimp
            omega
          · simp
        · split
          · simp
          · simp
    · intro x hx y hy
      have hx2 := hhi x hx
      rcases subtractBlock_sub rest b y hy with ⟨w, hw, hw1, _⟩
      have := hq w hw
      omega

lemma subtractFold_valid :
    ∀ (bs : List (Nat × Nat)) (parts : List (Nat × Nat)),
    (∀ w ∈ parts, w.1 < w.2) →
    ∀ x ∈ bs.foldl subtractBlock parts, x.1 < x.2 := by
  intro bs
  induction bs with
  | nil => intro parts hv x hx; exact hv x hx
  | cons b rest ih =>
    intro parts hv x hx
    exact ih (subtractBlock parts b) (subtractBlock_valid parts b hv) x hx

lemma subtractFold_sep :
    ∀ (bs : List (Nat × Nat)) (parts : List (Nat × Nat)),
    parts.Pairwise (fun a b => a.2 ≤ b.1) →
    (bs.foldl subtractBlock parts).Pairwise (fun a b => a.2 ≤ b.1) := by
  intro bs
  induction bs with
  | nil => intro parts hsep; exact hsep
  | cons b rest ih =>
    intro parts hsep
    exact ih (subtractBlock parts b) (subtractBlock_sep parts b hsep)

lemma subtractFold_align :
    ∀ (bs : List (Nat × Nat)) (parts : List (Nat × Nat)),
    (∀ w ∈ parts, w.1 % minuteMs = 0 ∧ w.2 % minuteMs = 0) →
    (∀ b ∈ bs, b.1 % minuteMs = 0 ∧ b.2 % minuteMs = 0) →
    ∀ x ∈ bs.foldl subtractBlock parts, x.1 % minuteMs = 0 ∧ x.2 % minuteMs = 0 := by
  intro bs
  induction bs with
  | nil => intro parts ha _ x hx; exact ha x hx
  | cons b rest ih =>
    intro parts ha hb x hx
    have hbh := hb b (List.mem_cons_self _ _)
    exact ih (subtractBlock parts b)
      (subtractBlock_align parts b ha hbh.1 hbh.2)
      (fun b' hb' => hb b' (List.mem_cons_of_mem _ hb')) x hx

lemma subtractFold_sub :
    ∀ (bs : List (Nat × Nat)) (parts : List (Nat × Nat)),
    ∀ x ∈ bs.foldl subtractBlock parts, ∃ q ∈ parts, q.1 ≤ x.1 ∧ x.2 ≤ q.2 := by
  intro bs
  induction bs with
  | nil => intro parts x hx; exact ⟨x, hx, le_refl _, le_refl _⟩
  | cons b rest ih =>
    intro parts x hx
    rcases ih (subtractBlock parts b) x hx with ⟨q, hq, hq1, hq2⟩
    rcases subtractBlock_sub parts b q hq with ⟨q', hq', hq1', hq2'⟩
    exact ⟨q', hq', by omega, by omega⟩

lemma subtractFold_points :
    ∀ (bs : List (Nat × Nat)) (parts : List (Nat × Nat)),
    (∀ w ∈ parts, w.1 < w.2) →
    ∀ p, inIvsB (bs.foldl subtractBlock parts) p = true ↔
      (inIvsB parts p = true ∧ ∀ b ∈ bs, ¬(b.1 ≤ p ∧ p < b.2)) := by
  intro bs
  induction bs with
  | nil =>
    intro parts _ p
    simp only [List.foldl_nil]
    constructor
    · intro h
      exact ⟨h, by simp⟩
    · intro h
      exact h.1
  | cons b rest ih =>
    intro parts hv p
    simp only [List.foldl_cons]
    rw [ih (subtractBlock parts b) (subtractBlock_valid parts b hv) p,
      subtractBlock_points parts b hv p]
    constructor
    · rintro ⟨⟨h1, h2⟩, h3⟩
      refine ⟨h1, ?_⟩
      intro b' hb'
      rcases List.mem_cons.1 hb' with rfl | hb'
      · exact h2
      · exact h3 b' hb'
    · rintro ⟨h1, h2⟩
      exact ⟨⟨h1, h2 b (List.mem_cons_self _ _)⟩,
        fun b' hb' => h2 b' (List.mem_cons_of_mem _ hb')⟩

lemma subtractIntervals_eq_fold {base : Nat × Nat} {blocks : List (Nat × Nat)}
    (hv : base.1 < base.2) :
    subtractIntervals base blocks = blocks.foldl subtractBlock [base] := by
  have hvb : ∀ w ∈ [base], w.1 < w.2 := by
    intro w hw
    rcases List.mem_singleton.1 hw with rfl
    exact hv
  have hsep : ([base] : List (Nat × Nat)).Pairwise (fun a b => a.2 ≤ b.1) := by simp
  have hsorted := sep_imp_startle (subtractFold_sep blocks [base] hsep)
    (subtractFold_valid blocks [base] hvb)
  unfold subtractIntervals sortWindows
  exact stableSortBy_of_sorted (fun w : Nat × Nat => w.1) hsorted

lemma subtractIntervals_spec {base : Nat × Nat} {blocks : List (Nat × Nat)}
    (hv : base.1 < base.2) :
    (subtractIntervals base blocks).Pairwise (fun a b => a.2 ≤ b.1) ∧
    (∀ x ∈ subtractIntervals base blocks, x.1 < x.2) ∧
    (∀ x ∈ subtractIntervals base blocks, base.1 ≤ x.1 ∧ x.2 ≤ base.2) ∧
    ∀ p, inIvsB (subtractIntervals base blocks) p = true ↔
      ((base.1 ≤ p ∧ p < base.2) ∧ ∀ b ∈ blocks, ¬(b.1 ≤ p ∧ p < b.2)) := by
  have hvb : ∀ w ∈ [base], w.1 < w.2 := by
    intro w hw
    rcases List.mem_singleton.1 hw with rfl
    exact hv
  have hsep : ([base] : List (Nat × Nat)).Pairwise (fun a b => a.2 ≤ b.1) := by simp
  rw [subtractIntervals_eq_fold hv]
  refine ⟨subtractFold_sep blocks [base] hsep, subtractFold_valid blocks [base] hvb,
    ?_, ?_⟩
  · intro x hx
    rcases subtractFold_sub blocks [base] x hx with ⟨q, hq, h1, h2⟩
    rcases List.mem_singleton.1 hq with rfl
    exact ⟨h1, h2⟩
  · intro p
    rw [subtractFold_points blocks [base] hvb p]
    constructor
    · rintro ⟨h1, h2⟩
      rcases inIvsB_true_iff.1 h1 with ⟨w, hw, hc⟩
      rcases List.mem_singleton.1 hw with rfl
      exact ⟨hc, h2⟩
    · rintro ⟨h1, h2⟩
      exact ⟨inIvsB_true_iff.2 ⟨base, List.mem_singleton.2 rfl, h1⟩, h2⟩

lemma subtractIntervals_align {base : Nat × Nat} {blocks : List (Nat × Nat)}
    (hv : base.1 < base.2)
    (hb : base.1 % minuteMs = 0 ∧ base.2 % minuteMs = 0)
    (hbl : ∀ b ∈ blocks, b.1 % minuteMs = 0 ∧ b.2 % minuteMs = 0) :
    ∀ x ∈ subtractIntervals base blocks, x.1 % minuteMs = 0 ∧ x.2 % minuteMs = 0 := by
  rw [subtractIntervals_eq_fold hv]
  refine subtractFold_align blocks [base] ?_ hbl
  intro w hw
  rcases List.mem_singleton.1 hw with rfl
  exact hb

/-! ## Lemmas for claim C3: the per-day window sweep `calcDay`. -/

lemma blocksToday_free {blocks : List Reservation} {base : Nat × Nat}
    {p : Nat} (hp1 : base.1 ≤ p) (hp2 : p < base.2) :
    (∀ b ∈ sortWindows ((blocks.map fun r => (r.start, r.stop)).filter
        fun b => ivOverlaps b base), ¬(b.1 ≤ p ∧ p < b.2)) ↔
      resCoverB blocks p = false := by
  constructor
  · intro hfree
    rw [resCoverB_false_iff]
    intro r hr hc
    have hov : ivOverlaps (r.start, r.stop) base = true := by
      unfold ivOverlaps
      simp only [Bool.and_eq_true, decide_eq_true_eq]
      omega
    have hmem : (r.start, r.stop) ∈ sortWindows
        ((blocks.map fun r => (r.start, r.stop)).filter fun b => ivOverlaps b base) :=
      mem_sortWindows.2 (List.mem_filter.2 ⟨List.mem_map.2 ⟨r, hr, rfl⟩, hov⟩)
    exact hfree _ hmem ⟨hc.1, hc.2⟩
  · intro hrc b hb hc
    rcases List.mem_filter.1 (mem_sortWindows.1 hb) with ⟨hbm, _⟩
    rcases List.mem_map.1 hbm with ⟨r, hr, rfl⟩
    exact resCoverB_false_iff.1 hrc r hr ⟨hc.1, hc.2⟩

lemma blocksToday_align {blocks : List Reservation} {base : Nat × Nat}
    (hbl : ∀ r ∈ blocks, r.start % minuteMs = 0 ∧ r.stop % minuteMs = 0) :
    ∀ b ∈ sortWindows ((blocks.map fun r => (r.start, r.stop)).filter
        fun b => ivOverlaps b base), b.1 % minuteMs = 0 ∧ b.2 % minuteMs = 0 := by
  intro b hb
  rcases List.mem_filter.1 (mem_sortWindows.1 hb) with ⟨hbm, _⟩
  rcases List.mem_map.1 hbm with ⟨r, hr, rfl⟩
  exact hbl r hr

lemma calcDay_prefix_zero {blocks : List Reservation} {w1s w1e : Nat}
    {rest : List (Nat × Nat)}
    (hsort : ((w1s, w1e) :: rest).Pairwise (fun a b => a.1 ≤ b.1)) (cursor : Nat) :
    cntB (fun p => inIvsB ((w1s, w1e) :: rest) p && !resCoverB blocks p)
      cursor (max cursor w1s) = 0 := by
  rcases List.pairwise_cons.1 hsort with ⟨hq, _⟩
  apply cntB_zero
  intro p hp1 hp2
  have hpw : p < w1s := by omega
  have hfalse : inIvsB ((w1s, w1e) :: rest) p = false := by
    rw [inIvsB_cons, decide_eq_false (by omega : ¬ w1s ≤ p), Bool.false_and,
      Bool.false_or, inIvsB_false_iff]
    intro w' hw' hc
    have := hq w' hw'
    dsimp at this
    omega
  rw [hfalse, Bool.false_and]

lemma calcDay_tail_congr {blocks : List Reservation} {w1s w1e : Nat}
    {rest : List (Nat × Nat)} {lo hi : Nat} (hlo : w1e ≤ lo) :
    cntB (fun p => inIvsB ((w1s, w1e) :: rest) p && !resCoverB blocks p) lo hi =
      cntB (fun p => inIvsB rest p && !resCoverB blocks p) lo hi := by
  apply cntB_congr
  intro p hp1 hp2
  rw [inIvsB_cons, decide_eq_false (by omega : ¬ p < w1e), Bool.and_false,
    Bool.false_or]

lemma calcDay_window_congr {blocks : List Reservation} {w1s w1e cursor : Nat}
    {rest : List (Nat × Nat)} (hcw : cursor < w1e) (hws : w1s < w1e)
    {lo hi : Nat} (hlo : max cursor w1s ≤ lo) (hhi : hi ≤ w1e) :
    cntB (inIvsB (subtractIntervals (max cursor w1s, w1e)
        (sortWindows ((blocks.map fun r => (r.start, r.stop)).filter
          fun b => ivOverlaps b (max cursor w1s, w1e))))) lo hi =
      cntB (fun p => inIvsB ((w1s, w1e) :: rest) p && !resCoverB blocks p) lo hi := by
  have hv : (max cursor w1s, w1e).1 < (max cursor w1s, w1e).2 := by
    dsimp
    omega
  apply cntB_congr
  intro p hp1 hp2
  have hp1' : max cursor w1s ≤ p := by omega
  have hp2' : p < w1e := by omega
  have hcover : inIvsB ((w1s, w1e) :: rest) p = true := by
    rw [inIvsB_cons, decide_eq_true (by omega : w1s ≤ p),
      decide_eq_true (by omega : p < w1e)]
    rfl
  rw [hcover, Bool.true_and]
  have hiff := (@subtractIntervals_spec (max cursor w1s, w1e)
    (sortWindows ((blocks.map fun r => (r.start, r.stop)).filter
      fun b => ivOverlaps b (max cursor w1s, w1e))) hv).2.2.2 p
  have hfreeiff := @blocksToday_free blocks (max cursor w1s, w1e) p hp1' hp2'
  cases hpt : inIvsB (subtractIntervals (max cursor w1s, w1e)
      (sortWindows ((blocks.map fun r => (r.start, r.stop)).filter
        fun b => ivOverlaps b (max cursor w1s, w1e)))) p with
  | false =>
    cases hrc : resCoverB blocks p with
    | false =>
      exfalso
      have hfree := hfreeiff.2 hrc
      have := hiff.2 ⟨⟨hp1', hp2'⟩, hfree⟩
      rw [hpt] at this
      cases this
    | true => rfl
  | true =>
    rcases hiff.1 hpt with ⟨_, hfree⟩
    rw [hfreeiff.1 hfree]
    rfl

lemma calcDay_inl_count {blocks : List Reservation} :
    ∀ (ws : List (Nat × Nat)) (cursor rem endMs : Nat),
    ws.Pairwise (fun a b => a.1 ≤ b.1) →
    (∀ w ∈ ws, w.1 < w.2) →
    (∀ w ∈ ws, w.1 % minuteMs = 0 ∧ w.2 % minuteMs = 0) →
    cursor % minuteMs = 0 →
    (∀ r ∈ blocks, r.start % minuteMs = 0 ∧ r.stop % minuteMs = 0) →
    calcDay blocks ws cursor rem = .inl endMs →
    cursor ≤ endMs ∧ endMs % minuteMs = 0 ∧
    (∀ hi, (∀ w ∈ ws, w.2 ≤ hi) → endMs ≤ hi) ∧
    cntB (fun p => inIvsB ws p && !resCoverB blocks p) cursor endMs =
      rem * minuteMs := by
  intro ws
  induction ws with
  | nil =>
    intro cursor rem endMs _ _ _ _ _ h
    cases h
  | cons w rest ih =>
    intro cursor rem endMs hsort hvalid halign hcal hbal h
    obtain ⟨w1s, w1e⟩ := w
    have hwv : w1s < w1e := hvalid (w1s, w1e) (List.mem_cons_self _ _)
    have hwal := halign (w1s, w1e) (List.mem_cons_self _ _)
    rcases List.pairwise_cons.1 hsort with ⟨hq, hsort'⟩
    simp only [calcDay] at h
    split at h
    · rename_i hskip
      rcases ih cursor rem endMs hsort'
        (fun w hw => hvalid w (List.mem_cons_of_mem _ hw))
        (fun w hw => halign w (List.mem_cons_of_mem _ hw)) hcal hbal h with
        ⟨h1, h2, h3, h4⟩
      refine ⟨h1, h2, fun hi hhi => h3 hi
        (fun w hw => hhi w (List.mem_cons_of_mem _ hw)), ?_⟩
      rw [calcDay_tail_congr (by omega : w1e ≤ cursor)]
      exact h4
    · rename_i hcw
      have hcw' : cursor < w1e := by omega
      have hmaxal : max cursor w1s % minuteMs = 0 := by
        rw [Nat.max_def]
        split
        · exact hwal.1
        · exact hcal
      have hbasev : ((max cursor w1s, w1e) : Nat × Nat).1 <
          ((max cursor w1s, w1e) : Nat × Nat).2 := by
        dsimp
        omega
      have hspec := @subtractIntervals_spec (max cursor w1s, w1e)
        (sortWindows ((blocks.map fun r => (r.start, r.stop)).filter
          fun b => ivOverlaps b (max cursor w1s, w1e))) hbasev
      have hpal := subtractIntervals_align hbasev ⟨hmaxal, hwal.2⟩
        (@blocksToday_align blocks (max cursor w1s, w1e) hbal)
      split at h
      · rename_i e0 hcons
        cases h
        rcases consumeParts_inl_count _ rem endMs hspec.1 hspec.2.1 hpal hcons with
          ⟨hmain, he0al, hhib⟩
        rcases hmain (max cursor w1s)
          (fun w hw => (hspec.2.2.1 w hw).1) with ⟨hwse, hcnt⟩
        have he0hi : endMs ≤ w1e := hhib w1e (fun w hw => (hspec.2.2.1 w hw).2)
        refine ⟨by omega, he0al, fun hi hhi => by
          have := hhi (w1s, w1e) (List.mem_cons_self _ _)
          dsimp at this
          omega, ?_⟩
        rw [cntB_split (by omega : cursor ≤ max cursor w1s) hwse,
          calcDay_prefix_zero hsort cursor,
          ← @calcDay_window_congr blocks w1s w1e cursor rest hcw' hwv
            (max cursor w1s) endMs (le_refl _) he0hi, hcnt]
        omega
      · rename_i rem'' hcons
        rcases consumeParts_inr_count _ rem rem'' hspec.1 hspec.2.1 hpal hcons with
          ⟨hremle, hcnt⟩
        rcases ih w1e rem'' endMs hsort'
          (fun w hw => hvalid w (List.mem_cons_of_mem _ hw))
          (fun w hw => halign w (List.mem_cons_of_mem _ hw)) hwal.2 hbal h with
          ⟨h1, h2, h3, h4⟩
        have hmaxle : max cursor w1s ≤ w1e := by omega
        refine ⟨by omega, h2, fun hi hhi => h3 hi
          (fun w hw => hhi w (List.mem_cons_of_mem _ hw)), ?_⟩
        rw [cntB_split (by omega : cursor ≤ w1e) (by omega : w1e ≤ endMs),
          cntB_split (by omega : cursor ≤ max cursor w1s) hmaxle,
          calcDay_prefix_zero hsort cursor,
          ← @calcDay_window_congr blocks w1s w1e cursor rest hcw' hwv
            (max cursor w1s) w1e (le_refl _) (le_refl _),
          hcnt (max cursor w1s) w1e (fun w hw => (hspec.2.2.1 w hw).1)
            (fun w hw => (hspec.2.2.1 w hw).2) hmaxle,
          calcDay_tail_congr (by omega : w1e ≤ w1e), h4]
        have hle1 : rem'' * minuteMs ≤ rem * minuteMs :=
          Nat.mul_le_mul_right _ hremle
        rw [Nat.sub_mul]
        omega

lemma calcDay_inr_count {blocks : List Reservation} :
    ∀ (ws : List (Nat × Nat)) (cursor rem cf rem' : Nat),
    ws.Pairwise (fun a b => a.1 ≤ b.1) →
    (∀ w ∈ ws, w.1 < w.2) →
    (∀ w ∈ ws, w.1 % minuteMs = 0 ∧ w.2 % minuteMs = 0) →
    cursor % minuteMs = 0 →
    (∀ r ∈ blocks, r.start % minuteMs = 0 ∧ r.stop % minuteMs = 0) →
    calcDay blocks ws cursor rem = .inr (cf, rem') →
    rem' ≤ rem ∧
    ∀ hi, (∀ w ∈ ws, w.2 ≤ hi) → cursor ≤ hi →
      cntB (fun p => inIvsB ws p && !resCoverB blocks p) cursor hi =
        (rem - rem') * minuteMs := by
  intro ws
  induction ws with
  | nil =>
    intro cursor rem cf rem' _ _ _ _ _ h
    simp only [calcDay] at h
    injection h with h2
    injection h2 with h3 h4
    subst h3
    subst h4
    refine ⟨le_refl _, ?_⟩
    intro hi _ _
    rw [Nat.sub_self, Nat.zero_mul]
    apply cntB_zero
    intro p _ _
    have : inIvsB ([] : List (Nat × Nat)) p = false := rfl
    rw [this, Bool.false_and]
  | cons w rest ih =>
    intro cursor rem cf rem' hsort hvalid halign hcal hbal h
    obtain ⟨w1s, w1e⟩ := w
    have hwv : w1s < w1e := hvalid (w1s, w1e) (List.mem_cons_self _ _)
    have hwal := halign (w1s, w1e) (List.mem_cons_self _ _)
    rcases List.pairwise_cons.1 hsort with ⟨hq, hsort'⟩
    simp only [calcDay] at h
    split at h
    · rename_i hskip
      rcases ih cursor rem cf rem' hsort'
        (fun w hw => hvalid w (List.mem_cons_of_mem _ hw))
        (fun w hw => halign w (List.mem_cons_of_mem _ hw)) hcal hbal h with ⟨h1, h2⟩
      refine ⟨h1, ?_⟩
      intro hi hhi hch
      rw [calcDay_tail_congr (by omega : w1e ≤ cursor)]
      exact h2 hi (fun w hw => hhi w (List.mem_cons_of_mem _ hw)) hch
    · rename_i hcw
      have hcw' : cursor < w1e := by omega
      have hmaxal : max cursor w1s % minuteMs = 0 := by
        rw [Nat.max_def]
        split
        · exact hwal.1
        · exact hcal
      have hbasev : ((max cursor w1s, w1e) : Nat × Nat).1 <
          ((max cursor w1s, w1e) : Nat × Nat).2 := by
        dsimp
        omega
      have hspec := @subtractIntervals_spec (max cursor w1s, w1e)
        (sortWindows ((blocks.map fun r => (r.start, r.stop)).filter
          fun b => ivOverlaps b (max cursor w1s, w1e))) hbasev
      have hpal := subtractIntervals_align hbasev ⟨hmaxal, hwal.2⟩
        (@blocksToday_align blocks (max cursor w1s, w1e) hbal)
      split at h
      · cases h
      · rename_i rem'' hcons
        rcases consumeParts_inr_count _ rem rem'' hspec.1 hspec.2.1 hpal hcons with
          ⟨hremle, hcnt⟩
        rcases ih w1e rem'' cf rem' hsort'
          (fun w hw => hvalid w (List.mem_cons_of_mem _ hw))
          (fun w hw => halign w (List.mem_cons_of_mem _ hw)) hwal.2 hbal h with
          ⟨h1, h2⟩
        have hmaxle : max cursor w1s ≤ w1e := by omega
        refine ⟨by omega, ?_⟩
        intro hi hhi hch
        have hw1ehi : w1e ≤ hi := by
          have := hhi (w1s, w1e) (List.mem_cons_self _ _)
          dsimp at this
          omega
        rw [cntB_split (by omega : cursor ≤ w1e) hw1ehi,
          cntB_split (by omega : cursor ≤ max cursor w1s) hmaxle,
          calcDay_prefix_zero hsort cursor,
          ← @calcDay_window_congr blocks w1s w1e cursor rest hcw' hwv
            (max cursor w1s) w1e (le_refl _) (le_refl _),
          hcnt (max cursor w1s) w1e (fun w hw => (hspec.2.2.1 w hw).1)
            (fun w hw => (hspec.2.2.1 w hw).2) hmaxle,
          calcDay_tail_congr (by omega : w1e ≤ w1e),
          h2 hi (fun w hw => hhi w (List.mem_cons_of_mem _ hw)) (by omega)]
        have hle1 : rem'' * minuteMs ≤ rem * minuteMs :=
          Nat.mul_le_mul_right _ hremle
        have hle2 : rem' * minuteMs ≤ rem'' * minuteMs :=
          Nat.mul_le_mul_right _ h1
        rw [Nat.sub_mul, Nat.sub_mul, Nat.sub_mul]
        omega

/-! ## Lemmas for claim C3: from window counts to `InShift` counts. -/

lemma windows_day_facts {day : Nat} {shifts : List Shift} {windows : List (Nat × Nat)}
    (hd : day % dayMs = 0) (heh : ∀ s ∈ shifts, s.endHour ≤ 23)
    (hw : shiftWindowsForDay day shifts = .ok windows) :
    (∀ w ∈ sortWindows windows, w.1 < w.2) ∧
    (∀ w ∈ sortWindows windows, w.1 % minuteMs = 0 ∧ w.2 % minuteMs = 0) ∧
    (∀ w ∈ sortWindows windows, w.2 ≤ day + dayMs) := by
  have hmin := minute_dvd_day hd
  refine ⟨?_, ?_, ?_⟩ <;> intro w hwmem <;>
    rcases windows_shift hw w (mem_sortWindows.1 hwmem) with ⟨s, hs, _, hweq, hv⟩
  · exact hv
  · rw [hweq]
    exact ⟨hour_offset_minute hmin, hour_offset_minute hmin⟩
  · have := heh s hs
    rw [hweq]
    dsimp
    unfold hourMs dayMs
    have hb : s.endHour * 3600000 ≤ 23 * 3600000 := Nat.mul_le_mul_right _ this
    omega

lemma InShift_iff_windows {day : Nat} {shifts : List Shift} {windows : List (Nat × Nat)}
    (hd : day % dayMs = 0) (hw : shiftWindowsForDay day shifts = .ok windows) :
    ∀ p, day ≤ p → p < day + dayMs →
      (InShift shifts p ↔ inIvsB (sortWindows windows) p = true) := by
  intro p hp1 hp2
  have hpday : startOfDay p = day := startOfDay_eq_of_between hd hp1 hp2
  have hdow : luxonDowToSpecDayOfWeek p = luxonDowToSpecDayOfWeek day :=
    dow_eq_of_sameDay (by rw [hpday, startOfDay_of_aligned hd])
  constructor
  · rintro ⟨s, hs, hsdow, hb1, hb2⟩
    have hsdow' : s.dayOfWeek = luxonDowToSpecDayOfWeek day := by
      rw [hsdow, hdow]
    have hmem := mem_sortWindows.2 (windows_complete hw s hs hsdow')
    refine inIvsB_true_iff.2 ⟨_, hmem, ?_, ?_⟩
    · dsimp
      rw [hpday] at hb1
      omega
    · dsimp
      rw [hpday] at hb2
      omega
  · intro hin
    rcases inIvsB_true_iff.1 hin with ⟨w, hwmem, hc1, hc2⟩
    rcases windows_shift hw w (mem_sortWindows.1 hwmem) with ⟨s, hs, hsdow, hweq, _⟩
    refine ⟨s, hs, by rw [hdow]; exact hsdow, ?_, ?_⟩
    · rw [hpday]
      rw [hweq] at hc1
      exact hc1
    · rw [hpday]
      rw [hweq] at hc2
      exact hc2

lemma decide_InShift_eq {day : Nat} {shifts : List Shift} {windows : List (Nat × Nat)}
    (hd : day % dayMs = 0) (hw : shiftWindowsForDay day shifts = .ok windows)
    {p : Nat} (hp1 : day ≤ p) (hp2 : p < day + dayMs) :
    decide (InShift shifts p) = inIvsB (sortWindows windows) p := by
  have hiff := InShift_iff_windows hd hw p hp1 hp2
  cases hpt : inIvsB (sortWindows windows) p with
  | false =>
    refine decide_eq_false ?_
    intro hin
    have := hiff.1 hin
    rw [hpt] at this
    cases this
  | true => exact decide_eq_true (hiff.2 hpt)

lemma calcGo_count {shifts : List Shift} {blocks : List Reservation}
    (heh : ∀ s ∈ shifts, s.endHour ≤ 23)
    (hbal : ∀ r ∈ blocks, r.start % minuteMs = 0 ∧ r.stop % minuteMs = 0) :
    ∀ (fuel cursor rem endMs : Nat),
    cursor % minuteMs = 0 →
    calcGo shifts blocks fuel cursor rem = .ok endMs →
    cursor ≤ endMs ∧ endMs % minuteMs = 0 ∧
    cntB (fun p => decide (InShift shifts p) && !resCoverB blocks p) cursor endMs =
      rem * minuteMs := by
  intro fuel
  induction fuel with
  | zero =>
    intro cursor rem endMs _ h
    cases h
  | succ fuel ih =>
    intro cursor rem endMs hcal h
    have hd : startOfDay cursor % dayMs = 0 := startOfDay_mod cursor
    have hdle : startOfDay cursor ≤ cursor := startOfDay_le cursor
    have hdlt : cursor < startOfDay cursor + dayMs := lt_startOfDay_add cursor
    have hnal : (startOfDay cursor + dayMs) % minuteMs = 0 := by
      have h0 := startOfDay_minute cursor
      unfold minuteMs at h0 ⊢
      unfold dayMs
      omega
    simp only [calcGo] at h
    split at h
    · cases h
    · rename_i windows hw
      split at h
      · rename_i hemp
        have hnil : windows = [] := by simpa using hemp
        subst hnil
        split at h
        · cases h
        · rename_i cursor' hsnap
          have hcal' : cursor' % minuteMs = 0 := snapGo_aligned hnal hsnap
          rcases ih cursor' rem endMs hcal' h with ⟨h1, h2, h3⟩
          have hge := snapGo_ge hsnap
          rcases snapGo_ok_spec heh hsnap with ⟨_, _, hleast⟩
          have hzero : cntB (fun p => decide (InShift shifts p) &&
              !resCoverB blocks p) cursor cursor' = 0 := by
            apply cntB_zero
            intro p hp1 hp2
            have hnin : ¬ InShift shifts p := by
              by_cases hpd : p < startOfDay cursor + dayMs
              · exact no_inshift_on_day hw (by simp) p hp1 hpd
              · exact hleast p (by omega) hp2
            rw [decide_eq_false hnin, Bool.false_and]
          refine ⟨by omega, h2, ?_⟩
          rw [cntB_split (by omega : cursor ≤ cursor') h1, hzero, h3]
          omega
      · rename_i hemp
        rcases windows_day_facts hd heh hw with ⟨hwv, hwal, hwhi⟩
        split at h
        · rename_i e0 hday
          cases h
          rcases calcDay_inl_count (sortWindows windows) cursor rem endMs
            (sortWindows_pairwise windows) hwv hwal hcal hbal hday with
            ⟨h1, h2, h3, h4⟩
          have hehi : endMs ≤ startOfDay cursor + dayMs := h3 _ hwhi
          refine ⟨h1, h2, ?_⟩
          rw [← h4]
          apply cntB_congr
          intro p hp1 hp2
          rw [decide_InShift_eq hd hw (by omega) (by omega)]
        · rename_i c0 rem2 hday
          split at h
          · cases h
          · rename_i cursor' hsnap
            have hcal' : cursor' % minuteMs = 0 := snapGo_aligned hnal hsnap
            rcases ih cursor' rem2 endMs hcal' h with ⟨h1, h2, h3⟩
            have hge := snapGo_ge hsnap
            rcases snapGo_ok_spec heh hsnap with ⟨_, _, hleast⟩
            rcases calcDay_inr_count (sortWindows windows) cursor rem c0 rem2
              (sortWindows_pairwise windows) hwv hwal hcal hbal hday with
              ⟨hrle, hcnt⟩
            have hdaycnt := hcnt (startOfDay cursor + dayMs) hwhi (by omega)
            have hzero : cntB (fun p => decide (InShift shifts p) &&
                !resCoverB blocks p) (startOfDay cursor + dayMs) cursor' = 0 := by
              apply cntB_zero
              intro p hp1 hp2
              rw [decide_eq_false (hleast p hp1 hp2), Bool.false_and]
            refine ⟨by omega, h2, ?_⟩
            rw [cntB_split (by omega : cursor ≤ startOfDay cursor + dayMs)
                (by omega : startOfDay cursor + dayMs ≤ endMs),
              cntB_split (by omega : startOfDay cursor + dayMs ≤ cursor')
                (by omega : cursor' ≤ endMs), hzero, h3]
            have hcongr : cntB (fun p => decide (InShift shifts p) &&
                !resCoverB blocks p) cursor (startOfDay cursor + dayMs) =
                (rem - rem2) * minuteMs := by
              rw [← hdaycnt]
              apply cntB_congr
              intro p hp1 hp2
              rw [decide_InShift_eq hd hw (by omega) (by omega)]
            rw [hcongr]
            have hle1 : rem2 * minuteMs ≤ rem * minuteMs :=
              Nat.mul_le_mul_right _ hrle
            rw [Nat.sub_mul]
            omega

lemma calculateEnd_count {start dur : Nat} {shifts : List Shift}
    {blocks : List Reservation} {endMs : Nat}
    (heh : ∀ s ∈ shifts, s.endHour ≤ 23)
    (hbal : ∀ r ∈ blocks, r.start % minuteMs = 0 ∧ r.stop % minuteMs = 0)
    (hstart : start % minuteMs = 0)
    (h : calculateEndDateWithShiftsAndMaintenance start dur shifts blocks = .ok endMs) :
    start ≤ endMs ∧ endMs % minuteMs = 0 ∧
    cntB (fun p => decide (InShift shifts p) && !resCoverB blocks p) start endMs =
      dur * minuteMs := by
  unfold calculateEndDateWithShiftsAndMaintenance at h
  split at h
  · rename_i hz
    cases h
    subst hz
    refine ⟨le_refl _, hstart, ?_⟩
    unfold cntB
    rw [Finset.Ico_self]
    simp
  · split at h
    · cases h
    · rename_i cursor hsnap
      have hge := snapGo_ge hsnap
      have hcal : cursor % minuteMs = 0 := snapGo_aligned hstart hsnap
      rcases snapGo_ok_spec heh hsnap with ⟨_, _, hleast⟩
      rcases calcGo_count heh hbal 90 cursor dur endMs hcal h with ⟨h1, h2, h3⟩
      have hzero : cntB (fun p => decide (InShift shifts p) &&
          !resCoverB blocks p) start cursor = 0 := by
        apply cntB_zero
        intro p hp1 hp2
        rw [decide_eq_false (hleast p hp1 hp2), Bool.false_and]
      refine ⟨by omega, h2, ?_⟩
      rw [cntB_split hge h1, hzero, h3]
      omega

/-! ## Lemmas for claim C3: minute alignment through the placement loop. -/

lemma mergeInto_align :
    ∀ (rest : List Reservation) (cur : Reservation),
    cur.start % minuteMs = 0 ∧ cur.stop % minuteMs = 0 →
    (∀ r ∈ rest, r.start % minuteMs = 0 ∧ r.stop % minuteMs = 0) →
    ∀ x ∈ mergeInto cur rest, x.start % minuteMs = 0 ∧ x.stop % minuteMs = 0 := by
  intro rest
  induction rest with
  | nil =>
    intro cur hc _ x hx
    rcases List.mem_singleton.1 hx with rfl
    exact hc
  | cons r rest ih =>
    intro cur hc hr x hx
    have hrh := hr r (List.mem_cons_self _ _)
    simp only [mergeInto] at hx
    split at hx
    · refine ih { cur with stop := if cur.stop < r.stop then r.stop else cur.stop }
        ⟨hc.1, ?_⟩ (fun r' hr' => hr r' (List.mem_cons_of_mem _ hr')) x hx
      dsimp
      split
      · exact hrh.2
      · exact hc.2
    · rcases List.mem_cons.1 hx with rfl | hx
      · exact hc
      · exact ih r hrh (fun r' hr' => hr r' (List.mem_cons_of_mem _ hr')) x hx

lemma mergeReservations_align {rs : List Reservation}
    (hal : ∀ r ∈ rs, r.start % minuteMs = 0 ∧ r.stop % minuteMs = 0) :
    ∀ x ∈ mergeReservations rs, x.start % minuteMs = 0 ∧ x.stop % minuteMs = 0 := by
  intro x hx
  unfold mergeReservations at hx
  split at hx
  · cases hx
  · rename_i z rest hsort
    have hmem : ∀ y ∈ z :: rest, y.start % minuteMs = 0 ∧ y.stop % minuteMs = 0 := by
      intro y hy
      refine hal y ?_
      rw [← @mem_sortReservations y rs, hsort]
      exact hy
    exact mergeInto_align rest z (hmem z (List.mem_cons_self _ _))
      (fun r hr => hmem r (List.mem_cons_of_mem _ hr)) x hx

lemma earliestFromParents_aligned {sch : SMap (Nat × Nat)} {wn : String}
    (hal : ∀ id iv, sch.get? id = some iv →
      iv.1 % minuteMs = 0 ∧ iv.2 % minuteMs = 0) :
    ∀ (deps : List String) (acc r : Nat), acc % minuteMs = 0 →
    earliestFromParents sch wn deps acc = .ok r → r % minuteMs = 0 := by
  intro deps
  induction deps with
  | nil =>
    intro acc r hacc h
    simp only [earliestFromParents] at h
    cases h
    exact hacc
  | cons pid rest ih =>
    intro acc r hacc h
    simp only [earliestFromParents] at h
    split at h
    · cases h
    · rename_i p hp
      refine ih _ r ?_ h
      split
      · exact (hal pid p hp).2
      · exact hacc

lemma findFeasibleGo_aligned {shifts : List Shift} {rs : List Reservation} {wn : String}
    (hral : ∀ r ∈ rs, r.start % minuteMs = 0 ∧ r.stop % minuteMs = 0) :
    ∀ (fuel cursor r : Nat), cursor % minuteMs = 0 →
    findFeasibleGo shifts rs wn fuel cursor = .ok r → r % minuteMs = 0 := by
  intro fuel
  induction fuel with
  | zero =>
    intro cursor r _ h
    cases h
  | succ fuel ih =>
    intro cursor r hcal h
    simp only [findFeasibleGo] at h
    split at h
    · rename_i inside hfind
      split at h
      · cases h
      · rename_i cursor' hsnap
        have hins : inside ∈ rs := List.mem_of_find?_eq_some hfind
        exact ih cursor' r (snapGo_aligned (hral inside hins).2 hsnap) h
    · cases h
      exact hcal

lemma findFeasibleStart_aligned {shifts : List Shift} {rs : List Reservation}
    {wn : String} {earliest r : Nat}
    (hral : ∀ r ∈ rs, r.start % minuteMs = 0 ∧ r.stop % minuteMs = 0)
    (he : earliest % minuteMs = 0)
    (h : findFeasibleStart shifts rs wn earliest = .ok r) : r % minuteMs = 0 := by
  unfold findFeasibleStart at h
  split at h
  · cases h
  · rename_i cursor hsnap
    exact findFeasibleGo_aligned hral 500 cursor r (snapGo_aligned he hsnap) h

lemma resolveGo_aligned {shifts : List Shift} {rs : List Reservation} {dur : Nat}
    {wn : String} (heh : ∀ s ∈ shifts, s.endHour ≤ 23)
    (hral : ∀ r ∈ rs, r.start % minuteMs = 0 ∧ r.stop % minuteMs = 0) :
    ∀ (fuel s e s' e' : Nat), s % minuteMs = 0 → e % minuteMs = 0 →
    resolveGo shifts rs dur wn fuel s e = .ok (s', e') →
    s' % minuteMs = 0 ∧ e' % minuteMs = 0 := by
  intro fuel
  induction fuel with
  | zero =>
    intro s e s' e' _ _ h
    cases h
  | succ fuel ih =>
    intro s e s' e' hs he h
    simp only [resolveGo] at h
    split at h
    · cases h
    · rename_i hov
      cases h
      exact ⟨hs, he⟩
    · rename_i overlap hov
      split at h
      · cases h
      · rename_i s1 hsnap
        split at h
        · cases h
        · rename_i e1 hcalc
          have hoal : overlap.stop % minuteMs = 0 :=
            (hral overlap (firstOverlap_some hov).2).2
          have hs1 : s1 % minuteMs = 0 := snapGo_aligned hoal hsnap
          have he1 : e1 % minuteMs = 0 := (calculateEnd_count heh hral hs1 hcalc).2.1
          exact ih s1 e1 s' e' hs1 he1 h

/-! ## Lemmas for claim C3: the conservation invariant `CInv`. -/

lemma resAt_align {wcById : SMap WorkCenterDoc} {woById : SMap WorkOrderDoc}
    {st : PlaceState} (hc : CInv wcById woById st) (k : String) :
    ∀ r ∈ resAt st k, r.start % minuteMs = 0 ∧ r.stop % minuteMs = 0 := by
  unfold resAt
  cases hg : st.reservationsByWc.get? k with
  | none => simp
  | some l =>
    intro r hr
    exact hc.resAlign k l hg r (by simpa using hr)

lemma processOne_cinv {wcById : SMap WorkCenterDoc} {woById : SMap WorkOrderDoc}
    {st : PlaceState} {woId : String} {st' : PlaceState}
    (hkeyWo : ∀ id wo, woById.get? id = some wo → wo.docId = id)
    (hkeyWc : ∀ k wc, wcById.get? k = some wc → wc.docId = k)
    (hsh23 : ∀ k wc, wcById.get? k = some wc → ∀ s ∈ wc.data.shifts, s.endHour ≤ 23)
    (hwoAl : ∀ id wo, woById.get? id = some wo →
      wo.data.startDate % minuteMs = 0 ∧ wo.data.endDate % minuteMs = 0)
    (hinv : LoopInv wcById woById st) (hc : CInv wcById woById st)
    (h : processOne wcById woById st woId = .ok st') :
    CInv wcById woById st' := by
  rcases processOne_ok h with ⟨rfl, _⟩ | hrun
  · exact hc
  · rcases hrun with ⟨wo, wc, earliest, feasible, endMs, fin, hwo, hmf, hwc,
      hear, hfe, hcalc, hres, hR, hS⟩
    have hwoid : wo.docId = woId := hkeyWo _ _ hwo
    have hwcid : wc.docId = wo.data.workCenterId := hkeyWc _ _ hwc
    have heh : ∀ s ∈ wc.data.shifts, s.endHour ≤ 23 := hsh23 _ _ hwc
    have hral := resAt_align hc wc.docId
    have hsorted := resAt_pairwise hinv wc.docId
    have hEarAl : earliest % minuteMs = 0 :=
      earliestFromParents_aligned hc.schedAlign _ _ _ (hwoAl _ _ hwo).1 hear
    have hfeAl : feasible % minuteMs = 0 := findFeasibleStart_aligned hral hEarAl hfe
    have hEndAl : endMs % minuteMs = 0 := (calculateEnd_count heh hral hfeAl hcalc).2.1
    have hfinal : fin.1 % minuteMs = 0 ∧ fin.2 % minuteMs = 0 :=
      resolveGo_aligned heh hral 500 feasible endMs fin.1 fin.2 hfeAl hEndAl hres
    rcases resolveGo_ok hres with ⟨hfle, hnone, hsnapor⟩
    have hcalcfin : calculateEndDateWithShiftsAndMaintenance fin.1
        wo.data.durationMinutes wc.data.shifts (resAt st wc.docId) = .ok fin.2 := by
      rcases hsnapor with ⟨h1, h2⟩ | ⟨_, hcf⟩
      · rw [h1, h2]
        exact hcalc
      · exact hcf
    have hcount := (calculateEnd_count heh hral hfinal.1 hcalcfin).2.2
    rcases firstOverlap_none hsorted hnone with ⟨hvfin, hfree⟩
    have hrescov : ∀ p, fin.1 ≤ p → p < fin.2 → resCoverB (resAt st wc.docId) p =
        false := by
      intro p hp1 hp2
      rw [resCoverB_false_iff]
      intro r hr hcr
      exact hfree r hr p hcr.1 hcr.2 ⟨hp1, hp2⟩
    have hInCnt : cntB (fun p => decide (InShift wc.data.shifts p)) fin.1 fin.2 =
        wo.data.durationMinutes * minuteMs := by
      rw [← hcount]
      apply cntB_congr
      intro p hp1 hp2
      rw [hrescov p hp1 hp2, Bool.not_false, Bool.and_true]
    have hmwfree : ∀ p, fin.1 ≤ p → p < fin.2 →
        mwCoversB wc.data.maintenanceWindows p = false := by
      intro p hp1 hp2
      cases hmw : mwCoversB wc.data.maintenanceWindows p with
      | false => rfl
      | true =>
        exfalso
        rcases mwCoversB_true_iff.1 hmw with ⟨mw, hmwm, hc1, hc2⟩
        rcases hinv.mwCover wo.data.workCenterId wc hwc mw hmwm p hc1 hc2 with
          ⟨r, hr, hr1, hr2⟩
        rw [← hwcid] at hr
        exact hfree r hr p hr1 hr2 ⟨hp1, hp2⟩
    have hworking : workingMs wc.data.shifts wc.data.maintenanceWindows fin.1 fin.2 =
        wo.data.durationMinutes * minuteMs := by
      unfold workingMs
      rw [← hInCnt]
      apply cntB_congr
      intro p hp1 hp2
      rw [hmwfree p hp1 hp2, Bool.not_false, Bool.and_true]
    refine ⟨?_, ?_, ?_⟩
    · intro k l hget r hr
      rw [hR] at hget
      by_cases hk : k = wc.docId
      · subst hk
        rw [SMap.get?_set_self] at hget
        injection hget with hget
        subst hget
        refine mergeReservations_align ?_ r hr
        intro r' hr'
        rcases List.mem_append.1 hr' with hr' | hr'
        · exact hral r' hr'
        · rcases List.mem_singleton.1 hr' with rfl
          exact hfinal
      · rw [SMap.get?_set_ne _ _ _ _ hk] at hget
        exact hc.resAlign k l hget r hr
    · intro id iv hget
      rw [hS] at hget
      by_cases hk : id = wo.docId
      · subst hk
        rw [SMap.get?_set_self] at hget
        injection hget with hget
        subst hget
        exact hfinal
      · rw [SMap.get?_set_ne _ _ _ _ hk] at hget
        exact hc.schedAlign id iv hget
    · intro id iv wo' hget hwo' hmf' wc' hwc'
      rw [hS] at hget
      by_cases hk : id = wo.docId
      · subst hk
        rw [SMap.get?_set_self] at hget
        injection hget with hget
        subst hget
        rw [hwoid] at hwo'
        rw [hwo] at hwo'
        injection hwo' with hwo'
        subst hwo'
        rw [hwc] at hwc'
        injection hwc' with hwc'
        subst hwc'
        exact hworking
      · rw [SMap.get?_set_ne _ _ _ _ hk] at hget
        exact hc.schedCons id iv wo' hget hwo' hmf' wc' hwc'

lemma placeAll_cinv {wcById : SMap WorkCenterDoc} {woById : SMap WorkOrderDoc}
    (hkeyWo : ∀ id wo, woById.get? id = some wo → wo.docId = id)
    (hkeyWc : ∀ k wc, wcById.get? k = some wc → wc.docId = k)
    (hsh23 : ∀ k wc, wcById.get? k = some wc → ∀ s ∈ wc.data.shifts, s.endHour ≤ 23)
    (hwoAl : ∀ id wo, woById.get? id = some wo →
      wo.data.startDate % minuteMs = 0 ∧ wo.data.endDate % minuteMs = 0) :
    ∀ (topo : List String) (st st' : PlaceState),
    topo.Nodup →
    (∀ id ∈ topo, ∀ wo, woById.get? id = some wo → wo.data.isMaintenance = false →
      st.scheduled.get? id = none) →
    LoopInv wcById woById st →
    CInv wcById woById st →
    placeAll wcById woById st topo = .ok st' →
    CInv wcById woById st' := by
  intro topo
  induction topo with
  | nil =>
    intro st st' _ _ _ hc h
    simp only [placeAll, List.foldlM_nil] at h
    cases h
    exact hc
  | cons woId rest ih =>
    intro st st' hnd hfr hinv hc h
    simp only [placeAll, List.foldlM_cons] at h
    cases hstep : processOne wcById woById st woId with
    | error e =>
      rw [hstep] at h
      cases h
    | ok st1 =>
      rw [hstep] at h
      have h' : placeAll wcById woById st1 rest = .ok st' := h
      rcases List.nodup_cons.1 hnd with ⟨hwni, hndr⟩
      rcases processOne_inv hkeyWo hkeyWc hsh23
        (fun wo hwo hmfx => hfr woId (List.mem_cons_self _ _) wo hwo hmfx)
        hinv hstep with ⟨hinv1, _hpersist1, hfreshp1, _⟩
      have hc1 : CInv wcById woById st1 :=
        processOne_cinv hkeyWo hkeyWc hsh23 hwoAl hinv hc hstep
      have hfr1 : ∀ id ∈ rest, ∀ wo, woById.get? id = some wo →
          wo.data.isMaintenance = false → st1.scheduled.get? id = none := by
        intro id hid wo hwo hmfx
        have hne : ¬ id = woId := fun hidw => hwni (hidw ▸ hid)
        exact hfreshp1 id (hfr id (List.mem_cons_of_mem _ hid) wo hwo hmfx) hne
      exact ih st1 st' hndr hfr1 hinv1 hc1 h'

/-! ## Lemmas for claim C3: the invariant at the initial state. -/

lemma seed_shape {workOrders : List WorkOrderDoc} {wc : WorkCenterDoc} :
    ∀ r ∈ seedReservations workOrders wc,
    (∃ mw ∈ wc.data.maintenanceWindows,
      r.start = mw.startDate ∧ r.stop = mw.endDate) ∨
    (∃ wo ∈ workOrders, r.start = wo.data.startDate ∧ r.stop = wo.data.endDate) := by
  intro r hr
  unfold seedReservations at hr
  rcases List.mem_append.1 hr with hr | hr
  · rcases List.mem_map.1 hr with ⟨mw, hmw, rfl⟩
    exact Or.inl ⟨mw, hmw, rfl, rfl⟩
  · rcases List.mem_map.1 hr with ⟨wo, hwo, rfl⟩
    exact Or.inr ⟨wo, (List.mem_filter.1 hwo).1, rfl, rfl⟩

lemma initialState_cinv {input : ReflowInput}
    (hnd : (input.workOrders.map (·.docId)).Nodup)
    (hwoA : ∀ wo ∈ input.workOrders,
      wo.data.startDate % minuteMs = 0 ∧ wo.data.endDate % minuteMs = 0)
    (hmwA : ∀ wc ∈ input.workCenters, ∀ mw ∈ wc.data.maintenanceWindows,
      mw.startDate % minuteMs = 0 ∧ mw.endDate % minuteMs = 0) :
    CInv (wcIndex input) (woIndex input) (initialState input) := by
  refine ⟨?_, ?_, ?_⟩
  · intro k l hget r hr
    rcases initialState_res_shape hget with ⟨wc, hwcm, rfl⟩
    refine mergeReservations_align ?_ r hr
    intro r' hr'
    rcases seed_shape r' hr' with ⟨mw, hmw, h1, h2⟩ | ⟨wo, hwom, h1, h2⟩
    · rw [h1, h2]
      exact hmwA wc hwcm mw hmw
    · rw [h1, h2]
      exact hwoA wo hwom
  · intro id iv hget
    rw [initialState_sched] at hget
    split at hget
    · rename_i wo hfind
      injection hget with hget
      subst hget
      have hmem : wo ∈ input.workOrders :=
        (List.mem_filter.1 (List.mem_reverse.1 (List.mem_of_find?_eq_some hfind))).1
      exact hwoA wo hmem
    · cases hget
  · intro id iv wo hget hwo hmf wc hwc
    exfalso
    rw [initial_sched_maint hnd hwo, hmf] at hget
    simp at hget

/-- `reflow_final` strengthened with the C3 conservation invariant, under the
minute-alignment hypotheses on the input dates. -/
lemma reflow_c3 {input : ReflowInput} {res : ReflowResult}
    (h : reflow input = .ok res)
    (hwoA : ∀ wo ∈ input.workOrders,
      wo.data.startDate % minuteMs = 0 ∧ wo.data.endDate % minuteMs = 0)
    (hmwA : ∀ wc ∈ input.workCenters, ∀ mw ∈ wc.data.maintenanceWindows,
      mw.startDate % minuteMs = 0 ∧ mw.endDate % minuteMs = 0) :
    ∃ st : PlaceState,
      res.updatedWorkOrders = input.workOrders.map (applySchedule st.scheduled) ∧
      (input.workOrders.map (·.docId)).Nodup ∧
      CInv (wcIndex input) (woIndex input) st ∧
      (∀ wo ∈ input.workOrders, wo.data.isMaintenance = false →
        ∃ iv, st.scheduled.get? wo.docId = some iv) := by
  rcases reflow_ok_destruct h with ⟨hval, topo, st, htopo, hplace, hupd, hch⟩
  rcases validate_ok_facts hval with ⟨hwos, hwcs⟩
  rcases topoSortOrThrow_ok_facts htopo with ⟨htnd, hnd, htmem⟩
  have hkeyWo : ∀ id wo, (woIndex input).get? id = some wo → wo.docId = id :=
    fun id wo hw => (woIndex_facts hw).2
  have hkeyWc : ∀ k wc, (wcIndex input).get? k = some wc → wc.docId = k :=
    fun k wc hw => (wcIndex_facts hw).2
  have hsh23 : ∀ k wc, (wcIndex input).get? k = some wc →
      ∀ s ∈ wc.data.shifts, s.endHour ≤ 23 := fun k wc hw s hs =>
    validWorkCenter_sh23 (hwcs wc (wcIndex_facts hw).1) s hs
  have hwoAl : ∀ id wo, (woIndex input).get? id = some wo →
      wo.data.startDate % minuteMs = 0 ∧ wo.data.endDate % minuteMs = 0 :=
    fun id wo hw => hwoA wo (woIndex_facts hw).1
  have hfresh : ∀ id ∈ topo, ∀ wo, (woIndex input).get? id = some wo →
      wo.data.isMaintenance = false →
      (initialState input).scheduled.get? id = none := by
    intro id hid wo hw hm
    rw [initial_sched_maint hnd hw]
    simp [hm]
  rcases placeAll_inv hkeyWo hkeyWc hsh23 topo _ st htnd hfresh (initialState_inv hnd)
    hplace with ⟨hinv, hpersist, hcomplete⟩
  have hc := placeAll_cinv hkeyWo hkeyWc hsh23 hwoAl topo _ st htnd hfresh
    (initialState_inv hnd) (initialState_cinv hnd hwoA hmwA) hplace
  refine ⟨st, hupd, hnd, hc, ?_⟩
  intro wo hwo hm
  have hidt : wo.docId ∈ topo := (htmem _).2 (List.mem_map.2 ⟨wo, hwo, rfl⟩)
  exact hcomplete wo.docId hidt wo (woIndex_self hnd hwo) hm

/-- Claim C3 counterexample: the claim quantifies over EVERY work order, but a
maintenance work order is written back with its fixed input interval and its
`durationMinutes` is never consulted.  On `fxC3in` the maintenance work order
`M4` spans the fully in-shift, maintenance-free window 08:00-10:00 (120
working minutes) while its `durationMinutes` is 5, and `reflow` succeeds
returning it unchanged: the conservation property fails for it. -/
theorem C3_counterexample :
    reflow fxC3in = .ok ⟨[fxM4], [],
      ["Reflow complete. Updated 0 work orders.",
       "Strategy: topo-sort dependencies + earliest-feasible scheduling per work center with shift + maintenance calendars."]⟩ ∧
    fxM4.data.isMaintenance = true ∧
    workingMs fxWc1.data.shifts fxWc1.data.maintenanceWindows
      fxM4.data.startDate fxM4.data.endDate ≠
      fxM4.data.durationMinutes * minuteMs := by
  refine ⟨by rfl, rfl, ?_⟩
  have hfull : workingMs fxWc1.data.shifts fxWc1.data.maintenanceWindows
      (8 * hourMs) (10 * hourMs) = 10 * hourMs - 8 * hourMs := by
    unfold workingMs
    apply cntB_full
    intro p hp1 hp2
    have hdiv : p / dayMs = 0 := by
      apply Nat.div_eq_of_lt
      unfold hourMs at hp2
      unfold dayMs
      omega
    have hin : InShift fxWc1.data.shifts p := by
      refine ⟨⟨4, 8, 17⟩, List.mem_singleton.2 rfl, ?_, ?_, ?_⟩
      · unfold luxonDowToSpecDayOfWeek luxonWeekday
        rw [hdiv]
      · unfold startOfDay
        rw [hdiv]
        show 0 * dayMs + 8 * hourMs ≤ p
        unfold hourMs at hp1 ⊢
        unfold dayMs
        omega
      · unfold startOfDay
        rw [hdiv]
        show p < 0 * dayMs + 17 * hourMs
        unfold hourMs at hp2 ⊢
        unfold dayMs
        omega
    rw [decide_eq_true hin]
    rfl
  rw [show fxM4.data.startDate = 8 * hourMs from rfl,
    show fxM4.data.endDate = 10 * hourMs from rfl, hfull]
  decide

/-- Claim C3 (amended): the conservation law holds for NON-MAINTENANCE work
orders on minute-aligned inputs.  On every input for which `reflow` succeeds
in which every work order's `startDate`/`endDate` and every maintenance
window's bounds are whole minutes, every non-maintenance work order `w` is
scheduled so that the milliseconds in `[newStart, newEnd)` lying inside some
shift window of `w`'s work center (on their own calendar day) and outside
every maintenance window of that work center total exactly
`w.durationMinutes * minuteMs`, i.e. exactly `durationMinutes` working
minutes.  (Maintenance work orders are exempt per the counterexample; without
the alignment restriction a partially consumed fractional-minute part can
break exactness.) -/
theorem C3_working_minutes_conservation {input : ReflowInput} {res : ReflowResult}
    (h : reflow input = .ok res)
    (hwoA : ∀ wo ∈ input.workOrders,
      wo.data.startDate % minuteMs = 0 ∧ wo.data.endDate % minuteMs = 0)
    (hmwA : ∀ wc ∈ input.workCenters, ∀ mw ∈ wc.data.maintenanceWindows,
      mw.startDate % minuteMs = 0 ∧ mw.endDate % minuteMs = 0) :
    ∀ wo ∈ input.workOrders, wo.data.isMaintenance = false →
    ∀ wo' ∈ res.updatedWorkOrders, wo'.docId = wo.docId →
    ∀ wc, (wcIndex input).get? wo.data.workCenterId = some wc →
      workingMs wc.data.shifts wc.data.maintenanceWindows
        wo'.data.startDate wo'.data.endDate =
        wo.data.durationMinutes * minuteMs := by
  rcases reflow_c3 h hwoA hmwA with ⟨st, hupd, hnd, hc, hcomp⟩
  intro wo hwo hmf wo' hmem' hid wc hwc
  rw [hupd] at hmem'
  have hpin := updated_pin hnd hmem' hwo hid
  subst hpin
  rcases hcomp wo hwo hmf with ⟨iv, hiv⟩
  rw [applySchedule_entry hmf hiv]
  exact hc.schedCons wo.docId iv wo hiv (woIndex_self hnd hwo) hmf wc hwc

/-- Witness for the amended C3: on the two-work-order chain fixture (single
Thursday 08:00-17:00 shift, no maintenance windows, minute-aligned dates), the
placed work order `B` occupies 08:00-09:00, which carries exactly its 60
working minutes. -/
theorem C3_witness :
    reflow fxW2in = .ok fxW2out ∧
    workingMs fxWc1.data.shifts fxWc1.data.maintenanceWindows
      fxB.data.startDate fxB.data.endDate =
      fxB.data.durationMinutes * minuteMs :=
  ⟨by rfl,
   @C3_working_minutes_conservation fxW2in fxW2out (by rfl) (by decide) (by decide)
     fxB (by decide) rfl fxB (by decide) rfl fxWc1 (by rfl)⟩
